import Mathlib

/-!
Verification development for `ext/amp/mercurial_patch/mpatch.c` and
`ext/amp/support/support.c`.

A shallow embedding of the Mercurial patch engine (decode / gather / discard /
combine / calcsize / apply / fold / apply_patches / patched_size) and of
`unhexlify` and `byte_swap_64`.

Conventions of the embedding (LP64 host, 32-bit `int`, 64-bit `long`):

* a `uint32_t` is a `Nat` kept below `2^32` by `u32`;
* an `int` is an `Int` kept in `[-2^31, 2^31)` by `i32`; every store into an
  `int` and every arithmetic result goes through `i32`, every conversion to
  unsigned goes through `u32` (two's complement, as gcc and clang define the
  out-of-range conversions);
* a `const char *` is a `ptr`: the buffer it points into and the offset;
* `rb_raise` is the outcome `raise msg`; a loop or recursion that does not
  come back is the outcome `diverge`, and so is a call in which a `memcpy`
  reads outside the base text `orig` (the process is killed there);
* a `struct flist` is the list of fragments between `head` and `tail`;
  allocation is assumed to succeed.
-/

namespace Mpatch

/-- Conversion of an integer value to `uint32_t`. -/
def u32 (x : Int) : Nat := (x % 4294967296).toNat

/-- Conversion of an integer value to a 32-bit `int` (two's complement). -/
def i32 (x : Int) : Int := (x + 2147483648) % 4294967296 - 2147483648

/-- A `const char *`: the buffer pointed into, and the offset inside it. -/
structure ptr where
  buf : List UInt8
  off : Int
deriving DecidableEq, Repr

/-- Pointer arithmetic `p + n`. -/
def ptr.add (p : ptr) (n : Int) : ptr := ⟨p.buf, p.off + n⟩

/-- The `n` bytes a `memcpy(_, p, n)` reads. -/
def ptr.read (p : ptr) (n : Nat) : List UInt8 := (p.buf.drop p.off.toNat).take n

/-- `struct frag`. -/
structure frag where
  start : Nat
  end_ : Nat
  len : Nat
  data : ptr
deriving DecidableEq, Repr

/-- What a call can do: return a value, raise a Ruby exception, or never return. -/
inductive Outcome (α : Type) where
  | ok (val : α)
  | raise (msg : String)
  | diverge
deriving DecidableEq, Repr

/-- `gather(dest, src, cut, offset)`: the new `dest`, the new `src` and the returned offset. -/
def gather (dest : List frag) : List frag → Int → Int → List frag × List frag × Int
  | [], _, offset => (dest, [], offset)
  | s :: rest, cut, offset =>
    if u32 (s.start + offset) ≥ u32 cut then (dest, s :: rest, offset)
    else
      let postend := i32 (offset + s.start + s.len)
      if postend ≤ cut then
        gather (dest ++ [s]) rest cut (i32 (offset + (s.start + s.len - s.end_)))
      else
        let c0 := i32 (cut - offset)
        let c := if s.end_ < u32 c0 then i32 s.end_ else c0
        let l0 := i32 (cut - offset - s.start)
        let l := if s.len < u32 l0 then i32 s.len else l0
        (dest ++ [⟨s.start, u32 c, u32 l, s.data⟩],
         ⟨u32 c, s.end_, u32 (s.len - l), s.data.add l⟩ :: rest,
         i32 (offset + (s.start + l - c)))

/-- `discard(src, cut, offset)`: the new `src` and the returned offset. -/
def discard : List frag → Int → Int → List frag × Int
  | [], _, offset => ([], offset)
  | s :: rest, cut, offset =>
    if u32 (s.start + offset) ≥ u32 cut then (s :: rest, offset)
    else
      let postend := i32 (offset + s.start + s.len)
      if postend ≤ cut then
        discard rest cut (i32 (offset + (s.start + s.len - s.end_)))
      else
        let c0 := i32 (cut - offset)
        let c := if s.end_ < u32 c0 then i32 s.end_ else c0
        let l0 := i32 (cut - offset - s.start)
        let l := if s.len < u32 l0 then i32 s.len else l0
        (⟨u32 c, s.end_, u32 (s.len - l), s.data.add l⟩ :: rest,
         i32 (offset + (s.start + l - c)))

/-- The `for` loop of `combine`: `c` is the output list, `a` the older list,
the third argument what is left of `b`, `offset` the running offset. Returns
the output list and what is left of `a`. -/
def combineLoop (c a : List frag) : List frag → Int → List frag × List frag
  | [], _ => (c, a)
  | bh :: bt, offset =>
    let g := gather c a (i32 bh.start) offset
    let d := discard g.2.1 (i32 bh.end_) g.2.2
    let post := d.2
    combineLoop (g.1 ++ [⟨u32 (bh.start - g.2.2), u32 (bh.end_ - post), bh.len, bh.data⟩])
      d.1 bt post

/-- `combine(a, b)`. -/
def combine (a b : List frag) : List frag :=
  let r := combineLoop [] a b 0
  r.1 ++ r.2

/-- The big-endian 32-bit word at offset `i` of `b`: `ntohl(*(uint32_t *)(b + i))`. -/
def be32 (b : List UInt8) (i : Nat) : Nat :=
  (b.getD i 0).toNat * 16777216 + (b.getD (i + 1) 0).toNat * 65536
    + (b.getD (i + 2) 0).toNat * 256 + (b.getD (i + 3) 0).toNat

/-- The `while (data <= end)` loop of `decode`. `bin` and `data` are offsets
into `buf`, `endp` is the offset `len` of `end`, `lt` the fragments stored so
far. Returns the final `bin` and the fragments; `none` when the fuel is used up. -/
def decodeLoop (buf : List UInt8) (endp : Int) :
    Nat → Nat → Nat → List frag → Option (Nat × List frag)
  | 0, _, _, _ => none
  | fuel + 1, bin, data, lt =>
    if (data : Int) ≤ endp then
      let start := be32 buf bin
      let end_ := be32 buf (bin + 4)
      let len := be32 buf (bin + 8)
      if start > end_ then some (bin, lt)
      else
        let bin1 := data + len
        if bin1 < data then some (bin1, lt)
        else decodeLoop buf endp fuel bin1 (bin1 + 12) (lt ++ [⟨start, end_, len, ⟨buf, data⟩⟩])
    else some (bin, lt)

/-- `decode(bin, len)`. Every pass of the loop moves `bin` forward by at least
12 bytes, so `len / 12 + 1` passes always suffice (see `decodeLoop_fuel`). -/
def decode (bin : List UInt8) (len : Int) : Outcome (List frag) :=
  match decodeLoop bin len (len.toNat / 12 + 1) 0 12 [] with
  | none => .diverge
  | some (b, lt) => if (b : Int) ≠ len then .raise "patch cannot be decoded" else .ok lt

/-- The loop of `calcsize`, with the final `outlen += len - last`. -/
def calcsizeLoop (len : Int) : List frag → Int → Int → Outcome Int
  | [], outlen, last => .ok (i32 (outlen + i32 (len - last)))
  | f :: r, outlen, last =>
    if f.start < u32 last ∨ f.end_ > u32 len then .raise "invalid patch"
    else calcsizeLoop len r (i32 (i32 (outlen + (f.start - last)) + f.len)) (i32 f.end_)

/-- `calcsize(len, l)`. -/
def calcsize (len : Int) (l : List frag) : Outcome Int := calcsizeLoop len l 0 0

/-- Conversion of an integer value to `size_t`. -/
def usize (x : Int) : Nat := (x % 18446744073709551616).toNat

/-- The bytes `memcpy(p, orig + off, n)` copies out of the base text: `some` of
the `n` bytes at offset `off` of `orig` when they all lie inside `orig` (a copy
of no byte reads nothing), `none` when a byte outside `orig` would be read. -/
def copyFrom (orig : List UInt8) (off : Int) (n : Nat) : Option (List UInt8) :=
  if n = 0 then some []
  else if 0 ≤ off ∧ off + n ≤ orig.length then some ((orig.drop off.toNat).take n)
  else none

/-- The loop of `apply` with the final copy; `out` is what has been written to
`buf` so far. A copy that reads outside `orig` does not come back: it is the
outcome `diverge`. -/
def applyLoop (orig : List UInt8) (len : Int) : List frag → Int → List UInt8 → Outcome (List UInt8)
  | [], last, out =>
    match copyFrom orig last (usize (i32 (len - last))) with
    | none => .diverge
    | some t => .ok (out ++ t)
  | f :: r, last, out =>
    if f.start < u32 last ∨ f.end_ > u32 len then .raise "invalid patch"
    else
      match copyFrom orig last (u32 (f.start - last)) with
      | none => .diverge
      | some t => applyLoop orig len r (i32 f.end_) (out ++ t ++ f.data.read f.len)

/-- `apply(buf, orig, len, l)`: the bytes written to `buf`, in order. -/
def apply (orig : List UInt8) (len : Int) (l : List frag) : Outcome (List UInt8) :=
  applyLoop orig len l 0 []

/-- `fold(bins, start, end)`. The fuel bounds the recursion depth; running out
of it is `diverge`. An index outside the array is not modelled further
(`rb_ary_entry` gives `nil` there, which `rb_str_new3` cannot take): it is
`diverge` too. -/
def fold (bins : List (List UInt8)) : Nat → Int → Int → Outcome (List frag)
  | 0, _, _ => .diverge
  | fuel + 1, start, end_ =>
    if i32 (start + 1) = end_ then
      if 0 ≤ start then
        match bins.get? start.toNat with
        | some str => decode str (i32 str.length)
        | none => .diverge
      else .diverge
    else
      let len := Int.tdiv (i32 (end_ - start)) 2
      match fold bins fuel start (i32 (start + len)), fold bins fuel (i32 (start + len)) end_ with
      | .ok a, .ok b => .ok (combine a b)
      | .diverge, _ => .diverge
      | _, .diverge => .diverge
      | .raise m, _ => .raise m
      | _, .raise m => .raise m

/-- The body of `amp_mpatch_apply_patches` from `patch = fold(bins, 0, len)`
on: `inlen` and `len` are the `int` lengths of `text` and `bins`; `none` is
`Qnil`. The fold is given fuel `len`, more than its depth on a range of `len`
blobs. -/
def patch_text (text : List UInt8) (inlen : Int) (bins : List (List UInt8)) (len : Int) :
    Outcome (Option (List UInt8)) :=
  match fold bins len.toNat 0 len with
  | .diverge => .diverge
  | .raise m => .raise m
  | .ok patch =>
    match calcsize inlen patch with
    | .diverge => .diverge
    | .raise m => .raise m
    | .ok outlen =>
      if outlen < 0 then .ok none
      else
        match apply text inlen patch with
        | .diverge => .diverge
        | .raise m => .raise m
        | .ok out => .ok (some out)

/-- `amp_mpatch_apply_patches(self, text, bins)`; `none` is `Qnil`. -/
def amp_mpatch_apply_patches (text : List UInt8) (bins : List (List UInt8)) :
    Outcome (Option (List UInt8)) :=
  if i32 bins.length = 0 then .ok (some text)
  else patch_text text (i32 text.length) bins (i32 bins.length)

/-- The `while (data <= binend)` loop of `amp_mpatch_patched_size`: returns the
final `bin`, `outlen` and `last`; `none` when the fuel is used up. -/
def patchedSizeLoop (buf : List UInt8) (binend : Int) :
    Nat → Nat → Nat → Nat → Nat → Option (Nat × Nat × Nat)
  | 0, _, _, _, _ => none
  | fuel + 1, bin, data, outlen, last =>
    if (data : Int) ≤ binend then
      let start := be32 buf bin
      let end_ := be32 buf (bin + 4)
      let len := be32 buf (bin + 8)
      if start > end_ then some (bin, outlen, last)
      else
        let bin1 := data + len
        if bin1 < data then some (bin1, outlen, last)
        else patchedSizeLoop buf binend fuel bin1 (bin1 + 12)
          (u32 ((u32 ((outlen : Int) + ((start : Int) - last)) : Int) + len)) end_
    else some (bin, outlen, last)

/-- The body of `amp_mpatch_patched_size` after its conversions: `orig` is the
`uint32_t` base length, `patchlen` the `int` length of the blob `bin`. -/
def patched_size (orig : Nat) (bin : List UInt8) (patchlen : Int) : Outcome Nat :=
  match patchedSizeLoop bin patchlen (patchlen.toNat / 12 + 1) 0 12 0 0 with
  | none => .diverge
  | some (b, outlen, last) =>
    if (b : Int) ≠ patchlen then .raise "patch cannot be decoded"
    else .ok (u32 ((outlen : Int) + ((orig : Int) - last)))

/-- `amp_mpatch_patched_size(self, orig_r, bin_r)`; `orig_r` is the value
`FIX2INT` yields, the result the value handed to `INT2FIX`. -/
def amp_mpatch_patched_size (orig_r : Int) (bin_r : List UInt8) : Outcome Nat :=
  patched_size (u32 orig_r) bin_r (i32 bin_r.length)

/-- The bytes of an ASCII string, for writing examples. -/
def bytes (s : String) : List UInt8 := s.toList.map (fun c => c.toNat.toUInt8)

/-! ## The wire format, as the specification words it -/

/-- One record of the wire format of the specification (section 6): `start`,
`end`, `len` and the `len` replacement bytes. -/
structure record where
  start : Nat
  end_ : Nat
  len : Nat
  data : List UInt8
deriving DecidableEq, Repr

/-- An unsigned 32-bit field in big-endian byte order (4 bytes). -/
def be32bytes (x : Nat) : List UInt8 :=
  [UInt8.ofNat (x / 16777216 % 256), UInt8.ofNat (x / 65536 % 256),
   UInt8.ofNat (x / 256 % 256), UInt8.ofNat (x % 256)]

/-- The wire format of the specification (section 6): zero or more records,
each the three big-endian fields followed by the data, packed with no padding. -/
def wire : List record → List UInt8
  | [] => []
  | r :: rs => be32bytes r.start ++ (be32bytes r.end_ ++ (be32bytes r.len ++ (r.data ++ wire rs)))

/-- A record the wire format can hold: `start ≤ end`, the three fields fit 32
bits, and `data` has exactly `len` bytes. -/
def record.WF (r : record) : Prop :=
  r.start ≤ r.end_ ∧ r.start < 4294967296 ∧ r.end_ < 4294967296 ∧ r.len < 4294967296 ∧
    r.data.length = r.len

instance (r : record) : Decidable r.WF := by unfold record.WF; infer_instance

/-- The record a fragment stands for: its fields and the `len` bytes at `data`. -/
def frag.toRecord (f : frag) : record := ⟨f.start, f.end_, f.len, f.data.read f.len⟩

/-- The fragments `decode` builds for the records `rs` laid out in `buf` from
offset `pos` on: each points at its data inside `buf`. -/
def fragsAt (buf : List UInt8) : Nat → List record → List frag
  | _, [] => []
  | pos, r :: rs =>
    ⟨r.start, r.end_, r.len, ⟨buf, ((pos + 12 : Nat) : Int)⟩⟩ :: fragsAt buf (pos + 12 + r.len) rs

/-! ## Denotation of a fragment list -/

/-- The bytes `T[a..b)`. -/
def seg (T : List UInt8) (a b : Nat) : List UInt8 := (T.drop a).take (b - a)

/-- The text a fragment list stands for, read from offset `last` of `T` up to
offset `stop`: unchanged bytes up to each fragment, then its replacement. -/
def den (T : List UInt8) : Nat → List frag → Nat → List UInt8
  | last, [], stop => seg T last stop
  | last, f :: r, stop => seg T last f.start ++ (f.data.read f.len ++ den T f.end_ r stop)

/-- The fragments are in ascending order from offset `last` on, none overlaps
its predecessor, each has `start ≤ end`, and all end at or before `L`. -/
def ValidFrom : Nat → Nat → List frag → Prop
  | last, L, [] => last ≤ L
  | last, L, f :: r => last ≤ f.start ∧ f.start ≤ f.end_ ∧ f.end_ ≤ L ∧ ValidFrom f.end_ L r

instance ValidFrom.dec : ∀ (last L : Nat) (l : List frag), Decidable (ValidFrom last L l)
  | last, L, [] => inferInstanceAs (Decidable (last ≤ L))
  | last, L, f :: r =>
    have := ValidFrom.dec f.end_ L r
    inferInstanceAs (Decidable (last ≤ f.start ∧ f.start ≤ f.end_ ∧ f.end_ ≤ L ∧ ValidFrom f.end_ L r))

/-- Some fragment starts before the end of its predecessor (before `last` for
the first one) or ends beyond `L`. -/
def Violation : Nat → Nat → List frag → Prop
  | _, _, [] => False
  | last, L, f :: r => f.start < last ∨ f.end_ > L ∨ Violation f.end_ L r

instance Violation.dec : ∀ (last L : Nat) (l : List frag), Decidable (Violation last L l)
  | _, _, [] => inferInstanceAs (Decidable False)
  | last, L, f :: r =>
    have := Violation.dec f.end_ L r
    inferInstanceAs (Decidable (f.start < last ∨ f.end_ > L ∨ Violation f.end_ L r))

/-- The net change of length a fragment list brings: the sum of
`len - (end - start)` over its fragments. -/
def growth (l : List frag) : Int := (l.map (fun f => (f.len : Int) - ((f.end_ : Int) - f.start))).sum

/-- The accumulation of `amp_mpatch_patched_size` over the records it walks:
`outlen += start - last; last = end; outlen += len`, in `uint32_t`. -/
def psAcc : Nat × Nat → List frag → Nat × Nat
  | acc, [] => acc
  | (outlen, last), g :: r =>
    psAcc (u32 ((u32 ((outlen : Int) + ((g.start : Int) - last)) : Int) + g.len), g.end_) r

/-- The `len` bytes at `data` lie inside the buffer `data` points into. -/
def DataOK (f : frag) : Prop := 0 ≤ f.data.off ∧ f.data.off + f.len ≤ f.data.buf.length

instance (f : frag) : Decidable (DataOK f) := by unfold DataOK; infer_instance

/-- The three index fields of a fragment, without its data pointer. -/
def frag.idx (f : frag) : Nat × Nat × Nat := (f.start, f.end_, f.len)

/-- The fragment with the same indices whose data is `len` zero bytes of its own. -/
def frag.canon (f : frag) : frag := ⟨f.start, f.end_, f.len, ⟨List.replicate f.len 0, 0⟩⟩

/-! ## Sequential application and consistent chains of deltas -/

/-- The indices `fold(bins, start, end)` hands to `rb_ary_entry` and `decode`,
in the order in which their fragments enter `combine` (older first): the
recursion of `fold` with every decoded list replaced by its index. `none` when
the fuel is used up. -/
def fold_decoded : Nat → Int → Int → Option (List Int)
  | 0, _, _ => none
  | fuel + 1, start, end_ =>
    if i32 (start + 1) = end_ then some [start]
    else
      let len := Int.tdiv (i32 (end_ - start)) 2
      match fold_decoded fuel start (i32 (start + len)), fold_decoded fuel (i32 (start + len)) end_ with
      | some l, some r => some (l ++ r)
      | _, _ => none

/-- Hands the text one call of `apply_patches` returned to the next call. A
call that returned `nil` leaves the next one without a string to read
(`RSTRING_PTR` of `nil`): no result. -/
def thenApply (x : Outcome (Option (List UInt8)))
    (k : List UInt8 → Outcome (Option (List UInt8))) : Outcome (Option (List UInt8)) :=
  match x with
  | .ok (some T1) => k T1
  | .ok none => .diverge
  | .raise m => .raise m
  | .diverge => .diverge

/-- Sequential application: `apply_patches(... apply_patches(T, [d1]) ..., [dn])`. -/
def applySeq : List UInt8 → List (List UInt8) → Outcome (Option (List UInt8))
  | T, [] => .ok (some T)
  | T, d :: ds => thenApply (amp_mpatch_apply_patches T [d]) (fun T1 => applySeq T1 ds)

/-- The deltas `ds` are decodable and mutually consistent from the base `T`:
the first is valid for `T`, each next one for the text its predecessors give;
`T2` is the text after the last one, and every text on the way, `T` and `T2`
included, is shorter than `B` bytes. -/
inductive Consistent (B : Nat) : List UInt8 → List (List UInt8) → List UInt8 → Prop
  | nil (T : List UInt8) : T.length < B → Consistent B T [] T
  | cons (T d : List UInt8) (fs : List frag) (ds : List (List UInt8)) (T2 : List UInt8) :
      T.length < B → decode d (i32 d.length) = .ok fs → ValidFrom 0 T.length fs →
      Consistent B (den T 0 fs T.length) ds T2 → Consistent B T (d :: ds) T2

/-! ## `gather` without wrap-around: the words of the claim -/

/-- The value `x` is one an `int` holds. -/
def FitsInt (x : Int) : Prop := -2147483648 ≤ x ∧ x < 2147483648

/-- No sum or conversion that `gather(dest, src, cut, offset)` forms while it
runs wraps around: `cut` and each `start + offset` convert to unsigned
unchanged, `postend`, `cut - offset` and each new offset are values an `int`
holds, and the `len` of a fragment that is broken up is a `uint32_t` value. -/
def gatherNoWrap : List frag → Int → Int → Prop
  | [], _, _ => True
  | s :: rest, cut, offset =>
    0 ≤ cut ∧ 0 ≤ s.start + offset ∧ s.start + offset < 4294967296 ∧
    (s.start + offset < cut →
      FitsInt (offset + s.start + s.len) ∧
      (offset + s.start + s.len ≤ cut →
        FitsInt (offset + (s.start + s.len - s.end_)) ∧
        gatherNoWrap rest cut (offset + (s.start + s.len - s.end_))) ∧
      (cut < offset + s.start + s.len → FitsInt (cut - offset) ∧ s.len < 4294967296))

instance (x : Int) : Decidable (FitsInt x) := by unfold FitsInt; infer_instance

instance gatherNoWrap.dec : ∀ (src : List frag) (cut offset : Int),
    Decidable (gatherNoWrap src cut offset)
  | [], _, _ => inferInstanceAs (Decidable True)
  | s :: rest, cut, offset =>
    have := gatherNoWrap.dec rest cut (offset + (s.start + s.len - s.end_))
    inferInstanceAs (Decidable (0 ≤ cut ∧ 0 ≤ s.start + offset ∧ s.start + offset < 4294967296 ∧
      (s.start + offset < cut →
        FitsInt (offset + s.start + s.len) ∧
        (offset + s.start + s.len ≤ cut →
          FitsInt (offset + (s.start + s.len - s.end_)) ∧
          gatherNoWrap rest cut (offset + (s.start + s.len - s.end_))) ∧
        (cut < offset + s.start + s.len → FitsInt (cut - offset) ∧ s.len < 4294967296))))

/-- Every fragment of the list starts, once moved by the offset running before
it, below `cut`. -/
def takenBelow (cut : Int) : Int → List frag → Prop
  | _, [] => True
  | offset, f :: r =>
    f.start + offset < cut ∧ takenBelow cut (offset + (f.len - (f.end_ - f.start))) r

/-- Every fragment of the list ends, once moved by the offset running before
it and with its replacement in place, at or before `cut`: the test
`postend <= cut` under which `gather` moves a fragment whole. -/
def takenWhole (cut : Int) : Int → List frag → Prop
  | _, [] => True
  | offset, f :: r =>
    offset + f.start + f.len ≤ cut ∧ takenWhole cut (offset + (f.len - (f.end_ - f.start))) r

/-- The fragments `d` and `s2` are the two parts of `s` broken up: `d` keeps
the start and the first `d.len` data bytes, `s2` the end and the rest. -/
def SplitOf (s d s2 : frag) : Prop :=
  d.start = s.start ∧ d.data = s.data ∧ d.end_ = s2.start ∧ s2.end_ = s.end_ ∧
    d.len + s2.len = s.len ∧ s2.data = s.data.add d.len

/-- What was appended is the front of `src`, in order: whole fragments, the
last one possibly the first part of a fragment whose rest now heads `src`. -/
def FrontOf (src app rest : List frag) : Prop :=
  src = app ++ rest ∨
  ∃ pre s d s2 tl, src = pre ++ s :: tl ∧ app = pre ++ [d] ∧ rest = s2 :: tl ∧ SplitOf s d s2

/-! ## `support.c`: `amp_string_unhexlify` -/

/-- The first half of a pass of the loop of `amp_string_unhexlify`: the byte
`*out_buf` holds after `chk`, the first character of a pair, is handled; `old`
is what it held before (nothing is stored for a character that is no digit). -/
def unhexHigh (chk old : UInt8) : UInt8 :=
  if 48 ≤ chk.toNat ∧ chk.toNat ≤ 57 then UInt8.ofNat (16 * (chk.toNat - 48))
  else if 65 ≤ chk.toNat ∧ chk.toNat ≤ 70 then UInt8.ofNat (16 * (chk.toNat - 65 + 10))
  else if 97 ≤ chk.toNat ∧ chk.toNat ≤ 102 then UInt8.ofNat (16 * (chk.toNat - 97 + 10))
  else old

/-- The second half: `*out_buf += ...` for `chk`, the second character of a pair. -/
def unhexLow (chk cur : UInt8) : UInt8 :=
  if 48 ≤ chk.toNat ∧ chk.toNat ≤ 57 then UInt8.ofNat (cur.toNat + (chk.toNat - 48))
  else if 65 ≤ chk.toNat ∧ chk.toNat ≤ 70 then UInt8.ofNat (cur.toNat + (chk.toNat - 65 + 10))
  else if 97 ≤ chk.toNat ∧ chk.toNat ≤ 102 then UInt8.ofNat (cur.toNat + (chk.toNat - 97 + 10))
  else cur

/-- The `while (len)` loop of `amp_string_unhexlify`: `len` is the `unsigned
int` counter, `pos` the offset of `in_buf` in the string, `out` the bytes
stored so far; `fresh` is what the new buffer holds where nothing was stored,
and a read past the end of the string gives 0. `none` when the fuel is used up. -/
def unhexLoop (fresh : UInt8) (inp : List UInt8) : Nat → Nat → Nat → List UInt8 → Option (List UInt8)
  | 0, _, _, _ => none
  | fuel + 1, len, pos, out =>
    if len = 0 then some out
    else
      unhexLoop fresh inp fuel (u32 ((len : Int) - 2)) (pos + 2)
        (out ++ [unhexLow (inp.getD (pos + 1) 0) (unhexHigh (inp.getD pos 0) fresh)])

/-- The body of `amp_string_unhexlify` once `len` is set: `len / 2 + 1` passes
are enough for an even `len`; an odd `len` never becomes 0. -/
def unhexlify_len (fresh : UInt8) (self : List UInt8) (len : Nat) : Outcome (List UInt8) :=
  match unhexLoop fresh self (len / 2 + 1) len 0 [] with
  | none => .diverge
  | some out => .ok out

/-- `amp_string_unhexlify(self)`: the bytes of the string returned. -/
def amp_string_unhexlify (fresh : UInt8) (self : List UInt8) : Outcome (List UInt8) :=
  unhexlify_len fresh self (u32 self.length)

/-- The character is a hexadecimal digit: `0-9`, `A-F` or `a-f`. -/
def isHexDigit (c : UInt8) : Prop :=
  (48 ≤ c.toNat ∧ c.toNat ≤ 57) ∨ (65 ≤ c.toNat ∧ c.toNat ≤ 70) ∨ (97 ≤ c.toNat ∧ c.toNat ≤ 102)

instance (c : UInt8) : Decidable (isHexDigit c) := by unfold isHexDigit; infer_instance

/-- The value of a hexadecimal digit, the same for upper and lower case. -/
def hexValue (c : UInt8) : Nat :=
  if c.toNat ≤ 57 then c.toNat - 48 else if c.toNat ≤ 70 then c.toNat - 65 + 10
  else c.toNat - 97 + 10

/-- The bytes the claim describes: one for each pair of characters, 16 times
the value of the first plus the value of the second. -/
def hexPairs : List UInt8 → List UInt8
  | a :: b :: r => UInt8.ofNat (16 * hexValue a + hexValue b) :: hexPairs r
  | _ => []

/-! ## `support.c`: `byte_swap_64` -/

/-- Conversion of an integer value to `uint64_t`. -/
def u64 (x : Int) : Nat := (x % 18446744073709551616).toNat

/-- The byte-swapping expression of `amp_fixnum_byte_swap_64`, on a `uint64_t`
value; the constants carry the suffix `ll`, and the operands are converted to
`uint64_t` before each `&`. -/
def fixnum_swap (val : Nat) : Nat :=
  (val >>> 56) ||| ((val &&& 0x00FF000000000000) >>> 40) |||
    ((val &&& 0x0000FF0000000000) >>> 24) ||| ((val &&& 0x000000FF00000000) >>> 8) |||
    (((val &&& 0x00000000FF000000) <<< 8) % 18446744073709551616) |||
    (((val &&& 0x0000000000FF0000) <<< 24) % 18446744073709551616) |||
    (((val &&& 0x000000000000FF00) <<< 40) % 18446744073709551616) |||
    (((val &&& 0x00000000000000FF) <<< 56) % 18446744073709551616)

/-- The byte-swapping expression of `amp_bignum_byte_swap_64`: the upper four
constants carry the suffix `ull`, the lower four none (`unsigned int` and
`int` constants, converted to `uint64_t` by the `&`). -/
def bignum_swap (val : Nat) : Nat :=
  (val >>> 56) ||| ((val &&& 0x00FF000000000000) >>> 40) |||
    ((val &&& 0x0000FF0000000000) >>> 24) ||| ((val &&& 0x000000FF00000000) >>> 8) |||
    (((val &&& 0x00000000FF000000) <<< 8) % 18446744073709551616) |||
    (((val &&& 0x0000000000FF0000) <<< 24) % 18446744073709551616) |||
    (((val &&& 0x000000000000FF00) <<< 40) % 18446744073709551616) |||
    (((val &&& 0x00000000000000FF) <<< 56) % 18446744073709551616)

/-- `amp_fixnum_byte_swap_64(self)`: `little_endian` is the static flag
`Init_Support` sets, `self` the value of the Fixnum, the result the integer
returned (`rb_ull2inum`). -/
def amp_fixnum_byte_swap_64 (little_endian : Int) (self : Int) : Int :=
  if little_endian ≠ 0 then (fixnum_swap (u64 self) : Nat) else self

/-- `amp_bignum_byte_swap_64(self)`; `rb_big2ull` is taken where it yields the
value of the Bignum mod `2^64`, which is the value itself on `0 ≤ self < 2^64`. -/
def amp_bignum_byte_swap_64 (little_endian : Int) (self : Int) : Int :=
  if little_endian ≠ 0 then (bignum_swap (u64 self) : Nat) else self

/-- The 8 bytes of `x`, least significant first. -/
def bytes64 (x : Nat) : List Nat := (List.range 8).map (fun i => x / 256 ^ i % 256)

/-- The integer with the given bytes, least significant first. -/
def ofBytes : List Nat → Nat
  | [] => 0
  | b :: r => b + 256 * ofBytes r

/-- The integer whose 8-byte representation is that of `x` in reverse order. -/
def reverseBytes64 (x : Nat) : Nat := ofBytes (bytes64 x).reverse

/-! ## Capacity of the fragment lists -/

/-- `lalloc(size)`: the number of fragment slots of the list it allocates
(`if (size < 1) size = 1;`). -/
def lalloc (size : Int) : Nat := if size < 1 then 1 else size.toNat

/-- `lsize(a)`: the number of fragments of the list, as an `int`. -/
def lsize (a : List frag) : Int := i32 a.length

/-- The slots of the list allocated by `decode` that its loop writes, in the
order of the writes: every pass that passes the test `data <= end` stores the
three words of its record into the slot `lt` points to, whose index is the
number of fragments kept so far, before it checks the record. The passes are
those of `decodeLoop`. -/
def decodeSlots (buf : List UInt8) (endp : Int) :
    Nat → Nat → Nat → List frag → List Nat
  | 0, _, _, _ => []
  | fuel + 1, bin, data, lt =>
    if (data : Int) ≤ endp then
      let start := be32 buf bin
      let end_ := be32 buf (bin + 4)
      let len := be32 buf (bin + 8)
      lt.length ::
        (if start > end_ then []
         else
          let bin1 := data + len
          if bin1 < data then []
          else decodeSlots buf endp fuel bin1 (bin1 + 12) (lt ++ [⟨start, end_, len, ⟨buf, data⟩⟩]))
    else []

/-- The number of slots of the list `combine(a, b)` allocates:
`lalloc((lsize(a) + lsize(b)) * 2)`, the sum and the product formed as `int`. -/
def combineCap (a b : List frag) : Nat := lalloc (i32 (i32 (lsize a + lsize b) * 2))

/-- A list of `2^30` empty fragments. -/
def manyFrags : List frag := List.replicate 1073741824 ⟨0, 0, 0, ⟨[], 0⟩⟩

/-- The ways the loop of `gather` and of `discard` comes to its end. -/
inductive Ending
  | exhausted
  | farEnough
  | brokeUp
deriving DecidableEq, Repr

/-- How the loop of `gather(dest, src, cut, offset)` and of
`discard(src, cut, offset)` ends: `src` is used up, the head of `src` is far
enough (the first `break`), or the head of `src` was broken up (the second
`break`). The tests are those of `gather`. -/
def gatherEnding : List frag → Int → Int → Ending
  | [], _, _ => .exhausted
  | s :: rest, cut, offset =>
    if u32 (s.start + offset) ≥ u32 cut then .farEnough
    else
      let postend := i32 (offset + s.start + s.len)
      if postend ≤ cut then
        gatherEnding rest cut (i32 (offset + (s.start + s.len - s.end_)))
      else .brokeUp

/-- The replacement data of a fragment list, concatenated: the `len` bytes at
`data` of each fragment, in order. -/
def dataOf : List frag → List UInt8
  | [] => []
  | f :: r => f.data.read f.len ++ dataOf r

/-- The data of `p` is a contiguous slice of the data of `s`: the same buffer,
and the `p.len` bytes at `p.data` lie among the `s.len` bytes at `s.data`. -/
def IsSlice (s p : frag) : Prop :=
  p.data.buf = s.data.buf ∧ s.data.off ≤ p.data.off ∧ p.data.off + p.len ≤ s.data.off + s.len

/-- The list `out` is woven from `a` and `b`: it holds, in the order of `b`, one
fragment for each fragment of `b`, with the `len` and the `data` of that
fragment (`hunk`); each of its other fragments is a slice of a fragment of `a`
(`piece`), and these come in the order of `a`: once a slice of a later fragment
of `a` has come (`next`), none of an earlier one follows. -/
inductive Woven : List frag → List frag → List frag → Prop
  | done : Woven [] [] []
  | next (s : frag) (a b out : List frag) : Woven a b out → Woven (s :: a) b out
  | piece (s p : frag) (a b out : List frag) :
      IsSlice s p → Woven (s :: a) b out → Woven (s :: a) b (p :: out)
  | hunk (h bh : frag) (a b out : List frag) :
      h.len = bh.len → h.data = bh.data → Woven a b out → Woven a (bh :: b) (h :: out)

/-- A fragment that inserts `3 * 2^30` zero bytes at offset 0. -/
def hugeOld : frag := ⟨0, 0, 3221225472, ⟨List.replicate 3221225472 0, 0⟩⟩

/-- A fragment that inserts nothing at offset `2^31 + 5`. -/
def farHunk : frag := ⟨2147483653, 2147483653, 0, ⟨[], 0⟩⟩

/-- The bytes `k` passes of the loop of `amp_string_unhexlify` store when they
start at the character `pos` of `inp`: one byte for each two characters. -/
def unhexPasses (fresh : UInt8) (inp : List UInt8) : Nat → Nat → List UInt8
  | _, 0 => []
  | pos, k + 1 =>
    unhexLow (inp.getD (pos + 1) 0) (unhexHigh (inp.getD pos 0) fresh) ::
      unhexPasses fresh inp (pos + 2) k

/-! ## Inputs used in examples -/

/-- A tail of `2^32` zero bytes. -/
def longTail : List UInt8 := List.replicate 4294967296 0

/-- A fragment that inserts `2^31` zero bytes at offset 0. -/
def hugeInsert : frag := ⟨0, 0, 2147483648, ⟨List.replicate 2147483648 0, 0⟩⟩

/-- A fragment that inserts `2^31 - 1` zero bytes at offset 1. -/
def hugeAppend : frag := ⟨1, 1, 2147483647, ⟨List.replicate 2147483647 0, 0⟩⟩

end Mpatch

namespace Mpatch

theorem u32_eq {x : Int} (h0 : 0 ≤ x) (h1 : x < 4294967296) : (u32 x : Int) = x := by
  unfold u32; omega

theorem i32_le_self (n : Nat) : i32 n ≤ n := by unfold i32; omega

theorem i32_eq {x : Int} (h0 : -2147483648 ≤ x) (h1 : x < 2147483648) : i32 x = x := by
  unfold i32; omega

theorem seg_length {T : List UInt8} {a b : Nat} (hb : b ≤ T.length) :
    (seg T a b).length = b - a := by
  simp [seg]; omega

theorem seg_self (T : List UInt8) (a : Nat) : seg T a a = [] := by simp [seg]

theorem seg_take {T : List UInt8} {a b c : Nat} (hac : a ≤ c) (hcb : c ≤ b) :
    (seg T a b).take (c - a) = seg T a c := by
  simp [seg, List.take_take]; omega

theorem seg_drop {T : List UInt8} {a b c : Nat} (hac : a ≤ c) (hcb : c ≤ b) :
    (seg T a b).drop (c - a) = seg T c b := by
  unfold seg
  rw [List.drop_take, List.drop_drop]
  have e1 : b - a - (c - a) = b - c := by omega
  have e2 : a + (c - a) = c := by omega
  have e3 : c - a + a = c := by omega
  simp only [e1, e2, e3]

theorem seg_append {T : List UInt8} {a b c : Nat} (hac : a ≤ c) (hcb : c ≤ b) :
    seg T a c ++ seg T c b = seg T a b := by
  rw [← seg_take hac hcb, ← seg_drop hac hcb, List.take_append_drop]

theorem read_length {f : frag} (h : DataOK f) : (f.data.read f.len).length = f.len := by
  obtain ⟨h0, h1⟩ := h
  simp [ptr.read]; omega

theorem read_take (p : ptr) {l n : Nat} (h : l ≤ n) : (p.read n).take l = p.read l := by
  simp [ptr.read, List.take_take]; omega

theorem read_drop (p : ptr) {l n : Nat} (h0 : 0 ≤ p.off) :
    (p.read n).drop l = (p.add l).read (n - l) := by
  unfold ptr.read ptr.add
  rw [List.drop_take, List.drop_drop]
  simp only
  congr 2
  omega

end Mpatch

namespace Mpatch

theorem ValidFrom.le {last L : Nat} {l : List frag} (h : ValidFrom last L l) : last ≤ L := by
  induction l generalizing last with
  | nil => exact h
  | cons f r ih =>
    obtain ⟨h1, h2, _, h4⟩ := h
    have := ih h4
    omega

theorem den_append_valid (T : List UInt8) {last mid stop : Nat} {xs ys : List frag}
    (hx : ValidFrom last mid xs) (hy : ValidFrom mid stop ys) :
    den T last (xs ++ ys) stop = den T last xs mid ++ den T mid ys stop := by
  induction xs generalizing last with
  | nil =>
    have h1 : last ≤ mid := hx
    cases ys with
    | nil =>
      have h2 : mid ≤ stop := hy
      simp only [List.nil_append, den]
      exact (seg_append h1 h2).symm
    | cons y r =>
      obtain ⟨h2, _⟩ := hy
      simp only [List.nil_append, den]
      rw [← List.append_assoc (seg T last mid), seg_append h1 h2]
  | cons f r ih =>
    obtain ⟨_, _, _, h4⟩ := hx
    have e := ih h4
    show seg T last f.start ++ (f.data.read f.len ++ den T f.end_ (r ++ ys) stop) =
      seg T last f.start ++ (f.data.read f.len ++ den T f.end_ r mid) ++ den T mid ys stop
    rw [e]
    simp only [List.append_assoc]

theorem den_length (T : List UInt8) {last L : Nat} {l : List frag} (hLT : L ≤ T.length)
    (hv : ValidFrom last L l) (hd : ∀ f ∈ l, DataOK f) :
    ((den T last l L).length : Int) + last + (l.map (fun f => (f.end_ : Int) - f.start)).sum
      = L + (l.map (fun f => (f.len : Int))).sum := by
  induction l generalizing last with
  | nil =>
    have h1 : last ≤ L := hv
    simp only [den, List.map_nil, List.sum_nil, seg_length hLT]
    omega
  | cons f r ih =>
    obtain ⟨h1, h2, h3, h4⟩ := hv
    have hr := ih h4 (fun g hg => hd g (List.mem_cons_of_mem _ hg))
    have hf := read_length (hd f (List.mem_cons_self _ _))
    have hs : (seg T last f.start).length = f.start - last := seg_length (by omega)
    simp only [den, List.length_append, List.map_cons, List.sum_cons, hf, hs]
    push_cast
    omega

theorem gather_cons_stop {dest : List frag} {s : frag} {rest : List frag} {cut offset : Int}
    (h : u32 (s.start + offset) ≥ u32 cut) :
    gather dest (s :: rest) cut offset = (dest, s :: rest, offset) := by
  simp only [gather, h, if_true]

theorem gather_cons_whole {dest : List frag} {s : frag} {rest : List frag} {cut offset : Int}
    (h : ¬ u32 (s.start + offset) ≥ u32 cut) (h2 : i32 (offset + s.start + s.len) ≤ cut) :
    gather dest (s :: rest) cut offset =
      gather (dest ++ [s]) rest cut (i32 (offset + (s.start + s.len - s.end_))) := by
  simp only [gather, h, h2, if_true, if_false]

theorem gather_cons_split {dest : List frag} {s : frag} {rest : List frag} {cut offset : Int}
    (h : ¬ u32 (s.start + offset) ≥ u32 cut) (h2 : ¬ i32 (offset + s.start + s.len) ≤ cut) :
    gather dest (s :: rest) cut offset =
      (dest ++ [⟨s.start,
          u32 (if s.end_ < u32 (i32 (cut - offset)) then i32 s.end_ else i32 (cut - offset)),
          u32 (if s.len < u32 (i32 (cut - offset - s.start)) then i32 s.len
            else i32 (cut - offset - s.start)), s.data⟩],
       ⟨u32 (if s.end_ < u32 (i32 (cut - offset)) then i32 s.end_ else i32 (cut - offset)),
          s.end_,
          u32 (s.len - (if s.len < u32 (i32 (cut - offset - s.start)) then i32 s.len
            else i32 (cut - offset - s.start))),
          s.data.add (if s.len < u32 (i32 (cut - offset - s.start)) then i32 s.len
            else i32 (cut - offset - s.start))⟩ :: rest,
       i32 (offset + (s.start
          + (if s.len < u32 (i32 (cut - offset - s.start)) then i32 s.len
            else i32 (cut - offset - s.start))
          - (if s.end_ < u32 (i32 (cut - offset)) then i32 s.end_ else i32 (cut - offset))))) := by
  simp only [gather, h, h2, if_false]

theorem gather_dest (dest src : List frag) (cut offset : Int) :
    gather dest src cut offset =
      (dest ++ (gather [] src cut offset).1, (gather [] src cut offset).2.1,
        (gather [] src cut offset).2.2) := by
  induction src generalizing dest offset with
  | nil => simp [gather]
  | cons s rest ih =>
    by_cases h : u32 (s.start + offset) ≥ u32 cut
    · simp [gather_cons_stop h]
    · by_cases h2 : i32 (offset + s.start + s.len) ≤ cut
      · rw [gather_cons_whole h h2, gather_cons_whole h h2, ih (dest ++ [s]), ih ([] ++ [s])]
        simp
      · simp [gather_cons_split h h2]

theorem discard_eq_gather (dest src : List frag) (cut offset : Int) :
    discard src cut offset = ((gather dest src cut offset).2.1, (gather dest src cut offset).2.2) := by
  induction src generalizing dest offset with
  | nil => simp [gather, discard]
  | cons s rest ih =>
    by_cases h : u32 (s.start + offset) ≥ u32 cut
    · simp only [gather_cons_stop h, discard, h, if_true]
    · by_cases h2 : i32 (offset + s.start + s.len) ≤ cut
      · rw [gather_cons_whole h h2, ← ih]
        simp only [discard, h, h2, if_true, if_false]
      · simp only [gather_cons_split h h2, discard, h, h2, if_false]

end Mpatch

namespace Mpatch

theorem take_app_whole {α : Type} (A B C : List α) (k : Nat) (h : A.length + B.length ≤ k) :
    (A ++ (B ++ C)).take k = A ++ (B ++ C.take (k - A.length - B.length)) := by
  rw [List.take_append_eq_append_take, List.take_append_eq_append_take,
    List.take_of_length_le (by omega), List.take_of_length_le (by omega)]

theorem drop_app_whole {α : Type} (A B C : List α) (k : Nat) (h : A.length + B.length ≤ k) :
    (A ++ (B ++ C)).drop k = C.drop (k - A.length - B.length) := by
  rw [List.drop_append_eq_append_drop, List.drop_append_eq_append_drop,
    List.drop_of_length_le (by omega), List.drop_of_length_le (by omega)]
  simp

theorem take_app_split {α : Type} (A B C : List α) (k : Nat) (h1 : A.length ≤ k)
    (h2 : k ≤ A.length + B.length) :
    (A ++ (B ++ C)).take k = A ++ B.take (k - A.length) := by
  rw [List.take_append_eq_append_take, List.take_append_eq_append_take,
    List.take_of_length_le h1]
  have : k - A.length - B.length = 0 := by omega
  simp [this]

theorem drop_app_split {α : Type} (A B C : List α) (k : Nat) (h1 : A.length ≤ k)
    (h2 : k ≤ A.length + B.length) :
    (A ++ (B ++ C)).drop k = B.drop (k - A.length) ++ C := by
  rw [List.drop_append_eq_append_drop, List.drop_append_eq_append_drop,
    List.drop_of_length_le h1]
  have : k - A.length - B.length = 0 := by omega
  simp [this]

/-- The arithmetic of the "break up this hunk" branch of `gather`/`discard`,
when nothing wraps: the clipped end `c` and the consumed length `l`. -/
theorem split_arith {start end_ len : Nat} {cut offset : Int}
    (h2 : start ≤ end_) (he : end_ < 2147483648)
    (hs0 : 0 ≤ start + offset) (hlt : start + offset < cut)
    (hw : cut < offset + start + len) (hpe : offset + start + len < 2147483648) :
    ∃ c l : Nat,
      (if end_ < u32 (i32 (cut - offset)) then i32 end_ else i32 (cut - offset)) = (c : Int) ∧
      (if len < u32 (i32 (cut - offset - start)) then i32 len
        else i32 (cut - offset - start)) = (l : Int) ∧
      u32 (c : Int) = c ∧ u32 (l : Int) = l ∧ u32 ((len : Int) - l) = len - l ∧
      i32 (offset + ((start : Int) + l - c)) = cut - c ∧
      start ≤ c ∧ c ≤ end_ ∧ 0 < l ∧ l < len ∧ (l : Int) = cut - offset - start ∧
      (c : Int) ≤ cut - offset := by
  have hx0 : 0 ≤ cut - offset := by omega
  have hx1 : cut - offset < 4294967296 := by omega
  have e5 : (u32 (i32 (cut - offset)) : Int) = cut - offset := by unfold u32 i32; omega
  have e8 : i32 (end_ : Int) = end_ := i32_eq (by omega) (by omega)
  have e6 : i32 (cut - offset - start) = cut - offset - start := i32_eq (by omega) (by omega)
  have e7 : (u32 (cut - offset - start) : Int) = cut - offset - start :=
    u32_eq (by omega) (by omega)
  have hl : (if len < u32 (i32 (cut - offset - start)) then i32 len
      else i32 (cut - offset - start)) = cut - offset - start := by
    rw [e6, if_neg (by omega)]
  have hcut : -2147483648 ≤ cut ∧ cut < 2147483648 := by omega
  by_cases hc : end_ < u32 (i32 (cut - offset))
  · refine ⟨end_, (cut - offset - start).toNat, ?_, ?_, ?_, ?_, ?_, ?_, h2, le_refl _, ?_, ?_,
      ?_, ?_⟩
    · rw [if_pos hc, e8]
    · rw [hl]; omega
    · unfold u32; omega
    · unfold u32; omega
    · unfold u32; omega
    · unfold i32; omega
    · omega
    · omega
    · omega
    · omega
  · have e9 : i32 (cut - offset) = cut - offset := i32_eq (by omega) (by omega)
    refine ⟨(cut - offset).toNat, (cut - offset - start).toNat, ?_, ?_, ?_, ?_, ?_, ?_, ?_, ?_,
      ?_, ?_, ?_, ?_⟩
    · rw [if_neg hc, e9]; omega
    · rw [hl]; omega
    · unfold u32; omega
    · unfold u32; omega
    · unfold u32; omega
    · unfold i32; omega
    · omega
    · omega
    · omega
    · omega
    · omega
    · omega

theorem gather_sem (T : List UInt8) (L : Nat) (hLT : L ≤ T.length) (hL : L < 2147483648)
    (src : List frag) : ∀ (p : Nat) (cut offset : Int),
    ValidFrom p L src → (∀ f ∈ src, DataOK f) →
    0 ≤ p + offset → p + offset ≤ cut →
    cut ≤ p + offset + (den T p src L).length →
    p + offset + (den T p src L).length < 2147483648 →
    ∃ p' : Nat, (p' : Int) = cut - (gather [] src cut offset).2.2 ∧
      ValidFrom p p' (gather [] src cut offset).1 ∧
      ValidFrom p' L (gather [] src cut offset).2.1 ∧
      (∀ f ∈ (gather [] src cut offset).1, DataOK f) ∧
      (∀ f ∈ (gather [] src cut offset).2.1, DataOK f) ∧
      den T p (gather [] src cut offset).1 p' = (den T p src L).take (cut - (p + offset)).toNat ∧
      den T p' (gather [] src cut offset).2.1 L
        = (den T p src L).drop (cut - (p + offset)).toNat := by
  induction src with
  | nil =>
    intro p cut offset hv _ hq0 hq1 hq2 hq3
    have hpL : p ≤ L := hv
    have hlen : (den T p [] L).length = L - p := seg_length hLT
    rw [hlen] at hq2 hq3
    have hk : (cut - (p + offset)).toNat = (cut - offset).toNat - p := by omega
    have ha : p ≤ (cut - offset).toNat := by omega
    have hb : (cut - offset).toNat ≤ L := by omega
    refine ⟨(cut - offset).toNat, ?_, ha, hb, ?_, ?_, ?_, ?_⟩
    · simp only [gather]; omega
    · intro f hf; simp [gather] at hf
    · intro f hf; simp [gather] at hf
    · simp only [gather, den, hk]
      exact (seg_take ha hb).symm
    · simp only [gather, den, hk]
      exact (seg_drop ha hb).symm
  | cons s rest ih =>
    intro p cut offset hv hd hq0 hq1 hq2 hq3
    obtain ⟨h1, h2, h3, h4⟩ := hv
    have hds : DataOK s := hd s (List.mem_cons_self _ _)
    have hdr : ∀ f ∈ rest, DataOK f := fun g hg => hd g (List.mem_cons_of_mem _ hg)
    have hA : (seg T p s.start).length = s.start - p := seg_length (by omega)
    have hB : (s.data.read s.len).length = s.len := read_length hds
    have hden : den T p (s :: rest) L
        = seg T p s.start ++ (s.data.read s.len ++ den T s.end_ rest L) := rfl
    have hlen : ((den T p (s :: rest) L).length : Int)
        = (s.start - p) + s.len + (den T s.end_ rest L).length := by
      rw [hden]; simp only [List.length_append, hA, hB]; push_cast; omega
    rw [hlen] at hq2 hq3
    rw [hden]
    clear hlen hden
    have e1 : (u32 (s.start + offset) : Int) = s.start + offset := u32_eq (by omega) (by omega)
    have e2 : (u32 cut : Int) = cut := u32_eq (by omega) (by omega)
    by_cases h : u32 (s.start + offset) ≥ u32 cut
    · -- the head already lies at or beyond the cut
      have hge : cut ≤ s.start + offset := by omega
      rw [gather_cons_stop h]
      have hk : (cut - (p + offset)).toNat = (cut - offset).toNat - p := by omega
      have ha : p ≤ (cut - offset).toNat := by omega
      have hb : (cut - offset).toNat ≤ s.start := by omega
      have hkA : (cut - offset).toNat - p ≤ (seg T p s.start).length := by rw [hA]; omega
      refine ⟨(cut - offset).toNat, ?_, ha, ⟨hb, h2, h3, h4⟩, ?_, hd, ?_, ?_⟩
      · simp only; omega
      · intro f hf; simp at hf
      · simp only [den, hk]
        rw [List.take_append_of_le_length hkA]
        exact (seg_take ha hb).symm
      · simp only [hk]
        rw [List.drop_append_of_le_length hkA, seg_drop ha hb]
        rfl
    · have hlt : s.start + offset < cut := by omega
      have e3 : i32 (offset + s.start + s.len) = offset + s.start + s.len :=
        i32_eq (by omega) (by omega)
      have hpe : offset + s.start + s.len < 2147483648 := by omega
      by_cases hw : i32 (offset + s.start + s.len) ≤ cut
      · -- the whole hunk is kept
        have e4 : i32 (offset + (s.start + s.len - s.end_)) = offset + (s.start + s.len - s.end_) :=
          i32_eq (by omega) (by omega)
        rw [gather_cons_whole h hw, gather_dest, e4]
        rw [e3] at hw
        obtain ⟨p', hp', hv1, hv2, hd1, hd2, ht, hdp⟩ :=
          ih s.end_ cut (offset + (s.start + s.len - s.end_)) h4 hdr (by omega) (by omega)
            (by omega) (by omega)
        have hep : s.end_ ≤ p' := hv1.le
        have hk : (cut - (p + offset)).toNat - (seg T p s.start).length - (s.data.read s.len).length
            = (cut - (s.end_ + (offset + (s.start + s.len - s.end_)))).toNat := by
          rw [hA, hB]; omega
        have hkAB : (seg T p s.start).length + (s.data.read s.len).length
            ≤ (cut - (p + offset)).toNat := by rw [hA, hB]; omega
        simp only [List.nil_append, List.singleton_append]
        refine ⟨p', hp', ⟨h1, h2, hep, hv1⟩, hv2, ?_, hd2, ?_, ?_⟩
        · intro f hf
          simp only [List.mem_cons] at hf
          rcases hf with rfl | hf
          · exact hds
          · exact hd1 f hf
        · show seg T p s.start ++ (s.data.read s.len ++ den T s.end_ _ p') = _
          rw [take_app_whole _ _ _ _ hkAB, hk, ← ht]
        · rw [drop_app_whole _ _ _ _ hkAB, hk, ← hdp]
      · -- the hunk is broken up at the cut
        rw [gather_cons_split h hw]
        rw [e3] at hw
        have hk0 : (cut - (p + offset)).toNat = (s.start - p) + (cut - offset - s.start).toNat := by
          omega
        obtain ⟨c, l, hc, hl, u1, u2, u3, e9, hcs, hce, hl0, hl1, hll, -⟩ :=
          @split_arith s.start s.end_ s.len cut offset h2 (by omega) (by omega) hlt (by omega) hpe
        rw [hl, hc]
        simp only [u1, u2, u3, e9, List.nil_append]
        have hk : (cut - (p + offset)).toNat = (s.start - p) + l := by
          rw [hk0, ← hll]; rfl
        obtain ⟨hd0, hd1⟩ := hds
        clear hq0 hq1 hq2 hq3 e1 e2 e3 hw hpe hlt hk0 hc hl u1 u2 u3 e9 h ih hd hLT hL
        have hkA1 : (seg T p s.start).length ≤ s.start - p + l := by rw [hA]; omega
        have hkA2 : s.start - p + l ≤ (seg T p s.start).length + (s.data.read s.len).length := by
          rw [hA, hB]; omega
        have hkl : s.start - p + l - (seg T p s.start).length = l := by rw [hA]; omega
        refine ⟨c, by omega, ⟨h1, hcs, le_refl _, le_refl _⟩, ⟨le_refl _, hce, h3, h4⟩,
          ?_, ?_, ?_, ?_⟩
        · intro f hf
          simp only [List.mem_singleton] at hf
          subst hf
          exact ⟨hd0, by simp only; omega⟩
        · intro f hf
          simp only [List.mem_cons] at hf
          rcases hf with rfl | hf
          · refine ⟨?_, ?_⟩
            · simp only [ptr.add]; omega
            · simp only [ptr.add]; omega
          · exact hdr f hf
        · simp only [den, seg_self, List.append_nil]
          rw [hk, take_app_split _ _ _ _ hkA1 hkA2, hkl, read_take _ (by omega)]
        · simp only [den, seg_self, List.nil_append]
          rw [hk, drop_app_split _ _ _ _ hkA1 hkA2, hkl, read_drop _ hd0]

end Mpatch

namespace Mpatch

/-! ## Semantics of `combine` -/

theorem ValidFrom.weaken_start {a m L : Nat} {l : List frag} (ham : a ≤ m)
    (h : ValidFrom m L l) : ValidFrom a L l := by
  cases l with
  | nil => exact le_trans ham h
  | cons f r => exact ⟨le_trans ham h.1, h.2⟩

theorem ValidFrom.append {a m L : Nat} {xs ys : List frag} (hx : ValidFrom a m xs)
    (hy : ValidFrom m L ys) : ValidFrom a L (xs ++ ys) := by
  induction xs generalizing a with
  | nil => exact hy.weaken_start hx
  | cons f r ih =>
    obtain ⟨h1, h2, h3, h4⟩ := hx
    exact ⟨h1, h2, le_trans h3 hy.le, ih h4⟩

theorem combineLoop_acc (c a b : List frag) (offset : Int) :
    combineLoop c a b offset =
      (c ++ (combineLoop [] a b offset).1, (combineLoop [] a b offset).2) := by
  induction b generalizing c a offset with
  | nil => simp [combineLoop]
  | cons bh bt ih =>
    simp only [combineLoop]
    rw [ih, ih ((gather [] a (i32 bh.start) offset).1 ++ _), gather_dest c]
    simp only [List.nil_append, List.append_assoc]

theorem discard_fst (src : List frag) (cut offset : Int) :
    (discard src cut offset).1 = (gather [] src cut offset).2.1 := by
  rw [discard_eq_gather []]

theorem discard_snd (src : List frag) (cut offset : Int) :
    (discard src cut offset).2 = (gather [] src cut offset).2.2 := by
  rw [discard_eq_gather []]

/-- One step of the loop of `combine`, unfolded. -/
theorem combineLoop_cons (a : List frag) (bh : frag) (bt : List frag) (offset : Int) :
    combineLoop [] a (bh :: bt) offset =
      ((gather [] a (i32 bh.start) offset).1 ++
        (⟨u32 (bh.start - (gather [] a (i32 bh.start) offset).2.2),
          u32 (bh.end_ - (gather [] (gather [] a (i32 bh.start) offset).2.1 (i32 bh.end_)
            (gather [] a (i32 bh.start) offset).2.2).2.2), bh.len, bh.data⟩ ::
          (combineLoop [] (gather [] (gather [] a (i32 bh.start) offset).2.1 (i32 bh.end_)
            (gather [] a (i32 bh.start) offset).2.2).2.1 bt
            (gather [] (gather [] a (i32 bh.start) offset).2.1 (i32 bh.end_)
            (gather [] a (i32 bh.start) offset).2.2).2.2).1),
       (combineLoop [] (gather [] (gather [] a (i32 bh.start) offset).2.1 (i32 bh.end_)
            (gather [] a (i32 bh.start) offset).2.2).2.1 bt
            (gather [] (gather [] a (i32 bh.start) offset).2.1 (i32 bh.end_)
            (gather [] a (i32 bh.start) offset).2.2).2.2).2) := by
  simp only [combineLoop]
  rw [combineLoop_acc, discard_fst, discard_snd]
  simp only [List.append_assoc, List.singleton_append]

theorem den_nil_full (T : List UInt8) (q : Nat) : den T q [] T.length = T.drop q := by
  simp only [den, seg]
  exact List.take_of_length_le (by simp)

theorem drop_length_int {α : Type} (l : List α) (q : Nat) (hq : q ≤ l.length) :
    ((l.drop q).length : Int) = l.length - q := by
  rw [List.length_drop]; omega

theorem combineLoop_sem (T T' : List UInt8) (L : Nat) (hLT : L ≤ T.length)
    (hL : L < 2147483648) (hL' : T'.length < 2147483648) (b : List frag) :
    ∀ (a : List frag) (p q : Nat),
    ValidFrom p L a → (∀ f ∈ a, DataOK f) → ValidFrom q T'.length b →
    den T p a L = T'.drop q →
    ValidFrom p L ((combineLoop [] a b ((q : Int) - p)).1 ++ (combineLoop [] a b ((q : Int) - p)).2) ∧
    den T p ((combineLoop [] a b ((q : Int) - p)).1 ++ (combineLoop [] a b ((q : Int) - p)).2) L
      = den T' q b T'.length ∧
    ((∀ f ∈ b, DataOK f) →
      ∀ f ∈ (combineLoop [] a b ((q : Int) - p)).1 ++ (combineLoop [] a b ((q : Int) - p)).2,
        DataOK f) := by
  induction b with
  | nil =>
    intro a p q hv hd _ hden
    simp only [combineLoop, List.nil_append]
    exact ⟨hv, by rw [hden, den_nil_full], fun _ => hd⟩
  | cons bh bt ih =>
    intro a p q hv hd hvb hden
    obtain ⟨hb1, hb2, hb3, hb4⟩ := hvb
    have hqL : q ≤ T'.length := by omega
    have hlen : ((den T p a L).length : Int) = T'.length - q := by
      rw [hden]; exact drop_length_int _ _ hqL
    have ec1 : i32 (bh.start : Int) = bh.start := i32_eq (by omega) (by omega)
    have ec2 : i32 (bh.end_ : Int) = bh.end_ := i32_eq (by omega) (by omega)
    rw [combineLoop_cons, ec1, ec2]
    -- save old hunks
    obtain ⟨p1, hp1, hv1, hv1r, hd1, hd1r, ht1, hdr1⟩ :=
      gather_sem T L hLT hL a p bh.start ((q : Int) - p) hv hd (by omega) (by omega)
        (by omega) (by omega)
    have hk1 : ((bh.start : Int) - (p + ((q : Int) - p))).toNat = bh.start - q := by omega
    rw [hk1, hden] at ht1 hdr1
    rw [List.drop_drop] at hdr1
    have hq1 : q + (bh.start - q) = bh.start := by omega
    rw [hq1] at hdr1
    have hlen1 : ((den T p1 (gather [] a bh.start ((q : Int) - p)).2.1 L).length : Int)
        = T'.length - bh.start := by
      rw [hdr1]; exact drop_length_int _ _ (by omega)
    -- discard replaced hunks
    obtain ⟨p2, hp2, hv2, hv2r, -, hd2r, -, hdr2⟩ :=
      gather_sem T L hLT hL (gather [] a bh.start ((q : Int) - p)).2.1 p1 bh.end_
        (gather [] a bh.start ((q : Int) - p)).2.2 hv1r hd1r (by omega) (by omega)
        (by omega) (by omega)
    have hk2 : ((bh.end_ : Int) - (p1 + (gather [] a bh.start ((q : Int) - p)).2.2)).toNat
        = bh.end_ - bh.start := by omega
    rw [hk2, hdr1, List.drop_drop] at hdr2
    have hq2 : bh.start + (bh.end_ - bh.start) = bh.end_ := by omega
    rw [hq2] at hdr2
    have hp12 : p1 ≤ p2 := hv2.le
    have hp2L : p2 ≤ L := hv2r.le
    -- the coordinates of the new hunk
    have es : u32 ((bh.start : Int) - (gather [] a bh.start ((q : Int) - p)).2.2) = p1 := by
      have : (bh.start : Int) - (gather [] a bh.start ((q : Int) - p)).2.2 = p1 := by omega
      rw [this]; unfold u32; omega
    have ee : u32 ((bh.end_ : Int) - (gather [] (gather [] a bh.start ((q : Int) - p)).2.1 bh.end_
        (gather [] a bh.start ((q : Int) - p)).2.2).2.2) = p2 := by
      have : (bh.end_ : Int) - (gather [] (gather [] a bh.start ((q : Int) - p)).2.1 bh.end_
        (gather [] a bh.start ((q : Int) - p)).2.2).2.2 = p2 := by omega
      rw [this]; unfold u32; omega
    have eo : (gather [] (gather [] a bh.start ((q : Int) - p)).2.1 bh.end_
        (gather [] a bh.start ((q : Int) - p)).2.2).2.2 = (bh.end_ : Int) - p2 := by omega
    rw [es, ee, eo]
    obtain ⟨ihv, ihden, ihd⟩ := ih _ p2 bh.end_ hv2r hd2r hb4 hdr2
    have hvnew : ValidFrom p1 L (⟨p1, p2, bh.len, bh.data⟩ ::
        ((combineLoop [] (gather [] (gather [] a bh.start ((q : Int) - p)).2.1 bh.end_
        (gather [] a bh.start ((q : Int) - p)).2.2).2.1 bt ((bh.end_ : Int) - p2)).1 ++
        (combineLoop [] (gather [] (gather [] a bh.start ((q : Int) - p)).2.1 bh.end_
        (gather [] a bh.start ((q : Int) - p)).2.2).2.1 bt ((bh.end_ : Int) - p2)).2)) :=
      ⟨le_refl _, hp12, hp2L, ihv⟩
    simp only [List.append_assoc, List.cons_append]
    refine ⟨hv1.append hvnew, ?_, ?_⟩
    · rw [den_append_valid T hv1 hvnew, ht1]
      simp only [den, seg_self, List.nil_append]
      rw [ihden]
      rfl
    · intro hdb f hf
      simp only [List.mem_append, List.mem_cons] at hf
      rcases hf with hf | rfl | hf
      · exact hd1 f hf
      · exact hdb bh (List.mem_cons_self _ _)
      · exact ihd (fun g hg => hdb g (List.mem_cons_of_mem _ hg)) f (List.mem_append.mpr hf)

end Mpatch

namespace Mpatch

/-! ## Semantics of `calcsize` and `apply` on valid fragment lists -/

theorem copyFrom_seg (T : List UInt8) {a b : Nat} (hab : a ≤ b) (hb : b ≤ T.length) :
    copyFrom T a (b - a) = some (seg T a b) := by
  unfold copyFrom seg
  by_cases h0 : b - a = 0
  · rw [if_pos h0, h0, List.take_zero]
  · rw [if_neg h0, if_pos ⟨by omega, by omega⟩, Int.toNat_ofNat]

theorem applyLoop_nil_some {T : List UInt8} {len last : Int} {t : List UInt8}
    (h : copyFrom T last (usize (i32 (len - last))) = some t) (out : List UInt8) :
    applyLoop T len [] last out = .ok (out ++ t) := by
  simp only [applyLoop, h]

theorem applyLoop_nil_none {T : List UInt8} {len last : Int}
    (h : copyFrom T last (usize (i32 (len - last))) = none) (out : List UInt8) :
    applyLoop T len [] last out = .diverge := by
  simp only [applyLoop, h]

theorem applyLoop_cons_raise {T : List UInt8} {len last : Int} {f : frag}
    (hc : f.start < u32 last ∨ f.end_ > u32 len) (r : List frag) (out : List UInt8) :
    applyLoop T len (f :: r) last out = .raise "invalid patch" := by
  simp only [applyLoop, hc, if_true]

theorem applyLoop_cons_some {T : List UInt8} {len last : Int} {f : frag} {t : List UInt8}
    (hc : ¬ (f.start < u32 last ∨ f.end_ > u32 len))
    (h : copyFrom T last (u32 (f.start - last)) = some t) (r : List frag) (out : List UInt8) :
    applyLoop T len (f :: r) last out =
      applyLoop T len r (i32 f.end_) (out ++ t ++ f.data.read f.len) := by
  simp only [applyLoop, hc, if_false, h]

theorem applyLoop_cons_none {T : List UInt8} {len last : Int} {f : frag}
    (hc : ¬ (f.start < u32 last ∨ f.end_ > u32 len))
    (h : copyFrom T last (u32 (f.start - last)) = none) (r : List frag) (out : List UInt8) :
    applyLoop T len (f :: r) last out = .diverge := by
  simp only [applyLoop, hc, if_false, h]

theorem applyLoop_eq (T : List UInt8) (L : Nat) (hL : L < 2147483648) (hLT : L ≤ T.length)
    (l : List frag) :
    ∀ (last : Nat) (out : List UInt8), ValidFrom last L l →
      applyLoop T L l last out = .ok (out ++ den T last l L) := by
  induction l with
  | nil =>
    intro last out hv
    have h : last ≤ L := hv
    have e : usize (i32 ((L : Int) - last)) = L - last := by unfold usize i32; omega
    have hcp := copyFrom_seg T h hLT
    rw [← e] at hcp
    rw [applyLoop_nil_some hcp]
    rfl
  | cons f r ih =>
    intro last out hv
    obtain ⟨h1, h2, h3, h4⟩ := hv
    have e1 : u32 (last : Int) = last := by unfold u32; omega
    have e2 : u32 (L : Int) = L := by unfold u32; omega
    have e3 : i32 (f.end_ : Int) = f.end_ := i32_eq (by omega) (by omega)
    have e4 : u32 ((f.start : Int) - last) = f.start - last := by unfold u32; omega
    have hc : ¬ (f.start < u32 (last : Int) ∨ f.end_ > u32 (L : Int)) := by
      rw [e1, e2]; omega
    have hcp := copyFrom_seg T h1 (by omega : f.start ≤ T.length)
    rw [← e4] at hcp
    rw [applyLoop_cons_some hc hcp, e3, ih f.end_ _ h4]
    simp only [den, List.append_assoc]

theorem apply_eq (T : List UInt8) (hT : T.length < 2147483648) (l : List frag)
    (hv : ValidFrom 0 T.length l) : apply T T.length l = .ok (den T 0 l T.length) := by
  have := applyLoop_eq T T.length hT (le_refl _) l 0 [] hv
  simpa [apply] using this

theorem combine_sem (T T' : List UInt8) (a b : List frag)
    (hT : T.length < 2147483648) (hT' : T'.length < 2147483648)
    (hva : ValidFrom 0 T.length a) (hda : ∀ f ∈ a, DataOK f)
    (hden : den T 0 a T.length = T') (hvb : ValidFrom 0 T'.length b) :
    ValidFrom 0 T.length (combine a b) ∧
    den T 0 (combine a b) T.length = den T' 0 b T'.length ∧
    ((∀ f ∈ b, DataOK f) → ∀ f ∈ combine a b, DataOK f) := by
  have h := combineLoop_sem T T' T.length (le_refl _) hT hT' b a 0 0 hva hda hvb
    (by rw [hden]; rfl)
  simpa [combine] using h

end Mpatch

namespace Mpatch

/-! ## The decoding loop -/

theorem u8_ofNat_toNat (b : UInt8) : UInt8.ofNat b.toNat = b := by
  cases b with
  | mk v =>
    apply congrArg UInt8.mk
    apply BitVec.eq_of_toNat_eq
    show (BitVec.ofNat 8 v.toNat).toNat = v.toNat
    rw [BitVec.toNat_ofNat]
    exact Nat.mod_eq_of_lt v.isLt

theorem u8_toNat_ofNat (n : Nat) : (UInt8.ofNat n).toNat = n % 256 := rfl

theorem u8_lt (b : UInt8) : b.toNat < 256 := UInt8.toNat_lt_size b

theorem decodeLoop_succ (buf : List UInt8) (e : Int) (fuel bin data : Nat) (lt : List frag) :
    decodeLoop buf e (fuel + 1) bin data lt =
      if (data : Int) ≤ e then
        if be32 buf (bin + 4) < be32 buf bin then some (bin, lt)
        else decodeLoop buf e fuel (data + be32 buf (bin + 8)) (data + be32 buf (bin + 8) + 12)
          (lt ++ [⟨be32 buf bin, be32 buf (bin + 4), be32 buf (bin + 8), ⟨buf, data⟩⟩])
      else some (bin, lt) := by
  have h : ¬ (data + be32 buf (bin + 8) < data) := by omega
  simp only [decodeLoop, h, if_false, gt_iff_lt]

theorem decodeLoop_mono (buf : List UInt8) (e : Int) :
    ∀ (f bin data : Nat) (lt : List frag) (r : Nat × List frag),
      decodeLoop buf e f bin data lt = some r →
      ∀ f', f ≤ f' → decodeLoop buf e f' bin data lt = some r := by
  intro f
  induction f with
  | zero => intro bin data lt r h; simp [decodeLoop] at h
  | succ f ih =>
    intro bin data lt r h f' hf
    obtain ⟨g, rfl⟩ : ∃ g, f' = g + 1 := ⟨f' - 1, by omega⟩
    rw [decodeLoop_succ] at h ⊢
    by_cases h1 : (data : Int) ≤ e
    · rw [if_pos h1] at h ⊢
      by_cases h2 : be32 buf (bin + 4) < be32 buf bin
      · rw [if_pos h2] at h ⊢; exact h
      · rw [if_neg h2] at h ⊢
        exact ih _ _ _ _ h g (by omega)
    · rw [if_neg h1] at h ⊢; exact h

/-- The loop of `decode` always comes to an end: `(end - data) / 12 + 2` passes suffice. -/
theorem decodeLoop_fuel (buf : List UInt8) (e : Int) :
    ∀ (f bin data : Nat) (lt : List frag), (e.toNat + 12 - data) / 12 + 1 ≤ f →
      ∃ r, decodeLoop buf e f bin data lt = some r := by
  intro f
  induction f with
  | zero => intro bin data lt h; omega
  | succ f ih =>
    intro bin data lt h
    rw [decodeLoop_succ]
    by_cases h1 : (data : Int) ≤ e
    · rw [if_pos h1]
      by_cases h2 : be32 buf (bin + 4) < be32 buf bin
      · rw [if_pos h2]; exact ⟨_, rfl⟩
      · rw [if_neg h2]
        apply ih
        omega
    · rw [if_neg h1]; exact ⟨_, rfl⟩

/-- The outcome of `decode` read off any run of the loop that has enough fuel. -/
theorem decode_of_loop {buf : List UInt8} {len : Int} {f b : Nat} {lt : List frag}
    (h : decodeLoop buf len f 0 12 [] = some (b, lt)) :
    decode buf len = if (b : Int) ≠ len then .raise "patch cannot be decoded" else .ok lt := by
  obtain ⟨r, hr⟩ := decodeLoop_fuel buf len (len.toNat / 12 + 1) 0 12 [] (by omega)
  have h1 := decodeLoop_mono buf len _ _ _ _ _ h (max f (len.toNat / 12 + 1)) (le_max_left _ _)
  have h2 := decodeLoop_mono buf len _ _ _ _ _ hr (max f (len.toNat / 12 + 1)) (le_max_right _ _)
  rw [h1] at h2
  injection h2 with h2
  subst h2
  simp only [decode, hr]

/-- `decode` never diverges. -/
theorem decode_total (buf : List UInt8) (len : Int) : decode buf len ≠ .diverge := by
  obtain ⟨⟨b, lt⟩, hr⟩ := decodeLoop_fuel buf len (len.toNat / 12 + 1) 0 12 [] (by omega)
  rw [decode_of_loop hr]
  split <;> simp

/-- A blob of negative or too short a length is not decoded. -/
theorem decode_negative (buf : List UInt8) (len : Int) (h : len < 0) :
    decode buf len = .raise "patch cannot be decoded" := by
  have e : len.toNat / 12 + 1 = 0 + 1 := by omega
  have h12 : ¬ ((12 : Nat) : Int) ≤ len := by omega
  have h0 : ((0 : Nat) : Int) ≠ len := by omega
  have hl : decodeLoop buf len (0 + 1) 0 12 [] = some (0, []) := by
    rw [decodeLoop_succ, if_neg h12]
  rw [decode_of_loop hl, if_pos h0]

end Mpatch
namespace Mpatch

/-! ## Big-endian fields -/

theorem be32_lt (buf : List UInt8) (i : Nat) : be32 buf i < 4294967296 := by
  unfold be32
  have h0 := u8_lt (buf.getD i 0)
  have h1 := u8_lt (buf.getD (i + 1) 0)
  have h2 := u8_lt (buf.getD (i + 2) 0)
  have h3 := u8_lt (buf.getD (i + 3) 0)
  omega

theorem be32bytes_length (x : Nat) : (be32bytes x).length = 4 := rfl

theorem getD_append_add {α : Type} (pre l : List α) (k : Nat) (d : α) :
    (pre ++ l).getD (pre.length + k) d = l.getD k d := by
  rw [List.getD_append_right _ _ _ _ (by omega)]
  congr 1
  omega

theorem be32_append (pre l : List UInt8) (k : Nat) :
    be32 (pre ++ l) (pre.length + k) = be32 l k := by
  unfold be32
  rw [show pre.length + k + 1 = pre.length + (k + 1) by omega,
    show pre.length + k + 2 = pre.length + (k + 2) by omega,
    show pre.length + k + 3 = pre.length + (k + 3) by omega]
  simp only [getD_append_add]

theorem be32_be32bytes_zero (post : List UInt8) (x : Nat) (hx : x < 4294967296) :
    be32 (be32bytes x ++ post) 0 = x := by
  simp only [be32, be32bytes, List.cons_append, List.getD_cons_zero, List.getD_cons_succ,
    u8_toNat_ofNat, List.nil_append]
  omega

theorem be32_be32bytes (pre post : List UInt8) (x : Nat) (hx : x < 4294967296) :
    be32 (pre ++ (be32bytes x ++ post)) pre.length = x := by
  have h := be32_append pre (be32bytes x ++ post) 0
  rw [Nat.add_zero] at h
  rw [h, be32_be32bytes_zero post x hx]

theorem seg_four (buf : List UInt8) (i : Nat) (h : i + 4 ≤ buf.length) :
    seg buf i (i + 4) = [buf.getD i 0, buf.getD (i + 1) 0, buf.getD (i + 2) 0,
      buf.getD (i + 3) 0] := by
  unfold seg
  have e : i + 4 - i = 4 := by omega
  rw [e, List.drop_eq_getElem_cons (by omega), List.drop_eq_getElem_cons (by omega),
    List.drop_eq_getElem_cons (by omega), List.drop_eq_getElem_cons (by omega)]
  simp only [List.take_succ_cons, List.take_zero]
  rw [List.getD_eq_getElem _ _ (by omega), List.getD_eq_getElem _ _ (by omega),
    List.getD_eq_getElem _ _ (by omega), List.getD_eq_getElem _ _ (by omega)]

theorem be32bytes_be32 (buf : List UInt8) (i : Nat) (h : i + 4 ≤ buf.length) :
    be32bytes (be32 buf i) = seg buf i (i + 4) := by
  rw [seg_four buf i h]
  unfold be32 be32bytes
  have h0 := u8_lt (buf.getD i 0)
  have h1 := u8_lt (buf.getD (i + 1) 0)
  have h2 := u8_lt (buf.getD (i + 2) 0)
  have h3 := u8_lt (buf.getD (i + 3) 0)
  have a0 : ((buf.getD i 0).toNat * 16777216 + (buf.getD (i + 1) 0).toNat * 65536
      + (buf.getD (i + 2) 0).toNat * 256 + (buf.getD (i + 3) 0).toNat) / 16777216 % 256
      = (buf.getD i 0).toNat := by omega
  have a1 : ((buf.getD i 0).toNat * 16777216 + (buf.getD (i + 1) 0).toNat * 65536
      + (buf.getD (i + 2) 0).toNat * 256 + (buf.getD (i + 3) 0).toNat) / 65536 % 256
      = (buf.getD (i + 1) 0).toNat := by omega
  have a2 : ((buf.getD i 0).toNat * 16777216 + (buf.getD (i + 1) 0).toNat * 65536
      + (buf.getD (i + 2) 0).toNat * 256 + (buf.getD (i + 3) 0).toNat) / 256 % 256
      = (buf.getD (i + 2) 0).toNat := by omega
  have a3 : ((buf.getD i 0).toNat * 16777216 + (buf.getD (i + 1) 0).toNat * 65536
      + (buf.getD (i + 2) 0).toNat * 256 + (buf.getD (i + 3) 0).toNat) % 256
      = (buf.getD (i + 3) 0).toNat := by omega
  rw [a0, a1, a2, a3]
  simp only [u8_ofNat_toNat]

end Mpatch
namespace Mpatch

/-! ## What a successful `decode` says about the blob -/

theorem read_eq_seg (buf : List UInt8) (pos len : Nat) :
    (ptr.mk buf (pos : Int)).read len = seg buf pos (pos + len) := by
  unfold ptr.read seg
  simp only [Int.toNat_ofNat]
  congr 1
  omega

theorem decodeLoop_sound (buf : List UInt8) (e : Nat) (he : e ≤ buf.length) :
    ∀ (f bin : Nat) (lt : List frag) (b : Nat) (fs : List frag),
      decodeLoop buf e f bin (bin + 12) lt = some (b, fs) → b = e →
      ∃ new, fs = lt ++ new ∧ bin ≤ b ∧ wire (new.map frag.toRecord) = seg buf bin b ∧
        ∀ g ∈ new, g.start ≤ g.end_ ∧ DataOK g ∧ g.start < 4294967296 ∧
          g.end_ < 4294967296 ∧ g.len < 4294967296 := by
  intro f
  induction f with
  | zero => intro bin lt b fs h; simp [decodeLoop] at h
  | succ f ih =>
    intro bin lt b fs h hb
    rw [decodeLoop_succ] at h
    by_cases h1 : ((bin + 12 : Nat) : Int) ≤ (e : Int)
    · rw [if_pos h1] at h
      by_cases h2 : be32 buf (bin + 4) < be32 buf bin
      · rw [if_pos h2] at h
        injection h with h
        injection h with h3 h4
        omega
      · rw [if_neg h2] at h
        obtain ⟨new, hfs, hle, hw, hall⟩ := ih _ _ _ _ h hb
        have hbe : b ≤ buf.length := by omega
        refine ⟨⟨be32 buf bin, be32 buf (bin + 4), be32 buf (bin + 8), ⟨buf, ((bin + 12 : Nat) : Int)⟩⟩ :: new,
          ?_, by omega, ?_, ?_⟩
        · rw [hfs]; simp
        · simp only [List.map_cons, wire, frag.toRecord]
          rw [hw, be32bytes_be32 buf bin (by omega), be32bytes_be32 buf (bin + 4) (by omega),
            be32bytes_be32 buf (bin + 8) (by omega)]
          have hr : (ptr.mk buf ((bin + 12 : Nat) : Int)).read (be32 buf (bin + 8))
              = seg buf (bin + 12) (bin + 12 + be32 buf (bin + 8)) := read_eq_seg _ _ _
          rw [hr]
          rw [seg_append (a := bin + 12) (by omega) (by omega)]
          rw [show bin + 4 + 4 = bin + 8 by omega, show bin + 8 + 4 = bin + 12 by omega]
          rw [seg_append (a := bin + 8) (c := bin + 12) (b := b) (by omega) (by omega),
            seg_append (a := bin + 4) (c := bin + 8) (b := b) (by omega) (by omega),
            seg_append (a := bin) (c := bin + 4) (b := b) (by omega) (by omega)]
        · intro g hg
          simp only [List.mem_cons] at hg
          rcases hg with rfl | hg
          · refine ⟨by simp only; omega, ⟨?_, ?_⟩, be32_lt _ _, be32_lt _ _, be32_lt _ _⟩
            · simp only; omega
            · simp only; omega
          · exact hall g hg
    · rw [if_neg h1] at h
      injection h with h
      injection h with h3 h4
      subst h3 h4
      exact ⟨[], by simp, le_refl _, by simp [wire, seg_self], by simp⟩

end Mpatch

namespace Mpatch

theorem seg_zero (buf : List UInt8) (n : Nat) : seg buf 0 n = buf.take n := by
  simp [seg]

theorem decode_sound {buf : List UInt8} {len : Int} {fs : List frag}
    (hlen : len ≤ buf.length) (h : decode buf len = .ok fs) :
    ∃ n : Nat, len = n ∧ wire (fs.map frag.toRecord) = buf.take n ∧
      ∀ g ∈ fs, g.start ≤ g.end_ ∧ DataOK g ∧ g.start < 4294967296 ∧
        g.end_ < 4294967296 ∧ g.len < 4294967296 := by
  obtain ⟨⟨b, lt⟩, hr⟩ := decodeLoop_fuel buf len (len.toNat / 12 + 1) 0 12 [] (by omega)
  rw [decode_of_loop hr] at h
  by_cases hb : (b : Int) ≠ len
  · rw [if_pos hb] at h; cases h
  · rw [if_neg hb] at h
    injection h with h
    subst h
    have hb' : (b : Int) = len := by omega
    subst hb'
    obtain ⟨new, hfs, -, hw, hall⟩ :=
      decodeLoop_sound buf b (by omega) _ 0 [] b lt hr rfl
    rw [List.nil_append] at hfs
    subst hfs
    exact ⟨b, rfl, by rw [hw, seg_zero], hall⟩

/-! ## Decoding a blob that starts with well-formed records -/

theorem wire_length_cons (r : record) (rs : List record) (hr : r.WF) :
    (wire (r :: rs)).length = 12 + r.len + (wire rs).length := by
  obtain ⟨-, -, -, -, h5⟩ := hr
  simp only [wire, List.length_append, be32bytes_length, h5]
  omega

theorem be32_header (s e l : Nat) (rest : List UInt8) (hs : s < 4294967296)
    (he : e < 4294967296) (hl : l < 4294967296) :
    be32 (be32bytes s ++ (be32bytes e ++ (be32bytes l ++ rest))) 0 = s ∧
    be32 (be32bytes s ++ (be32bytes e ++ (be32bytes l ++ rest))) 4 = e ∧
    be32 (be32bytes s ++ (be32bytes e ++ (be32bytes l ++ rest))) 8 = l := by
  refine ⟨be32_be32bytes_zero _ s hs, ?_, ?_⟩
  · have h := be32_append (be32bytes s) (be32bytes e ++ (be32bytes l ++ rest)) 0
    rw [be32bytes_length] at h
    rw [h, be32_be32bytes_zero _ e he]
  · have h := be32_append (be32bytes s ++ be32bytes e) (be32bytes l ++ rest) 0
    rw [List.length_append, be32bytes_length, be32bytes_length, List.append_assoc] at h
    rw [h, be32_be32bytes_zero _ l hl]

/-- The header fields `decode` reads at offset `|pre|` of `pre ++ header ++ rest`. -/
theorem be32_header_at (pre : List UInt8) (s e l : Nat) (rest : List UInt8)
    (hs : s < 4294967296) (he : e < 4294967296) (hl : l < 4294967296) :
    be32 (pre ++ (be32bytes s ++ (be32bytes e ++ (be32bytes l ++ rest)))) pre.length = s ∧
    be32 (pre ++ (be32bytes s ++ (be32bytes e ++ (be32bytes l ++ rest)))) (pre.length + 4) = e ∧
    be32 (pre ++ (be32bytes s ++ (be32bytes e ++ (be32bytes l ++ rest)))) (pre.length + 8) = l := by
  obtain ⟨h0, h4, h8⟩ := be32_header s e l rest hs he hl
  refine ⟨?_, ?_, ?_⟩
  · have h := be32_append pre (be32bytes s ++ (be32bytes e ++ (be32bytes l ++ rest))) 0
    rw [Nat.add_zero] at h
    rw [h, h0]
  · rw [be32_append, h4]
  · rw [be32_append, h8]

theorem decodeLoop_wire (rs : List record) :
    ∀ (pre post : List UInt8) (lt : List frag) (fuel : Nat) (e : Int),
      (∀ r ∈ rs, r.WF) → ((pre.length + (wire rs).length : Nat) : Int) ≤ e →
      decodeLoop (pre ++ (wire rs ++ post)) e (fuel + rs.length) pre.length (pre.length + 12) lt =
        decodeLoop (pre ++ (wire rs ++ post)) e fuel (pre.length + (wire rs).length)
          (pre.length + (wire rs).length + 12)
          (lt ++ fragsAt (pre ++ (wire rs ++ post)) pre.length rs) := by
  induction rs with
  | nil =>
    intro pre post lt fuel e _ _
    simp [wire, fragsAt]
  | cons r rs ih =>
    intro pre post lt fuel e hwf he
    have hr : r.WF := hwf r (List.mem_cons_self _ _)
    have hrs : ∀ r' ∈ rs, r'.WF := fun r' h' => hwf r' (List.mem_cons_of_mem _ h')
    have hwl := wire_length_cons r rs hr
    obtain ⟨hse, hs, hen, hl, hdat⟩ := hr
    have hbuf : pre ++ (wire (r :: rs) ++ post)
        = pre ++ (be32bytes r.start ++ (be32bytes r.end_ ++ (be32bytes r.len ++
            (r.data ++ (wire rs ++ post))))) := by
      simp only [wire, List.append_assoc]
    have hbuf2 : pre ++ (wire (r :: rs) ++ post)
        = (pre ++ (be32bytes r.start ++ (be32bytes r.end_ ++ (be32bytes r.len ++ r.data))))
            ++ (wire rs ++ post) := by
      simp only [wire, List.append_assoc]
    have hpl : (pre ++ (be32bytes r.start ++ (be32bytes r.end_ ++ (be32bytes r.len ++ r.data)))).length
        = pre.length + 12 + r.len := by
      simp only [List.length_append, be32bytes_length, hdat]; omega
    obtain ⟨b0, b4, b8⟩ := be32_header_at pre r.start r.end_ r.len (r.data ++ (wire rs ++ post))
      hs hen hl
    rw [← hbuf] at b0 b4 b8
    rw [show fuel + (r :: rs).length = (fuel + rs.length) + 1 by simp; omega, decodeLoop_succ,
      if_pos (by omega), b0, b4, b8, if_neg (by omega)]
    have hih := ih (pre ++ (be32bytes r.start ++ (be32bytes r.end_ ++ (be32bytes r.len ++ r.data))))
      post (lt ++ [⟨r.start, r.end_, r.len, ⟨pre ++ (wire (r :: rs) ++ post),
        ((pre.length + 12 : Nat) : Int)⟩⟩]) fuel e hrs (by rw [hpl]; omega)
    rw [← hbuf2, hpl] at hih
    rw [hih, hwl]
    simp only [fragsAt, List.append_assoc, List.singleton_append]
    rw [show pre.length + (12 + r.len + (wire rs).length)
      = pre.length + 12 + r.len + (wire rs).length by omega]

end Mpatch

namespace Mpatch

theorem read_at (pre d post : List UInt8) :
    (ptr.mk (pre ++ (d ++ post)) (pre.length : Int)).read d.length = d := by
  unfold ptr.read
  simp only [Int.toNat_ofNat]
  rw [List.drop_append_of_le_length (le_refl _), List.drop_length, List.nil_append,
    List.take_append_of_le_length (le_refl _), List.take_length]

theorem fragsAt_toRecord (rs : List record) :
    ∀ (pre post : List UInt8), (∀ r ∈ rs, r.WF) →
      (fragsAt (pre ++ (wire rs ++ post)) pre.length rs).map frag.toRecord = rs := by
  induction rs with
  | nil => intro pre post _; rfl
  | cons r rs ih =>
    intro pre post hwf
    have hr : r.WF := hwf r (List.mem_cons_self _ _)
    have hrs : ∀ r' ∈ rs, r'.WF := fun r' h' => hwf r' (List.mem_cons_of_mem _ h')
    obtain ⟨hse, hs, hen, hl, hdat⟩ := hr
    have hbuf1 : pre ++ (wire (r :: rs) ++ post)
        = (pre ++ (be32bytes r.start ++ (be32bytes r.end_ ++ be32bytes r.len)))
            ++ (r.data ++ (wire rs ++ post)) := by
      simp only [wire, List.append_assoc]
    have hbuf2 : pre ++ (wire (r :: rs) ++ post)
        = (pre ++ (be32bytes r.start ++ (be32bytes r.end_ ++ (be32bytes r.len ++ r.data))))
            ++ (wire rs ++ post) := by
      simp only [wire, List.append_assoc]
    have hl1 : (pre ++ (be32bytes r.start ++ (be32bytes r.end_ ++ be32bytes r.len))).length
        = pre.length + 12 := by
      simp only [List.length_append, be32bytes_length]
    have hl2 : (pre ++ (be32bytes r.start ++ (be32bytes r.end_ ++ (be32bytes r.len ++ r.data)))).length
        = pre.length + 12 + r.len := by
      simp only [List.length_append, be32bytes_length, hdat]; omega
    have hih := ih (pre ++ (be32bytes r.start ++ (be32bytes r.end_ ++ (be32bytes r.len ++ r.data))))
      post hrs
    rw [← hbuf2, hl2] at hih
    have hrd := read_at (pre ++ (be32bytes r.start ++ (be32bytes r.end_ ++ be32bytes r.len)))
      r.data (wire rs ++ post)
    rw [← hbuf1, hl1, hdat] at hrd
    simp only [fragsAt, List.map_cons, hih, frag.toRecord]
    rw [hrd]

/-- How `decode` goes on a blob that begins with the well-formed records `rs`:
the loop stores their fragments and stands at the end of the last record. -/
theorem decode_prefix (rs : List record) (post : List UInt8) (hwf : ∀ r ∈ rs, r.WF)
    (k b : Nat) (lt : List frag)
    (h : decodeLoop (wire rs ++ post) ((wire rs ++ post).length : Nat) k (wire rs).length
      ((wire rs).length + 12) (fragsAt (wire rs ++ post) 0 rs) = some (b, lt)) :
    decode (wire rs ++ post) ((wire rs ++ post).length : Nat) =
      if b ≠ (wire rs ++ post).length then .raise "patch cannot be decoded" else .ok lt := by
  have hs := decodeLoop_wire rs [] post [] k ((wire rs ++ post).length : Nat) hwf
    (by simp only [List.length_nil, List.length_append]; omega)
  simp only [List.nil_append, List.length_nil, Nat.zero_add] at hs
  rw [h] at hs
  rw [decode_of_loop hs]
  by_cases hb : b = (wire rs ++ post).length
  · rw [if_neg (by omega), if_neg (by omega)]
  · rw [if_pos (by omega), if_pos hb]

theorem decode_wire (rs : List record) (hwf : ∀ r ∈ rs, r.WF) :
    decode (wire rs) ((wire rs).length : Nat) = .ok (fragsAt (wire rs) 0 rs) := by
  have h := decode_prefix rs [] hwf 1 (wire rs).length (fragsAt (wire rs ++ []) 0 rs)
    (by rw [decodeLoop_succ, if_neg (by simp only [List.append_nil]; omega)])
  simpa using h

theorem decode_wire_records (rs : List record) (hwf : ∀ r ∈ rs, r.WF) :
    (fragsAt (wire rs) 0 rs).map frag.toRecord = rs := by
  have h := fragsAt_toRecord rs [] [] hwf
  simpa using h

/-- Trailing bytes too few for a header are rejected. -/
theorem decode_trailing (rs : List record) (t : List UInt8) (hwf : ∀ r ∈ rs, r.WF)
    (h1 : 1 ≤ t.length) (h11 : t.length ≤ 11) :
    decode (wire rs ++ t) ((wire rs ++ t).length : Nat) = .raise "patch cannot be decoded" := by
  have h := decode_prefix rs t hwf 1 (wire rs).length (fragsAt (wire rs ++ t) 0 rs)
    (by rw [decodeLoop_succ, if_neg (by simp only [List.length_append]; omega)])
  rw [h, if_pos (by simp only [List.length_append]; omega)]

/-- A header with `start > end` is rejected, whatever follows it. -/
theorem decode_bad_header (rs : List record) (s e l : Nat) (rest : List UInt8)
    (hwf : ∀ r ∈ rs, r.WF) (hs : s < 4294967296) (he : e < 4294967296) (hl : l < 4294967296)
    (hse : e < s) :
    decode (wire rs ++ (be32bytes s ++ (be32bytes e ++ (be32bytes l ++ rest))))
      ((wire rs ++ (be32bytes s ++ (be32bytes e ++ (be32bytes l ++ rest)))).length : Nat)
      = .raise "patch cannot be decoded" := by
  obtain ⟨b0, b4, -⟩ := be32_header_at (wire rs) s e l rest hs he hl
  have h := decode_prefix rs (be32bytes s ++ (be32bytes e ++ (be32bytes l ++ rest))) hwf 1
    (wire rs).length (fragsAt (wire rs ++ (be32bytes s ++ (be32bytes e ++ (be32bytes l ++ rest)))) 0 rs)
    (by
      rw [decodeLoop_succ, if_pos (by simp only [List.length_append, be32bytes_length]; omega),
        b0, b4, if_pos hse])
  rw [h, if_pos (by simp only [List.length_append, be32bytes_length]; omega)]

/-- A final record whose declared `len` runs past the end of the blob is rejected. -/
theorem decode_truncated (rs : List record) (s e l : Nat) (d : List UInt8)
    (hwf : ∀ r ∈ rs, r.WF) (hs : s < 4294967296) (he : e < 4294967296) (hl : l < 4294967296)
    (hse : s ≤ e) (hd : d.length < l) :
    decode (wire rs ++ (be32bytes s ++ (be32bytes e ++ (be32bytes l ++ d))))
      ((wire rs ++ (be32bytes s ++ (be32bytes e ++ (be32bytes l ++ d)))).length : Nat)
      = .raise "patch cannot be decoded" := by
  obtain ⟨b0, b4, b8⟩ := be32_header_at (wire rs) s e l d hs he hl
  have h := decode_prefix rs (be32bytes s ++ (be32bytes e ++ (be32bytes l ++ d))) hwf 2
    ((wire rs).length + 12 + l) _
    (by
      rw [decodeLoop_succ, if_pos (by simp only [List.length_append, be32bytes_length]; omega),
        b0, b4, b8, if_neg (by omega), decodeLoop_succ,
        if_neg (by simp only [List.length_append, be32bytes_length]; omega)])
  rw [h, if_pos (by simp only [List.length_append, be32bytes_length]; omega)]

end Mpatch

namespace Mpatch

/-- At a header with `start > end` the loop stops, standing at that header. -/
theorem decodeLoop_bad_header (rs : List record) (s e l : Nat) (rest : List UInt8)
    (hwf : ∀ r ∈ rs, r.WF) (hs : s < 4294967296) (he : e < 4294967296) (hl : l < 4294967296)
    (hse : e < s) (k : Nat) :
    decodeLoop (wire rs ++ (be32bytes s ++ (be32bytes e ++ (be32bytes l ++ rest))))
      ((wire rs ++ (be32bytes s ++ (be32bytes e ++ (be32bytes l ++ rest)))).length : Nat)
      (k + 1 + rs.length) 0 12 []
      = some ((wire rs).length,
          fragsAt (wire rs ++ (be32bytes s ++ (be32bytes e ++ (be32bytes l ++ rest)))) 0 rs) := by
  obtain ⟨b0, b4, -⟩ := be32_header_at (wire rs) s e l rest hs he hl
  have hsk := decodeLoop_wire rs [] (be32bytes s ++ (be32bytes e ++ (be32bytes l ++ rest))) []
    (k + 1) ((wire rs ++ (be32bytes s ++ (be32bytes e ++ (be32bytes l ++ rest)))).length : Nat) hwf
    (by simp only [List.length_nil, List.length_append]; omega)
  simp only [List.nil_append, List.length_nil, Nat.zero_add] at hsk
  rw [hsk, decodeLoop_succ,
    if_pos (by simp only [List.length_append, be32bytes_length]; omega), b0, b4, if_pos hse]

end Mpatch
namespace Mpatch

/-! ## `calcsize` -/

theorem growth_nil : growth [] = 0 := rfl

theorem growth_cons (f : frag) (r : List frag) :
    growth (f :: r) = (f.len : Int) - ((f.end_ : Int) - f.start) + growth r := by
  simp [growth]

theorem calcsizeLoop_cons (len : Int) (f : frag) (r : List frag) (outlen last : Int) :
    calcsizeLoop len (f :: r) outlen last =
      if f.start < u32 last ∨ f.end_ > u32 len then .raise "invalid patch"
      else calcsizeLoop len r (i32 (i32 (outlen + (f.start - last)) + f.len)) (i32 f.end_) := rfl

theorem calcsizeLoop_ok (L : Nat) (hL : L < 2147483648) (l : List frag) :
    ∀ (last : Nat) (outlen : Int), last ≤ L → ¬ Violation last L l →
      calcsizeLoop L l outlen last = .ok (i32 (outlen + L - last + growth l)) := by
  induction l with
  | nil =>
    intro last outlen hl _
    simp only [calcsizeLoop, growth_nil]
    exact congrArg Outcome.ok (by unfold i32; omega)
  | cons f r ih =>
    intro last outlen hl hv
    simp only [Violation, not_or, not_lt] at hv
    obtain ⟨h1, h2, h3⟩ := hv
    have e1 : u32 (last : Int) = last := by unfold u32; omega
    have e2 : u32 (L : Int) = L := by unfold u32; omega
    have e3 : i32 (f.end_ : Int) = f.end_ := i32_eq (by omega) (by omega)
    have hc : ¬ (f.start < last ∨ f.end_ > L) := by omega
    rw [calcsizeLoop_cons, e1, e2, e3, if_neg hc, ih f.end_ _ (by omega) h3, growth_cons]
    exact congrArg Outcome.ok (by unfold i32; omega)

theorem calcsizeLoop_raise (L : Nat) (hL : L < 2147483648) (l : List frag) :
    ∀ (last : Nat) (outlen : Int), last ≤ L → Violation last L l →
      calcsizeLoop L l outlen last = .raise "invalid patch" := by
  induction l with
  | nil => intro last outlen _ hv; exact absurd hv (by simp [Violation])
  | cons f r ih =>
    intro last outlen hl hv
    have e1 : u32 (last : Int) = last := by unfold u32; omega
    have e2 : u32 (L : Int) = L := by unfold u32; omega
    by_cases hc : f.start < last ∨ f.end_ > L
    · rw [calcsizeLoop_cons, e1, e2, if_pos hc]
    · have e3 : i32 (f.end_ : Int) = f.end_ := i32_eq (by omega) (by omega)
      have h3 : Violation f.end_ L r := by
        simp only [Violation] at hv
        rcases hv with h | h | h
        · exact absurd (Or.inl h) hc
        · exact absurd (Or.inr h) hc
        · exact h
      rw [calcsizeLoop_cons, e1, e2, e3, if_neg hc]
      exact ih f.end_ _ (by omega) h3

theorem calcsize_ok (L : Nat) (hL : L < 2147483648) (l : List frag) (hv : ¬ Violation 0 L l) :
    calcsize L l = .ok (i32 (L + growth l)) := by
  have h := calcsizeLoop_ok L hL l 0 0 (by omega) hv
  simp only [calcsize]
  have e : ((0 : Nat) : Int) = 0 := rfl
  rw [e] at h
  rw [h]
  exact congrArg Outcome.ok (by unfold i32; omega)

theorem calcsize_raise (L : Nat) (hL : L < 2147483648) (l : List frag) (hv : Violation 0 L l) :
    calcsize L l = .raise "invalid patch" :=
  calcsizeLoop_raise L hL l 0 0 (by omega) hv

theorem Violation.of_consecutive (L : Nat) (xs : List frag) (f1 f2 : frag) (ys : List frag)
    (h : f2.start < f1.end_) : ∀ last, Violation last L (xs ++ f1 :: f2 :: ys) := by
  induction xs with
  | nil => intro last; exact Or.inr (Or.inr (Or.inl h))
  | cons x xs ih => intro last; exact Or.inr (Or.inr (ih x.end_))

theorem ValidFrom.not_violation {last L : Nat} {l : List frag} (h : ValidFrom last L l) :
    ¬ Violation last L l := by
  induction l generalizing last with
  | nil => simp [Violation]
  | cons f r ih =>
    obtain ⟨h1, h2, h3, h4⟩ := h
    simp only [Violation, not_or, not_lt]
    exact ⟨h1, by omega, ih h4⟩

theorem ValidFrom.of_not_violation {last L : Nat} {l : List frag} (hl : last ≤ L)
    (hse : ∀ f ∈ l, f.start ≤ f.end_) (h : ¬ Violation last L l) : ValidFrom last L l := by
  induction l generalizing last with
  | nil => exact hl
  | cons f r ih =>
    simp only [Violation, not_or, not_lt] at h
    obtain ⟨h1, h2, h3⟩ := h
    have h4 : ¬ f.end_ > L := by omega
    exact ⟨h1, hse f (List.mem_cons_self _ _), by omega,
      ih (by omega) (fun g hg => hse g (List.mem_cons_of_mem _ hg)) h3⟩

/-- The length of the text a valid fragment list stands for. -/
theorem den_length_growth (T : List UInt8) {l : List frag}
    (hv : ValidFrom 0 T.length l) (hd : ∀ f ∈ l, DataOK f) :
    ((den T 0 l T.length).length : Int) = T.length + growth l := by
  have h := den_length T (le_refl _) hv hd
  have e : growth l = (l.map (fun f => (f.len : Int))).sum
      - (l.map (fun f => (f.end_ : Int) - f.start)).sum := by
    clear h hv hd
    induction l with
    | nil => rfl
    | cons f r ih => rw [growth_cons, ih]; simp only [List.map_cons, List.sum_cons]; omega
  rw [e]
  have e0 : ((0 : Nat) : Int) = 0 := rfl
  rw [e0] at h
  omega

end Mpatch
namespace Mpatch

/-! ## `amp_mpatch_patched_size` -/

theorem patchedSizeLoop_succ (buf : List UInt8) (e : Int) (fuel bin data outlen last : Nat) :
    patchedSizeLoop buf e (fuel + 1) bin data outlen last =
      if (data : Int) ≤ e then
        if be32 buf (bin + 4) < be32 buf bin then some (bin, outlen, last)
        else patchedSizeLoop buf e fuel (data + be32 buf (bin + 8))
          (data + be32 buf (bin + 8) + 12)
          (u32 ((u32 ((outlen : Int) + ((be32 buf bin : Int) - last)) : Int) + be32 buf (bin + 8)))
          (be32 buf (bin + 4))
      else some (bin, outlen, last) := by
  have h : ¬ (data + be32 buf (bin + 8) < data) := by omega
  simp only [patchedSizeLoop, h, if_false, gt_iff_lt]

theorem psAcc_nil (acc : Nat × Nat) : psAcc acc [] = acc := by
  cases acc; rfl

theorem psAcc_cons (outlen last : Nat) (g : frag) (r : List frag) :
    psAcc (outlen, last) (g :: r) =
      psAcc (u32 ((u32 ((outlen : Int) + ((g.start : Int) - last)) : Int) + g.len), g.end_) r := rfl

/-- The size loop walks the blob exactly as the decoding loop does. -/
theorem patchedSizeLoop_decode (buf : List UInt8) (e : Int) :
    ∀ (f bin data : Nat) (lt : List frag) (outlen last b : Nat) (fs : List frag),
      decodeLoop buf e f bin data lt = some (b, fs) →
      ∃ new, fs = lt ++ new ∧
        patchedSizeLoop buf e f bin data outlen last
          = some (b, (psAcc (outlen, last) new).1, (psAcc (outlen, last) new).2) := by
  intro f
  induction f with
  | zero => intro bin data lt outlen last b fs h; simp [decodeLoop] at h
  | succ f ih =>
    intro bin data lt outlen last b fs h
    rw [decodeLoop_succ] at h
    rw [patchedSizeLoop_succ]
    by_cases h1 : (data : Int) ≤ e
    · rw [if_pos h1] at h ⊢
      by_cases h2 : be32 buf (bin + 4) < be32 buf bin
      · rw [if_pos h2] at h ⊢
        injection h with h
        injection h with h3 h4
        subst h3 h4
        exact ⟨[], by simp, by rw [psAcc_nil]⟩
      · rw [if_neg h2] at h ⊢
        obtain ⟨new, hfs, hps⟩ := ih _ _ _
          (u32 ((u32 ((outlen : Int) + ((be32 buf bin : Int) - last)) : Int) + be32 buf (bin + 8)))
          (be32 buf (bin + 4)) _ _ h
        refine ⟨⟨be32 buf bin, be32 buf (bin + 4), be32 buf (bin + 8), ⟨buf, data⟩⟩ :: new, ?_, ?_⟩
        · rw [hfs]; simp
        · rw [hps, psAcc_cons]
    · rw [if_neg h1] at h ⊢
      injection h with h
      injection h with h3 h4
      subst h3 h4
      exact ⟨[], by simp, by rw [psAcc_nil]⟩

theorem psAcc_value (X : Int) (fs : List frag) :
    ∀ (o l : Nat), u32 (((psAcc (o, l) fs).1 : Int) + (X - (psAcc (o, l) fs).2))
      = u32 ((o : Int) + X - l + growth fs) := by
  induction fs with
  | nil =>
    intro o l
    rw [psAcc_nil, growth_nil]
    unfold u32; omega
  | cons g r ih =>
    intro o l
    rw [psAcc_cons, ih, growth_cons]
    unfold u32; omega

theorem patched_size_of_loop {og : Nat} {d : List UInt8} {pl : Int} {b o l : Nat}
    (h : patchedSizeLoop d pl (pl.toNat / 12 + 1) 0 12 0 0 = some (b, o, l)) :
    patched_size og d pl = if (b : Int) ≠ pl then .raise "patch cannot be decoded"
        else .ok (u32 ((o : Int) + ((og : Int) - l))) := by
  simp only [patched_size, h]

/-- The size function accepts exactly the blobs `decode` accepts, and its
result is the base length plus the growth of the decoded fragments, in `uint32_t`. -/
theorem patched_size_decode (og : Nat) (d : List UInt8) (pl : Int) :
    (∀ fs, decode d pl = .ok fs → patched_size og d pl = .ok (u32 ((og : Int) + growth fs))) ∧
    (∀ m, decode d pl = .raise m → patched_size og d pl = .raise m) := by
  obtain ⟨⟨b, lt⟩, hr⟩ := decodeLoop_fuel d pl (pl.toNat / 12 + 1) 0 12 [] (by omega)
  obtain ⟨new, hfs, hps⟩ := patchedSizeLoop_decode d pl _ 0 12 [] 0 0 b lt hr
  rw [List.nil_append] at hfs
  subst hfs
  rw [decode_of_loop hr, patched_size_of_loop hps]
  by_cases hb : (b : Int) ≠ pl
  · rw [if_pos hb, if_pos hb]
    refine ⟨fun fs h => (by cases h), fun m h => ?_⟩
    injection h with h
    rw [h]
  · rw [if_neg hb, if_neg hb]
    refine ⟨fun fs h => ?_, fun m h => (by cases h)⟩
    injection h with h
    subst h
    have h := psAcc_value og lt 0 0
    rw [h]
    exact congrArg Outcome.ok (congrArg u32 (by simp))

theorem amp_mpatch_patched_size_ok {orig : Int} {d : List UInt8} {fs : List frag}
    (h : decode d (i32 d.length) = .ok fs) :
    amp_mpatch_patched_size orig d = .ok (u32 (orig + growth fs)) := by
  unfold amp_mpatch_patched_size
  rw [(patched_size_decode (u32 orig) d (i32 d.length)).1 fs h]
  exact congrArg Outcome.ok (by unfold u32; omega)

theorem amp_mpatch_patched_size_raise {orig : Int} {d : List UInt8} {m : String}
    (h : decode d (i32 d.length) = .raise m) :
    amp_mpatch_patched_size orig d = .raise m := by
  unfold amp_mpatch_patched_size
  exact (patched_size_decode (u32 orig) d (i32 d.length)).2 m h

end Mpatch
namespace Mpatch

/-! ## `amp_mpatch_apply_patches` -/

theorem patch_text_ok {T : List UInt8} {inlen len : Int} {bins : List (List UInt8)}
    {p : List frag} {n : Int} {out : List UInt8}
    (hf : fold bins len.toNat 0 len = .ok p)
    (hc : calcsize inlen p = .ok n) (hn : 0 ≤ n)
    (ha : apply T inlen p = .ok out) :
    patch_text T inlen bins len = .ok (some out) := by
  have hn' : ¬ n < 0 := by omega
  simp only [patch_text, hf, hc, hn', ha, if_false]

theorem patch_text_negative {T : List UInt8} {inlen len : Int} {bins : List (List UInt8)}
    {p : List frag} {n : Int}
    (hf : fold bins len.toNat 0 len = .ok p)
    (hc : calcsize inlen p = .ok n) (hn : n < 0) :
    patch_text T inlen bins len = .ok none := by
  simp only [patch_text, hf, hc, hn, if_true]

theorem patch_text_fold_raise {T : List UInt8} {inlen len : Int} {bins : List (List UInt8)}
    {m : String} (hf : fold bins len.toNat 0 len = .raise m) :
    patch_text T inlen bins len = .raise m := by
  simp only [patch_text, hf]

theorem patch_text_calcsize_raise {T : List UInt8} {inlen len : Int} {bins : List (List UInt8)}
    {p : List frag} {m : String}
    (hf : fold bins len.toNat 0 len = .ok p)
    (hc : calcsize inlen p = .raise m) :
    patch_text T inlen bins len = .raise m := by
  simp only [patch_text, hf, hc]

theorem apply_patches_eq {T : List UInt8} {bins : List (List UInt8)}
    (hl : i32 bins.length ≠ 0) :
    amp_mpatch_apply_patches T bins = patch_text T (i32 T.length) bins (i32 bins.length) := by
  unfold amp_mpatch_apply_patches
  rw [if_neg hl]

theorem i32_length_singleton (d : List UInt8) : i32 (([d] : List (List UInt8)).length : Int) = 1 := by
  simp [i32]

theorem fold_singleton (d : List UInt8) : fold [d] 1 0 1 = decode d (i32 d.length) := by
  simp [fold, i32]

/-- `apply_patches` on a single delta is `patch_text` on its decoding. -/
theorem apply_patches_singleton (T d : List UInt8) :
    amp_mpatch_apply_patches T [d] = patch_text T (i32 T.length) [d] 1 ∧
    fold [d] (1 : Int).toNat 0 1 = decode d (i32 d.length) := by
  refine ⟨?_, fold_singleton d⟩
  rw [apply_patches_eq (by rw [i32_length_singleton]; decide), i32_length_singleton]

end Mpatch
namespace Mpatch

/-! ## The indices `combine` computes do not depend on the data pointers -/

theorem idx_eq {f g : frag} (h : f.idx = g.idx) :
    f.start = g.start ∧ f.end_ = g.end_ ∧ f.len = g.len := by
  simp only [frag.idx, Prod.mk.injEq] at h
  exact h

theorem gather_idx (cut : Int) : ∀ (src src2 : List frag) (offset : Int),
    src.map frag.idx = src2.map frag.idx →
    (gather [] src cut offset).1.map frag.idx = (gather [] src2 cut offset).1.map frag.idx ∧
    (gather [] src cut offset).2.1.map frag.idx = (gather [] src2 cut offset).2.1.map frag.idx ∧
    (gather [] src cut offset).2.2 = (gather [] src2 cut offset).2.2 := by
  intro src
  induction src with
  | nil =>
    intro src2 offset h
    cases src2 with
    | nil => exact ⟨rfl, rfl, rfl⟩
    | cons _ _ => simp at h
  | cons s rest ih =>
    intro src2 offset h
    cases src2 with
    | nil => simp at h
    | cons s2 rest2 =>
      simp only [List.map_cons, List.cons.injEq] at h
      obtain ⟨hs, hr⟩ := h
      obtain ⟨e1, e2, e3⟩ := idx_eq hs
      by_cases h1 : u32 (s.start + offset) ≥ u32 cut
      · have h1b : u32 (s2.start + offset) ≥ u32 cut := by rw [← e1]; exact h1
        rw [gather_cons_stop h1, gather_cons_stop h1b]
        simp only [List.map_cons, List.map_nil, hs, hr, and_self]
      · have h1b : ¬ u32 (s2.start + offset) ≥ u32 cut := by rw [← e1]; exact h1
        by_cases h2 : i32 (offset + s.start + s.len) ≤ cut
        · have h2b : i32 (offset + s2.start + s2.len) ≤ cut := by rw [← e1, ← e3]; exact h2
          rw [gather_cons_whole h1 h2, gather_cons_whole h1b h2b, gather_dest, gather_dest (_ ++ [s2])]
          obtain ⟨i1, i2, i3⟩ := ih rest2 (i32 (offset + (s.start + s.len - s.end_))) hr
          rw [← e1, ← e2, ← e3]
          simp only [List.nil_append, List.map_append, List.map_cons, List.map_nil, hs, i1, i2, i3,
            and_self]
        · have h2b : ¬ i32 (offset + s2.start + s2.len) ≤ cut := by rw [← e1, ← e3]; exact h2
          rw [gather_cons_split h1 h2, gather_cons_split h1b h2b, ← e1, ← e2, ← e3]
          simp only [List.nil_append, List.map_cons, List.map_nil, frag.idx, hr, and_self]

theorem combineLoop_idx (b : List frag) : ∀ (a a2 : List frag) (offset : Int),
    a.map frag.idx = a2.map frag.idx →
    (combineLoop [] a b offset).1.map frag.idx = (combineLoop [] a2 b offset).1.map frag.idx ∧
    (combineLoop [] a b offset).2.map frag.idx = (combineLoop [] a2 b offset).2.map frag.idx := by
  induction b with
  | nil => intro a a2 offset h; exact ⟨rfl, h⟩
  | cons bh bt ih =>
    intro a a2 offset h
    obtain ⟨g1, g2, g3⟩ := gather_idx (i32 bh.start) a a2 offset h
    obtain ⟨d1, d2, d3⟩ := gather_idx (i32 bh.end_) _ _ (gather [] a (i32 bh.start) offset).2.2 g2
    rw [g3] at d3
    nth_rewrite 2 [g3] at d2
    nth_rewrite 2 [g3] at d1
    obtain ⟨i1, i2⟩ := ih _ _ (gather [] (gather [] a (i32 bh.start) offset).2.1 (i32 bh.end_)
      (gather [] a (i32 bh.start) offset).2.2).2.2 d2
    rw [combineLoop_cons, combineLoop_cons]
    refine ⟨?_, ?_⟩
    · simp only [List.map_append, List.map_cons, g1]
      rw [← g3, ← d3] at *
      simp only [frag.idx, i1]
    · rw [← g3, ← d3] at *
      exact i2

theorem combine_idx (a a2 b : List frag) (h : a.map frag.idx = a2.map frag.idx) :
    (combine a b).map frag.idx = (combine a2 b).map frag.idx := by
  obtain ⟨h1, h2⟩ := combineLoop_idx b a a2 0 h
  simp only [combine, List.map_append, h1, h2]

theorem ValidFrom_idx {L : Nat} : ∀ {l l2 : List frag} {last : Nat},
    l.map frag.idx = l2.map frag.idx → ValidFrom last L l → ValidFrom last L l2 := by
  intro l
  induction l with
  | nil =>
    intro l2 last h hv
    cases l2 with
    | nil => exact hv
    | cons _ _ => simp at h
  | cons f r ih =>
    intro l2 last h hv
    cases l2 with
    | nil => simp at h
    | cons f2 r2 =>
      simp only [List.map_cons, List.cons.injEq] at h
      obtain ⟨e1, e2, e3⟩ := idx_eq h.1
      obtain ⟨h1, h2, h3, h4⟩ := hv
      exact ⟨by omega, by omega, by omega, e2 ▸ ih h.2 h4⟩

theorem growth_idx {l l2 : List frag} (h : l.map frag.idx = l2.map frag.idx) :
    growth l = growth l2 := by
  have e : ∀ l : List frag, growth l
      = ((l.map frag.idx).map (fun p => (p.2.2 : Int) - ((p.2.1 : Int) - p.1))).sum := by
    intro l
    simp only [growth, List.map_map]
    rfl
  rw [e, e, h]

theorem canon_idx (l : List frag) : (l.map frag.canon).map frag.idx = l.map frag.idx := by
  simp only [List.map_map]
  rfl

theorem canon_dataOK (l : List frag) : ∀ f ∈ l.map frag.canon, DataOK f := by
  intro f hf
  rw [List.mem_map] at hf
  obtain ⟨g, -, rfl⟩ := hf
  unfold DataOK frag.canon
  simp only [List.length_replicate]
  omega

theorem ValidFrom.start_le_end {last L : Nat} {l : List frag} (h : ValidFrom last L l) :
    ∀ f ∈ l, f.start ≤ f.end_ := by
  induction l generalizing last with
  | nil => intro f hf; cases hf
  | cons g r ih =>
    intro f hf
    obtain ⟨_, h2, _, h4⟩ := h
    rcases List.mem_cons.1 hf with rfl | hf
    · exact h2
    · exact ih h4 f hf

/-- The length a valid fragment list gives a base of length `L` is not negative. -/
theorem growth_nonneg {L : Nat} {l : List frag} (hv : ValidFrom 0 L l) :
    0 ≤ (L : Int) + growth l := by
  have hv2 : ValidFrom 0 (List.replicate L (0 : UInt8)).length (l.map frag.canon) := by
    rw [List.length_replicate]
    exact ValidFrom_idx (canon_idx l).symm hv
  have h := den_length_growth (List.replicate L 0) hv2 (canon_dataOK l)
  rw [growth_idx (canon_idx l), List.length_replicate] at h
  omega

/-- Validity is preserved by `combine`: `a` valid for a base of `L < 2^31`
bytes, `b` valid for the patched length `L2 = L + growth a < 2^31`. -/
theorem combine_valid (L L2 : Nat) (a b : List frag) (hL : L < 2147483648)
    (hL2 : L2 < 2147483648) (hva : ValidFrom 0 L a) (hg : (L2 : Int) = L + growth a)
    (hvb : ValidFrom 0 L2 b) : ValidFrom 0 L (combine a b) := by
  have hlen : (List.replicate L (0 : UInt8)).length = L := List.length_replicate _ _
  have hv2 : ValidFrom 0 (List.replicate L (0 : UInt8)).length (a.map frag.canon) := by
    rw [hlen]
    exact ValidFrom_idx (canon_idx a).symm hva
  have h := den_length_growth (List.replicate L 0) hv2 (canon_dataOK a)
  rw [growth_idx (canon_idx a), hlen] at h
  have hl2 : (den (List.replicate L 0) 0 (a.map frag.canon)
      (List.replicate L (0 : UInt8)).length).length = L2 := by
    rw [hlen]; omega
  have hs := (combine_sem (List.replicate L 0) _ (a.map frag.canon) b (by rw [hlen]; exact hL)
    (by rw [hl2]; exact hL2) hv2 (canon_dataOK a) rfl (by rw [hl2]; exact hvb)).1
  rw [hlen] at hs
  exact ValidFrom_idx (combine_idx _ _ b (canon_idx a)) hs

end Mpatch
namespace Mpatch

/-! ## `fold` -/

theorem fold_base (bins : List (List UInt8)) (fuel s : Nat) (d : List UInt8)
    (hs : s + 1 < 2147483648) (hd : bins.get? s = some d) :
    fold bins (fuel + 1) s ((s + 1 : Nat) : Int) = decode d (i32 d.length) := by
  have e1 : i32 ((s : Int) + 1) = ((s + 1 : Nat) : Int) := by
    rw [i32_eq (by omega) (by omega)]; omega
  have e2 : (0 : Int) ≤ (s : Int) := by omega
  simp only [fold, e1, e2, if_true, Int.toNat_ofNat, hd]

theorem fold_mid (s e : Nat) (hse : s + 2 ≤ e) (he : e < 2147483648) :
    i32 ((s : Int) + 1) ≠ (e : Int) ∧
    i32 ((s : Int) + Int.tdiv (i32 ((e : Int) - s)) 2) = ((s + (e - s) / 2 : Nat) : Int) := by
  have e1 : i32 ((s : Int) + 1) = (s : Int) + 1 := i32_eq (by omega) (by omega)
  have e2 : i32 ((e : Int) - s) = ((e - s : Nat) : Int) := by
    rw [i32_eq (by omega) (by omega)]; omega
  refine ⟨by rw [e1]; omega, ?_⟩
  rw [e2]
  have e3 : Int.tdiv ((e - s : Nat) : Int) 2 = (((e - s) / 2 : Nat) : Int) := by
    rw [Int.tdiv_eq_ediv (by omega) (by omega)]
    rfl
  rw [e3, i32_eq (by omega) (by omega)]
  omega

theorem fold_step_ok (bins : List (List UInt8)) (fuel s e : Nat) (a b : List frag)
    (hse : s + 2 ≤ e) (he : e < 2147483648)
    (ha : fold bins fuel s ((s + (e - s) / 2 : Nat) : Int) = .ok a)
    (hb : fold bins fuel ((s + (e - s) / 2 : Nat) : Int) e = .ok b) :
    fold bins (fuel + 1) s e = .ok (combine a b) := by
  obtain ⟨h1, h2⟩ := fold_mid s e hse he
  simp only [fold, h1, if_false, h2, ha, hb]

theorem fold_step_total (bins : List (List UInt8)) (fuel s e : Nat)
    (hse : s + 2 ≤ e) (he : e < 2147483648)
    (ha : fold bins fuel s ((s + (e - s) / 2 : Nat) : Int) ≠ .diverge)
    (hb : fold bins fuel ((s + (e - s) / 2 : Nat) : Int) e ≠ .diverge) :
    fold bins (fuel + 1) s e ≠ .diverge := by
  obtain ⟨h1, h2⟩ := fold_mid s e hse he
  simp only [fold, h1, if_false, h2]
  cases hx : fold bins fuel s ((s + (e - s) / 2 : Nat) : Int) with
  | diverge => exact absurd hx ha
  | ok a =>
    cases hy : fold bins fuel ((s + (e - s) / 2 : Nat) : Int) e with
    | diverge => exact absurd hy hb
    | ok b => simp
    | raise m => simp
  | raise m =>
    cases hy : fold bins fuel ((s + (e - s) / 2 : Nat) : Int) e with
    | diverge => exact absurd hy hb
    | ok b => simp
    | raise m2 => simp

/-! ## Consistent chains of deltas -/

theorem Consistent.length_lt {B : Nat} {T T2 : List UInt8} {ds : List (List UInt8)}
    (h : Consistent B T ds T2) : T.length < B ∧ T2.length < B := by
  induction h with
  | nil T h => exact ⟨h, h⟩
  | cons T d fs ds T2 h1 _ _ _ ih => exact ⟨h1, ih.2⟩

theorem Consistent.concat {B : Nat} {T T1 T2 : List UInt8} {l1 l2 : List (List UInt8)}
    (h1 : Consistent B T l1 T1) (h2 : Consistent B T1 l2 T2) : Consistent B T (l1 ++ l2) T2 := by
  induction h1 with
  | nil T _ => exact h2
  | cons T d fs ds T1 hl hd hv _ ih => exact Consistent.cons T d fs _ T2 hl hd hv (ih h2)

theorem Consistent.split {B : Nat} : ∀ (l1 l2 : List (List UInt8)) (T T2 : List UInt8),
    Consistent B T (l1 ++ l2) T2 → ∃ T1, Consistent B T l1 T1 ∧ Consistent B T1 l2 T2 := by
  intro l1
  induction l1 with
  | nil => intro l2 T T2 h; exact ⟨T, Consistent.nil T h.length_lt.1, h⟩
  | cons d ds ih =>
    intro l2 T T2 h
    cases h with
    | cons _ _ fs _ _ hl hd hv hr =>
      obtain ⟨T1, h1, h2⟩ := ih l2 _ T2 hr
      exact ⟨T1, Consistent.cons T d fs ds T1 hl hd hv h1, h2⟩

theorem slice_split (bins : List (List UInt8)) (s m e : Nat) (h1 : s ≤ m) (h2 : m ≤ e) :
    (bins.drop s).take (e - s) = (bins.drop s).take (m - s) ++ (bins.drop m).take (e - m) := by
  have e1 : e - s = (m - s) + (e - m) := by omega
  rw [e1, List.take_add, List.drop_drop]
  have e2 : s + (m - s) = m := by omega
  rw [e2]

theorem slice_one (bins : List (List UInt8)) (s : Nat) (h : s < bins.length) :
    ∃ d, bins.get? s = some d ∧ (bins.drop s).take 1 = [d] := by
  refine ⟨bins.get ⟨s, h⟩, List.get?_eq_get h, ?_⟩
  rw [List.drop_eq_getElem_cons h]
  rfl

/-- What `fold` computes on a consistent range of deltas: a fragment list valid
for the text before the range, whose denotation is the text after it. -/
theorem fold_sem (bins : List (List UInt8)) : ∀ (fuel s e : Nat) (X X2 : List UInt8),
    s < e → e ≤ bins.length → e < 2147483648 → e - s ≤ fuel →
    Consistent 2147483648 X ((bins.drop s).take (e - s)) X2 →
    ∃ l, fold bins fuel s e = .ok l ∧ ValidFrom 0 X.length l ∧ (∀ f ∈ l, DataOK f) ∧
      den X 0 l X.length = X2 := by
  intro fuel
  induction fuel with
  | zero => intro s e X X2 h1 _ _ h4; omega
  | succ fuel ih =>
    intro s e X X2 hse heb he hf hc
    by_cases h1 : e = s + 1
    · subst h1
      obtain ⟨d, hd, hsl⟩ := slice_one bins s (by omega)
      have e1 : s + 1 - s = 1 := by omega
      rw [e1, hsl] at hc
      cases hc with
      | cons _ _ fs _ _ hl hdec hv hr =>
        cases hr with
        | nil _ _ =>
          obtain ⟨m, -, -, hall⟩ := decode_sound (i32_le_self d.length) hdec
          exact ⟨fs, by rw [fold_base bins fuel s d he hd, hdec], hv,
            fun f hf => (hall f hf).2.1, rfl⟩
    · have hm1 : s < s + (e - s) / 2 := by omega
      have hm2 : s + (e - s) / 2 < e := by omega
      rw [slice_split bins s (s + (e - s) / 2) e (by omega) (by omega)] at hc
      obtain ⟨X1, hc1, hc2⟩ := Consistent.split _ _ _ _ hc
      obtain ⟨a, ha, hva, hda, hdena⟩ := ih s (s + (e - s) / 2) X X1 hm1 (by omega) (by omega)
        (by omega) hc1
      obtain ⟨b, hb, hvb, hdb, hdenb⟩ := ih (s + (e - s) / 2) e X1 X2 hm2 heb he (by omega) hc2
      obtain ⟨r1, r2, r3⟩ := combine_sem X X1 a b hc1.length_lt.1 hc1.length_lt.2 hva hda hdena hvb
      exact ⟨combine a b, fold_step_ok bins fuel s e a b (by omega) he ha hb, r1, r3 hdb,
        by rw [r2, hdenb]⟩

end Mpatch

namespace Mpatch

/-! ## The claims -/

/-- C1. Applying `combine a b` to a base `T` gives what applying `a` and then
`b` gives, whenever `a` is valid for `T` (each start at or after the previous
end, `start ≤ end`, `end ≤ |T|`), `b` is valid in the same sense for
`T' = apply(T, a)`, and every offset into `T` and `T'` is below `2^31`. The
replacement bytes of each fragment of `a` are the `len` bytes at its `data`
pointer (`DataOK`), as `apply`'s `memcpy` takes for granted. -/
theorem C1_apply_combine (T T' : List UInt8) (a b : List frag)
    (hT : T.length < 2147483648) (hT' : T'.length < 2147483648)
    (hva : ValidFrom 0 T.length a) (hda : ∀ f ∈ a, DataOK f)
    (happ : apply T T.length a = .ok T') (hvb : ValidFrom 0 T'.length b) :
    apply T T.length (combine a b) = apply T' T'.length b := by
  have h1 := apply_eq T hT a hva
  rw [h1] at happ
  have hden : den T 0 a T.length = T' := by injection happ
  obtain ⟨hv, hd, -⟩ := combine_sem T T' a b hT hT' hva hda hden hvb
  rw [apply_eq T hT _ hv, apply_eq T' hT' _ hvb, hd]

/-- C1, witness: base "HELLO WORLD", `a = [(6, 11, "THERE")]`, `b = [(0, 5, "HI")]`
gives "HI THERE". -/
theorem C1_apply_combine_witness :
    apply (bytes "HELLO WORLD") 11
        (combine [⟨6, 11, 5, ⟨bytes "THERE", 0⟩⟩] [⟨0, 5, 2, ⟨bytes "HI", 0⟩⟩])
      = apply (bytes "HELLO THERE") 11 [⟨0, 5, 2, ⟨bytes "HI", 0⟩⟩] ∧
    apply (bytes "HELLO THERE") 11 [⟨0, 5, 2, ⟨bytes "HI", 0⟩⟩] = .ok (bytes "HI THERE") :=
  ⟨C1_apply_combine (bytes "HELLO WORLD") (bytes "HELLO THERE")
      [⟨6, 11, 5, ⟨bytes "THERE", 0⟩⟩] [⟨0, 5, 2, ⟨bytes "HI", 0⟩⟩]
      (by decide) (by decide) (by decide) (by decide) (by decide) (by decide),
    by decide⟩

end Mpatch

namespace Mpatch

/-- The `int` a blob length below `2^32` converts to is the length itself, or
it is negative and `decode` rejects the blob without reading it. -/
theorem decode_int_length (blob : List UInt8) (h : blob.length < 4294967296) :
    i32 (blob.length : Int) = blob.length ∨
    decode blob (i32 blob.length) = .raise "patch cannot be decoded" := by
  by_cases hlt : blob.length < 2147483648
  · exact Or.inl (i32_eq (by omega) (by omega))
  · exact Or.inr (decode_negative _ _ (by unfold i32; omega))

/-- A blob that is the wire format of records followed by anything decodes to
those records when the length handed to `decode` is that of the records. -/
theorem decode_records_only (rs : List record) (post : List UInt8) (hwf : ∀ r ∈ rs, r.WF)
    (len : Int) (hlen : len = (wire rs).length) :
    decode (wire rs ++ post) len = .ok (fragsAt (wire rs ++ post) 0 rs) := by
  have hs := decodeLoop_wire rs [] post [] 1 len hwf
    (by simp only [List.length_nil]; omega)
  simp only [List.nil_append, List.length_nil, Nat.zero_add] at hs
  rw [decodeLoop_succ, if_neg (by omega)] at hs
  rw [decode_of_loop hs, if_neg (by omega)]

/-- C8, as the code has it. `decode` is called with the length of the blob
converted to `int`. For a blob shorter than `2^32` bytes: when `decode` accepts
it, it is exactly the wire-format concatenation of the records of the
fragments returned: 12 header bytes and `len` data bytes each, nothing before,
between or after. So these are all rejected with "patch cannot be decoded": a
blob whose final record declares more data than is left, a blob with 1 to 11
bytes after its last record, and any blob of 1 to 11 bytes. -/
theorem C8_decode_exact :
    (∀ (blob : List UInt8) (fs : List frag), blob.length < 4294967296 →
      decode blob (i32 blob.length) = .ok fs → blob = wire (fs.map frag.toRecord)) ∧
    (∀ (rs : List record) (s e l : Nat) (d : List UInt8), (∀ r ∈ rs, r.WF) →
      s ≤ e → e < 4294967296 → l < 4294967296 → d.length < l →
      (wire rs ++ (be32bytes s ++ (be32bytes e ++ (be32bytes l ++ d)))).length < 4294967296 →
      decode (wire rs ++ (be32bytes s ++ (be32bytes e ++ (be32bytes l ++ d))))
        (i32 (wire rs ++ (be32bytes s ++ (be32bytes e ++ (be32bytes l ++ d)))).length)
        = .raise "patch cannot be decoded") ∧
    (∀ (rs : List record) (t : List UInt8), (∀ r ∈ rs, r.WF) → 1 ≤ t.length → t.length ≤ 11 →
      (wire rs ++ t).length < 4294967296 →
      decode (wire rs ++ t) (i32 (wire rs ++ t).length) = .raise "patch cannot be decoded") ∧
    (∀ (blob : List UInt8), 1 ≤ blob.length → blob.length ≤ 11 →
      decode blob (i32 blob.length) = .raise "patch cannot be decoded") := by
  refine ⟨?_, ?_, ?_, ?_⟩
  · intro blob fs hlt h
    rcases decode_int_length blob hlt with e | e
    · rw [e] at h
      obtain ⟨n, hn, hw, -⟩ := decode_sound (le_refl _) h
      have : n = blob.length := by omega
      rw [hw, this, List.take_length]
    · rw [e] at h
      cases h
  · intro rs s e l d hwf hse he hl hd hlt
    rcases decode_int_length _ hlt with e1 | e1
    · rw [e1]
      exact decode_truncated rs s e l d hwf (by omega) he hl hse hd
    · exact e1
  · intro rs t hwf h1 h11 hlt
    rcases decode_int_length _ hlt with e1 | e1
    · rw [e1]
      exact decode_trailing rs t hwf h1 h11
    · exact e1
  · intro blob h1 h11
    rcases decode_int_length blob (by omega) with e1 | e1
    · rw [e1]
      have := decode_trailing [] blob (by simp) h1 h11
      simpa [wire] using this
    · exact e1

/-- C8, witness: the 17-byte blob of the record `(6, 11, 5, "THERE")` decodes
and is the wire format of what was decoded; cut short by one byte, followed by
one byte, or reduced to 5 bytes, it is rejected. -/
theorem C8_decode_exact_witness :
    decode (wire [⟨6, 11, 5, bytes "THERE"⟩]) (i32 (wire [⟨6, 11, 5, bytes "THERE"⟩]).length) =
      .ok (fragsAt (wire [⟨6, 11, 5, bytes "THERE"⟩]) 0 [⟨6, 11, 5, bytes "THERE"⟩]) ∧
    (wire [⟨6, 11, 5, bytes "THERE"⟩]
      = wire ((fragsAt (wire [⟨6, 11, 5, bytes "THERE"⟩]) 0 [⟨6, 11, 5, bytes "THERE"⟩]).map
          frag.toRecord)) ∧
    decode (wire [] ++ (be32bytes 6 ++ (be32bytes 11 ++ (be32bytes 5 ++ bytes "THER"))))
      (i32 (wire [] ++ (be32bytes 6 ++ (be32bytes 11 ++ (be32bytes 5 ++ bytes "THER")))).length)
      = .raise "patch cannot be decoded" ∧
    decode (wire [⟨6, 11, 5, bytes "THERE"⟩] ++ [0])
      (i32 (wire [⟨6, 11, 5, bytes "THERE"⟩] ++ [0]).length) = .raise "patch cannot be decoded" ∧
    decode [0, 0, 0, 6, 0] (i32 ([0, 0, 0, 6, 0] : List UInt8).length)
      = .raise "patch cannot be decoded" :=
  ⟨by decide,
    C8_decode_exact.1 (wire [⟨6, 11, 5, bytes "THERE"⟩])
      (fragsAt (wire [⟨6, 11, 5, bytes "THERE"⟩]) 0 [⟨6, 11, 5, bytes "THERE"⟩]) (by decide)
      (by decide),
    C8_decode_exact.2.1 [] 6 11 5 (bytes "THER") (by decide) (by decide) (by decide) (by decide)
      (by decide) (by decide),
    C8_decode_exact.2.2.1 [⟨6, 11, 5, bytes "THERE"⟩] [0] (by decide) (by decide) (by decide)
      (by decide),
    C8_decode_exact.2.2.2 [0, 0, 0, 6, 0] (by decide) (by decide)⟩

theorem longTail_length : longTail.length = 4294967296 := by
  unfold longTail
  rw [List.length_replicate]

/-- C8 fails for a blob of `2^32 + 12` bytes: the record `(0, 0, "")` followed by
`2^32` bytes has the length 12 as an `int`, so `decode` accepts it and returns
the one fragment, although `2^32` bytes follow the last record. -/
theorem C8_trailing_bytes_accepted :
    decode (wire [⟨0, 0, 0, []⟩] ++ longTail) (i32 (wire [⟨0, 0, 0, []⟩] ++ longTail).length) =
      .ok (fragsAt (wire [⟨0, 0, 0, []⟩] ++ longTail) 0 [⟨0, 0, 0, []⟩]) ∧
    wire [⟨0, 0, 0, []⟩] ++ longTail ≠
      wire ((fragsAt (wire [⟨0, 0, 0, []⟩] ++ longTail) 0 [⟨0, 0, 0, []⟩]).map frag.toRecord) := by
  have hwf : ∀ r ∈ [(⟨0, 0, 0, []⟩ : record)], r.WF := by decide
  have hw : (wire [⟨0, 0, 0, []⟩]).length = 12 := rfl
  have hlen : ((wire [⟨0, 0, 0, []⟩] ++ longTail).length : Int) = 4294967308 := by
    rw [List.length_append, longTail_length, hw]
    rfl
  have hi : i32 ((wire [⟨0, 0, 0, []⟩] ++ longTail).length : Int) = 12 := by
    rw [hlen]
    decide
  refine ⟨?_, ?_⟩
  · rw [hi]
    exact decode_records_only [⟨0, 0, 0, []⟩] longTail hwf 12 (by rw [hw]; rfl)
  · have hm := fragsAt_toRecord [⟨0, 0, 0, []⟩] [] longTail hwf
    rw [List.nil_append] at hm
    have hm2 : (fragsAt (wire [⟨0, 0, 0, []⟩] ++ longTail) 0 [⟨0, 0, 0, []⟩]).map frag.toRecord
        = [⟨0, 0, 0, []⟩] := hm
    rw [hm2]
    intro h
    have := congrArg List.length h
    rw [List.length_append, longTail_length, hw] at this
    omega

/-- C9. Decoding undoes encoding: for records with `start ≤ end`, fields below
`2^32`, `|data| = len` and an encoding shorter than `2^31` bytes, `decode` of
the wire format succeeds and returns one fragment per record, in order, with
the record's `start`, `end`, `len` and data bytes; the empty blob decodes to
the empty sequence. -/
theorem C9_decode_wire :
    (∀ (rs : List record), (∀ r ∈ rs, r.WF) → (wire rs).length < 2147483648 →
      ∃ fs, decode (wire rs) ((wire rs).length : Nat) = .ok fs ∧ fs.map frag.toRecord = rs) ∧
    decode [] 0 = .ok [] := by
  refine ⟨?_, by decide⟩
  intro rs hwf _
  exact ⟨_, decode_wire rs hwf, decode_wire_records rs hwf⟩

/-- C9, witness: the two records `(0, 5, 2, "HI")` and `(6, 11, 5, "THERE")`. -/
theorem C9_decode_wire_witness :
    ∃ fs, decode (wire [⟨0, 5, 2, bytes "HI"⟩, ⟨6, 11, 5, bytes "THERE"⟩])
        ((wire [⟨0, 5, 2, bytes "HI"⟩, ⟨6, 11, 5, bytes "THERE"⟩]).length : Nat) = .ok fs ∧
      fs.map frag.toRecord = [⟨0, 5, 2, bytes "HI"⟩, ⟨6, 11, 5, bytes "THERE"⟩] :=
  C9_decode_wire.1 [⟨0, 5, 2, bytes "HI"⟩, ⟨6, 11, 5, bytes "THERE"⟩] (by decide) (by decide)

/-- C10. Every fragment of a successful `decode` has `start ≤ end`; and when
the parser, after any number of well-formed records, reaches a header with
`start > end`, the loop stops standing at that header, which is never the end
of the blob, so `decode` fails with "patch cannot be decoded". -/
theorem C10_decode_start_le_end :
    (∀ (blob : List UInt8) (fs : List frag),
      decode blob (blob.length : Nat) = .ok fs → ∀ f ∈ fs, f.start ≤ f.end_) ∧
    (∀ (rs : List record) (s e l : Nat) (rest : List UInt8), (∀ r ∈ rs, r.WF) →
      s < 4294967296 → e < s → l < 4294967296 →
      (∀ k, decodeLoop (wire rs ++ (be32bytes s ++ (be32bytes e ++ (be32bytes l ++ rest))))
          ((wire rs ++ (be32bytes s ++ (be32bytes e ++ (be32bytes l ++ rest)))).length : Nat)
          (k + 1 + rs.length) 0 12 []
        = some ((wire rs).length,
            fragsAt (wire rs ++ (be32bytes s ++ (be32bytes e ++ (be32bytes l ++ rest)))) 0 rs)) ∧
      (wire rs).length ≠ (wire rs ++ (be32bytes s ++ (be32bytes e ++ (be32bytes l ++ rest)))).length ∧
      decode (wire rs ++ (be32bytes s ++ (be32bytes e ++ (be32bytes l ++ rest))))
        ((wire rs ++ (be32bytes s ++ (be32bytes e ++ (be32bytes l ++ rest)))).length : Nat)
        = .raise "patch cannot be decoded") := by
  refine ⟨?_, ?_⟩
  · intro blob fs h f hf
    obtain ⟨n, -, -, hall⟩ := decode_sound (le_refl _) h
    exact (hall f hf).1
  · intro rs s e l rest hwf hs hse hl
    refine ⟨fun k => decodeLoop_bad_header rs s e l rest hwf hs (by omega) hl hse k, ?_,
      decode_bad_header rs s e l rest hwf hs (by omega) hl hse⟩
    simp only [List.length_append, be32bytes_length]
    omega

/-- C10, witness: a good record followed by the header `(9, 3, 0)` and nothing
else is rejected; the fragments of a good blob have `start ≤ end`. -/
theorem C10_decode_start_le_end_witness :
    (∀ f ∈ fragsAt (wire [⟨6, 11, 5, bytes "THERE"⟩]) 0 [⟨6, 11, 5, bytes "THERE"⟩],
      f.start ≤ f.end_) ∧
    decode (wire [⟨6, 11, 5, bytes "THERE"⟩] ++ (be32bytes 9 ++ (be32bytes 3 ++ (be32bytes 0 ++ []))))
        ((wire [⟨6, 11, 5, bytes "THERE"⟩] ++
          (be32bytes 9 ++ (be32bytes 3 ++ (be32bytes 0 ++ [])))).length : Nat)
      = .raise "patch cannot be decoded" :=
  ⟨C10_decode_start_le_end.1 (wire [⟨6, 11, 5, bytes "THERE"⟩])
      (fragsAt (wire [⟨6, 11, 5, bytes "THERE"⟩]) 0 [⟨6, 11, 5, bytes "THERE"⟩]) (by decide),
    (C10_decode_start_le_end.2 [⟨6, 11, 5, bytes "THERE"⟩] 9 3 0 [] (by decide) (by decide)
      (by decide) (by decide)).2.2⟩

end Mpatch
namespace Mpatch

/-- C3. With an empty list of deltas `apply_patches` returns the text it was
given, unchanged, and raises nothing: the `if (!len) return text;` exit is taken
before any decoding, size calculation or copying. -/
theorem C3_apply_patches_nil (T : List UInt8) :
    amp_mpatch_apply_patches T [] = .ok (some T) := by
  simp [amp_mpatch_apply_patches, i32]

/-- The loop of `calcsize` on the `int` a base length `L < 2^32` converts to:
the unsigned comparisons of the loop are comparisons with `L` itself. -/
theorem calcsizeLoop_int (L : Nat) (hL : L < 4294967296) (l : List frag) :
    ∀ (last : Nat) (outlen : Int), last ≤ L →
      (Violation last L l → calcsizeLoop (i32 L) l outlen (i32 last) = .raise "invalid patch") ∧
      (¬ Violation last L l → ∃ n, calcsizeLoop (i32 L) l outlen (i32 last) = .ok n) := by
  have e2 : u32 (i32 (L : Int)) = L := by unfold u32 i32; omega
  induction l with
  | nil =>
    intro last outlen _
    exact ⟨fun hv => absurd hv (by simp [Violation]), fun _ => ⟨_, rfl⟩⟩
  | cons f r ih =>
    intro last outlen hl
    have e1 : u32 (i32 (last : Int)) = last := by unfold u32 i32; omega
    rw [calcsizeLoop_cons, e1, e2]
    by_cases hc : f.start < last ∨ f.end_ > L
    · rw [if_pos hc]
      refine ⟨fun _ => rfl, fun hv => absurd ?_ hv⟩
      rcases hc with hc | hc
      · exact Or.inl hc
      · exact Or.inr (Or.inl hc)
    · rw [if_neg hc]
      obtain ⟨i1, i2⟩ := ih f.end_ (i32 (i32 (outlen + (f.start - i32 (last : Int))) + f.len))
        (by omega)
      refine ⟨fun hv => i1 ?_, fun hv => i2 (fun h3 => hv (Or.inr (Or.inr h3)))⟩
      rcases hv with hv | hv | hv
      · exact absurd (Or.inl hv) hc
      · exact absurd (Or.inr hv) hc
      · exact hv

theorem calcsize_int (L : Nat) (hL : L < 4294967296) (l : List frag) :
    (Violation 0 L l → calcsize (i32 L) l = .raise "invalid patch") ∧
    (¬ Violation 0 L l → ∃ n, calcsize (i32 L) l = .ok n) := by
  have h := calcsizeLoop_int L hL l 0 0 (Nat.zero_le _)
  have e : i32 ((0 : Nat) : Int) = 0 := by decide
  rw [e] at h
  exact h

/-- C7, as the code has it. For a base length `L < 2^32`, which `calcsize`
receives as the `int` it converts to, `calcsize` raises "invalid patch" exactly
when some fragment starts before the end of its predecessor (before 0 for the
first one) or ends beyond `L`; otherwise it returns a size. In particular a
list with two consecutive fragments `f1`, `f2` with `f2.start < f1.end` is
rejected and no size is returned. For `L < 2^31` the `int` is `L` itself. -/
theorem C7_calcsize_invalid (L : Nat) (hL : L < 4294967296) (l : List frag) :
    (calcsize (i32 L) l = .raise "invalid patch" ↔ Violation 0 L l) ∧
    (¬ Violation 0 L l → ∃ n, calcsize (i32 L) l = .ok n) ∧
    (∀ xs f1 f2 ys, l = xs ++ f1 :: f2 :: ys → f2.start < f1.end_ →
      calcsize (i32 L) l = .raise "invalid patch" ∧ ∀ n, calcsize (i32 L) l ≠ .ok n) ∧
    (L < 2147483648 → i32 L = L) := by
  obtain ⟨h1, h2⟩ := calcsize_int L hL l
  refine ⟨⟨fun h => ?_, h1⟩, h2, fun xs f1 f2 ys hl h12 => ?_,
    fun h => i32_eq (by omega) (by omega)⟩
  · by_contra hv
    obtain ⟨n, hn⟩ := h2 hv
    rw [hn] at h
    cases h
  · have hv : Violation 0 L l := by
      rw [hl]
      exact Violation.of_consecutive L xs f1 f2 ys h12 0
    have hr := h1 hv
    refine ⟨hr, fun n hn => ?_⟩
    rw [hr] at hn
    cases hn

/-- C7, witness: on a base of 10 bytes, `[(0, 5), (3, 7)]` overlaps and is
rejected, `[(0, 3), (5, 12)]` ends beyond the base and is rejected, and
`[(0, 3), (5, 7)]` is accepted. -/
theorem C7_calcsize_invalid_witness :
    calcsize (i32 (10 : Nat)) [⟨0, 5, 0, ⟨[], 0⟩⟩, ⟨3, 7, 0, ⟨[], 0⟩⟩] = .raise "invalid patch" ∧
    calcsize (i32 (10 : Nat)) [⟨0, 3, 0, ⟨[], 0⟩⟩, ⟨5, 12, 0, ⟨[], 0⟩⟩] = .raise "invalid patch" ∧
    (∃ n, calcsize (i32 (10 : Nat)) [⟨0, 3, 0, ⟨[], 0⟩⟩, ⟨5, 7, 0, ⟨[], 0⟩⟩] = .ok n) ∧
    i32 (10 : Nat) = 10 :=
  ⟨((C7_calcsize_invalid 10 (by decide) _).2.2.1 [] ⟨0, 5, 0, ⟨[], 0⟩⟩ ⟨3, 7, 0, ⟨[], 0⟩⟩ [] rfl
      (by decide)).1,
    (C7_calcsize_invalid 10 (by decide) _).1.2 (by decide),
    (C7_calcsize_invalid 10 (by decide) _).2.1 (by decide),
    (C7_calcsize_invalid 10 (by decide) []).2.2.2 (by decide)⟩

/-- C7 fails for a base of `2^32 + 5` bytes: its length is 5 as an `int`, so the
one fragment `(0, 7)`, which starts at 0 and ends inside the base, is rejected
with "invalid patch". -/
theorem C7_base_length_truncated :
    ¬ Violation 0 4294967301 [⟨0, 7, 0, ⟨[], 0⟩⟩] ∧
    calcsize (i32 (4294967301 : Nat)) [⟨0, 7, 0, ⟨[], 0⟩⟩] = .raise "invalid patch" ∧
    ¬ (calcsize (i32 (4294967301 : Nat)) [⟨0, 7, 0, ⟨[], 0⟩⟩] = .raise "invalid patch" ↔
      Violation 0 4294967301 [⟨0, 7, 0, ⟨[], 0⟩⟩]) := by
  decide

end Mpatch
namespace Mpatch

/-! ## `apply` validates as `calcsize` does -/

/-- When the loop of `apply` raises, it raises "invalid patch", and the loop of
`calcsize` raises it too: up to the fragment that is refused the two loops
have made the same tests. -/
theorem applyLoop_raise (T : List UInt8) (len : Int) (l : List frag) :
    ∀ (last outlen : Int) (out : List UInt8) (m : String),
      applyLoop T len l last out = .raise m →
      m = "invalid patch" ∧ calcsizeLoop len l outlen last = .raise "invalid patch" := by
  induction l with
  | nil =>
    intro last outlen out m h
    cases hcp : copyFrom T last (usize (i32 (len - last))) with
    | none => rw [applyLoop_nil_none hcp] at h; cases h
    | some t => rw [applyLoop_nil_some hcp] at h; cases h
  | cons f r ih =>
    intro last outlen out m h
    rw [calcsizeLoop_cons]
    by_cases hc : f.start < u32 last ∨ f.end_ > u32 len
    · rw [applyLoop_cons_raise hc] at h
      rw [if_pos hc]
      injection h with h
      exact ⟨h.symm, rfl⟩
    · rw [if_neg hc]
      cases hcp : copyFrom T last (u32 (f.start - last)) with
      | none => rw [applyLoop_cons_none hc hcp] at h; cases h
      | some t =>
        rw [applyLoop_cons_some hc hcp] at h
        exact ih _ _ _ _ h

/-- On a base of `len` bytes, with `start <= end` in every fragment, the loop of
`apply` reads inside the base, raises where the loop of `calcsize` raises and
returns where it returns. -/
theorem applyLoop_inside (T : List UInt8) (len : Int) (hl : len < 2147483648)
    (hT : len ≤ T.length) (l : List frag) :
    ∀ (last outlen : Int) (out : List UInt8), 0 ≤ last → last ≤ len →
      (∀ f ∈ l, f.start ≤ f.end_) →
      (calcsizeLoop len l outlen last = .raise "invalid patch" →
        applyLoop T len l last out = .raise "invalid patch") ∧
      (∀ n, calcsizeLoop len l outlen last = .ok n → ∃ o, applyLoop T len l last out = .ok o) := by
  induction l with
  | nil =>
    intro last outlen out h0 h1 _
    refine ⟨fun h => (by cases h), fun n _ => ?_⟩
    have e : usize (i32 (len - last)) = (len - last).toNat := by unfold usize i32; omega
    have hcp : copyFrom T last (usize (i32 (len - last))) =
        some (if usize (i32 (len - last)) = 0 then []
          else (T.drop last.toNat).take (usize (i32 (len - last)))) := by
      unfold copyFrom
      by_cases hz : usize (i32 (len - last)) = 0
      · rw [if_pos hz, if_pos hz]
      · rw [if_neg hz, if_neg hz, if_pos ⟨h0, by omega⟩]
    exact ⟨_, applyLoop_nil_some hcp out⟩
  | cons f r ih =>
    intro last outlen out h0 h1 hse
    rw [calcsizeLoop_cons]
    by_cases hc : f.start < u32 last ∨ f.end_ > u32 len
    · rw [if_pos hc, applyLoop_cons_raise hc]
      exact ⟨fun _ => rfl, fun n h => (by cases h)⟩
    · rw [if_neg hc]
      have hle := hse f (List.mem_cons_self _ _)
      have e1 : (u32 last : Int) = last := u32_eq h0 (by omega)
      have e2 : (u32 len : Int) = len := u32_eq (by omega) (by omega)
      have hc1 : ¬ ((f.start : Int) < u32 last) := fun h => hc (Or.inl (by exact_mod_cast h))
      have hc2 : ¬ ((f.end_ : Int) > u32 len) := fun h => hc (Or.inr (by exact_mod_cast h))
      have e3 : i32 (f.end_ : Int) = f.end_ := i32_eq (by omega) (by omega)
      have hcp : copyFrom T last (u32 (f.start - last)) =
          some (if u32 (f.start - last) = 0 then []
            else (T.drop last.toNat).take (u32 (f.start - last))) := by
        have e4 : (u32 ((f.start : Int) - last) : Int) = f.start - last :=
          u32_eq (by omega) (by omega)
        unfold copyFrom
        by_cases hz : u32 ((f.start : Int) - last) = 0
        · rw [if_pos hz, if_pos hz]
        · rw [if_neg hz, if_neg hz, if_pos ⟨h0, by omega⟩]
      rw [applyLoop_cons_some hc hcp]
      exact ih _ _ _ (by omega) (by omega) (fun g hg => hse g (List.mem_cons_of_mem _ hg))

theorem apply_raise (T : List UInt8) (len : Int) (l : List frag) (m : String)
    (h : apply T len l = .raise m) :
    m = "invalid patch" ∧ calcsize len l = .raise "invalid patch" :=
  applyLoop_raise T len l 0 0 [] m h

theorem apply_inside (T : List UInt8) (len : Int) (h0 : 0 ≤ len) (hl : len < 2147483648)
    (hT : len ≤ T.length) (l : List frag) (hse : ∀ f ∈ l, f.start ≤ f.end_) :
    (apply T len l = .raise "invalid patch" ↔ calcsize len l = .raise "invalid patch") ∧
    (∀ n, calcsize len l = .ok n → ∃ o, apply T len l = .ok o) := by
  obtain ⟨h1, h2⟩ := applyLoop_inside T len hl hT l 0 0 [] (le_refl _) h0 hse
  exact ⟨⟨fun h => (apply_raise T len l _ h).2, h1⟩, h2⟩

theorem combineLoop_nil_left (b : List frag) (hb : ∀ f ∈ b, f.start < 4294967296 ∧ f.end_ < 4294967296) :
    ∀ c, combineLoop c [] b 0 = (c ++ b, []) := by
  induction b with
  | nil => intro c; simp [combineLoop]
  | cons bh bt ih =>
    intro c
    have h1 := (hb bh (List.mem_cons_self _ _)).1
    have h2 := (hb bh (List.mem_cons_self _ _)).2
    have e1 : u32 ((bh.start : Int) - 0) = bh.start := by unfold u32; omega
    have e2 : u32 ((bh.end_ : Int) - 0) = bh.end_ := by unfold u32; omega
    simp only [combineLoop, gather, discard, e1, e2]
    rw [ih (fun f hf => hb f (List.mem_cons_of_mem _ hf))]
    simp

/-- C14. The empty list is a two-sided identity of `combine`: `combine a []`
is `a`, and `combine [] b` is `b`, fragment by fragment with `start`, `end`,
`len` and `data` unchanged (the fields of `b` being `uint32_t` values). -/
theorem C14_combine_nil (a b : List frag)
    (hb : ∀ f ∈ b, f.start < 4294967296 ∧ f.end_ < 4294967296) :
    combine a [] = a ∧ combine [] b = b := by
  refine ⟨by simp [combine, combineLoop], ?_⟩
  simp only [combine]
  rw [combineLoop_nil_left b hb []]
  simp

/-- C14, witness: `combine` of `[(6, 11, "THERE")]` with `[]`, on either side. -/
theorem C14_combine_nil_witness :
    combine [⟨6, 11, 5, ⟨bytes "THERE", 0⟩⟩] [] = [⟨6, 11, 5, ⟨bytes "THERE", 0⟩⟩] ∧
    combine [] [⟨6, 11, 5, ⟨bytes "THERE", 0⟩⟩] = [⟨6, 11, 5, ⟨bytes "THERE", 0⟩⟩] :=
  C14_combine_nil [⟨6, 11, 5, ⟨bytes "THERE", 0⟩⟩] [⟨6, 11, 5, ⟨bytes "THERE", 0⟩⟩] (by decide)

end Mpatch
namespace Mpatch

theorem hugeInsert_start : hugeInsert.start = 0 := rfl

theorem hugeInsert_end : hugeInsert.end_ = 0 := rfl

theorem hugeInsert_len : hugeInsert.len = 2147483648 := rfl

theorem hugeInsert_dataOK : DataOK hugeInsert := by
  have e1 : hugeInsert.data.off = 0 := rfl
  have e2 : hugeInsert.data.buf = List.replicate 2147483648 0 := rfl
  unfold DataOK
  rw [e1, e2, hugeInsert_len, List.length_replicate]
  omega

/-- What `apply` writes when `calcsize` has accepted the list: the denotation
of the list, `|T| + growth l` bytes long. -/
theorem apply_of_calcsize (T : List UInt8) (l : List frag) (n : Int)
    (hT : T.length < 2147483648) (hse : ∀ f ∈ l, f.start ≤ f.end_)
    (hc : calcsize T.length l = .ok n) :
    ValidFrom 0 T.length l ∧ apply T T.length l = .ok (den T 0 l T.length) ∧
      n = i32 (T.length + growth l) := by
  have hv : ¬ Violation 0 T.length l := by
    intro hv
    rw [calcsize_raise T.length hT l hv] at hc
    cases hc
  have hvf := ValidFrom.of_not_violation (Nat.zero_le _) hse hv
  refine ⟨hvf, apply_eq T hT l hvf, ?_⟩
  rw [calcsize_ok T.length hT l hv] at hc
  injection hc with hc
  exact hc.symm

/-- C6, as amended. For a base `T` shorter than `2^31` bytes and a fragment
list that `calcsize` accepts, whose fragments have `start ≤ end` and `len`
bytes at `data`: `apply` returns, and when what it writes is shorter than
`2^31` bytes, the number of bytes written is exactly the size `calcsize`
returned. -/
theorem C6_apply_fills_calcsize (T : List UInt8) (l : List frag) (n : Int)
    (hT : T.length < 2147483648) (hse : ∀ f ∈ l, f.start ≤ f.end_ ∧ DataOK f)
    (hc : calcsize T.length l = .ok n) :
    ∃ out, apply T T.length l = .ok out ∧
      (out.length < 2147483648 → (out.length : Int) = n) := by
  obtain ⟨hv, ha, hn⟩ := apply_of_calcsize T l n hT (fun f hf => (hse f hf).1) hc
  refine ⟨_, ha, fun hlt => ?_⟩
  have hg := den_length_growth T hv (fun f hf => (hse f hf).2)
  rw [hn, ← hg]
  exact (i32_eq (by omega) (by omega)).symm

/-- C6, witness: "ABXYZEF" from "ABCDEF" and `[(2, 4, "XYZ")]`: 7 bytes, the size
`calcsize` returns. -/
theorem C6_apply_fills_calcsize_witness :
    ∃ out, apply (bytes "ABCDEF") 6 [⟨2, 4, 3, ⟨bytes "XYZ", 0⟩⟩] = .ok out ∧
      (out.length < 2147483648 → (out.length : Int) = 7) :=
  C6_apply_fills_calcsize (bytes "ABCDEF") [⟨2, 4, 3, ⟨bytes "XYZ", 0⟩⟩] 7 (by decide)
    (by decide) (by decide)

/-- C6, counterexample. On the empty base, the list of two fragments that each
insert `2^31` bytes at offset 0 is accepted by `calcsize` with size 0 (the sum
wraps in `int`), both fragments have `start ≤ end` and `len` bytes at `data`,
and `apply` writes `2^32` bytes. -/
theorem C6_counterexample :
    hugeInsert.start ≤ hugeInsert.end_ ∧ DataOK hugeInsert ∧
    calcsize 0 [hugeInsert, hugeInsert] = .ok 0 ∧
    ∃ out, apply [] 0 [hugeInsert, hugeInsert] = .ok out ∧ out.length = 4294967296 := by
  have hv : ValidFrom 0 ([] : List UInt8).length [hugeInsert, hugeInsert] := by
    simp only [ValidFrom, hugeInsert_start, hugeInsert_end, List.length_nil, le_refl, and_self]
  have hd : ∀ f ∈ [hugeInsert, hugeInsert], DataOK f := by
    intro f hf
    simp only [List.mem_cons, List.mem_singleton, List.not_mem_nil, or_false, or_self] at hf
    rw [hf]
    exact hugeInsert_dataOK
  have hg : growth [hugeInsert, hugeInsert] = 4294967296 := by
    simp only [growth, List.map, List.sum_cons, List.sum_nil, hugeInsert_start, hugeInsert_end,
      hugeInsert_len]
    omega
  refine ⟨le_refl _, hugeInsert_dataOK, ?_, _, apply_eq [] (by decide) _ hv, ?_⟩
  · have h := calcsize_ok 0 (by decide) [hugeInsert, hugeInsert] hv.not_violation
    rw [hg] at h
    have e : ((0 : Nat) : Int) = 0 := rfl
    rw [e] at h
    rw [h]
    exact congrArg Outcome.ok (by unfold i32; omega)
  · have h := den_length_growth [] hv hd
    rw [hg] at h
    have e : ((([] : List UInt8).length : Nat) : Int) = 0 := rfl
    rw [e] at h
    omega

end Mpatch
namespace Mpatch

/-- A delta the code decodes, applied alone to a base shorter than `2^31`
bytes for which its fragments are valid, with a result shorter than `2^31`
bytes: the three functions agree on the size, and the text is the denotation. -/
theorem single_delta (T d : List UInt8) (fs : List frag)
    (hT : T.length < 2147483648) (hd : decode d (i32 d.length) = .ok fs)
    (hv : ValidFrom 0 T.length fs) (hsz : (T.length : Int) + growth fs < 2147483648) :
    amp_mpatch_patched_size T.length d = .ok (den T 0 fs T.length).length ∧
    calcsize T.length fs = .ok ((den T 0 fs T.length).length : Nat) ∧
    amp_mpatch_apply_patches T [d] = .ok (some (den T 0 fs T.length)) := by
  obtain ⟨m, -, -, hall⟩ := decode_sound (i32_le_self d.length) hd
  have hg := den_length_growth T hv (fun f hf => (hall f hf).2.1)
  have hc : calcsize T.length fs = .ok ((den T 0 fs T.length).length : Nat) := by
    rw [calcsize_ok T.length hT fs hv.not_violation, hg]
    exact congrArg Outcome.ok (i32_eq (by omega) (by omega))
  have hi : i32 (T.length : Int) = T.length := i32_eq (by omega) (by omega)
  refine ⟨?_, hc, ?_⟩
  · rw [amp_mpatch_patched_size_ok hd, ← hg]
    exact congrArg Outcome.ok (by unfold u32; omega)
  · rw [(apply_patches_singleton T d).1, hi]
    exact patch_text_ok (by rw [(apply_patches_singleton T d).2, hd]) hc (by omega)
      (apply_eq T hT fs hv)

/-- C5, as amended. For a base `T` shorter than `2^31` bytes and a delta `d`
that decodes to fragments valid for `T` (ascending, non-overlapping,
`start ≤ end ≤ |T|`), when the patched text is shorter than `2^31` bytes:
`patched_size(|T|, d)` equals `calcsize(|T|, decode d)`, and that is the length
of the text `apply_patches(T, [d])` returns. -/
theorem C5_patched_size_calcsize (T d : List UInt8) (fs : List frag)
    (hT : T.length < 2147483648) (hd : decode d (i32 d.length) = .ok fs)
    (hv : ValidFrom 0 T.length fs) (hsz : (T.length : Int) + growth fs < 2147483648) :
    ∃ n : Nat, amp_mpatch_patched_size T.length d = .ok n ∧
      calcsize T.length fs = .ok (n : Int) ∧
      ∃ out, amp_mpatch_apply_patches T [d] = .ok (some out) ∧ out.length = n := by
  obtain ⟨h1, h2, h3⟩ := single_delta T d fs hT hd hv hsz
  exact ⟨_, h1, h2, _, h3, rfl⟩

/-- C5, witness: the delta with the one record `(2, 4, 3, "XYZ")` on "ABCDEF". -/
theorem C5_patched_size_calcsize_witness :
    ∃ n : Nat, amp_mpatch_patched_size 6 (wire [⟨2, 4, 3, bytes "XYZ"⟩]) = .ok n ∧
      calcsize 6 (fragsAt (wire [⟨2, 4, 3, bytes "XYZ"⟩]) 0 [⟨2, 4, 3, bytes "XYZ"⟩]) = .ok (n : Int) ∧
      ∃ out, amp_mpatch_apply_patches (bytes "ABCDEF") [wire [⟨2, 4, 3, bytes "XYZ"⟩]]
        = .ok (some out) ∧ out.length = n :=
  C5_patched_size_calcsize (bytes "ABCDEF") (wire [⟨2, 4, 3, bytes "XYZ"⟩])
    (fragsAt (wire [⟨2, 4, 3, bytes "XYZ"⟩]) 0 [⟨2, 4, 3, bytes "XYZ"⟩])
    (by decide) (by decide) (by decide) (by decide)

/-- C5, counterexample. Base length `2^31 - 1` and the 13-byte delta with the
one record `(0, 0, 1, "X")`: the delta decodes, its fragment is valid for the
base, `patched_size` returns `2^31` and `calcsize` returns `-2^31`. -/
theorem C5_counterexample :
    decode [0, 0, 0, 0, 0, 0, 0, 0, 0, 0, 0, 1, 88] 13
      = .ok [⟨0, 0, 1, ⟨[0, 0, 0, 0, 0, 0, 0, 0, 0, 0, 0, 1, 88], 12⟩⟩] ∧
    ValidFrom 0 2147483647 [⟨0, 0, 1, ⟨[0, 0, 0, 0, 0, 0, 0, 0, 0, 0, 0, 1, 88], 12⟩⟩] ∧
    amp_mpatch_patched_size 2147483647 [0, 0, 0, 0, 0, 0, 0, 0, 0, 0, 0, 1, 88]
      = .ok 2147483648 ∧
    calcsize 2147483647 [⟨0, 0, 1, ⟨[0, 0, 0, 0, 0, 0, 0, 0, 0, 0, 0, 1, 88], 12⟩⟩]
      = .ok (-2147483648) := by
  decide

end Mpatch
namespace Mpatch

theorem seg_zero_take (T : List UInt8) (n : Nat) : seg T 0 n = T.take n := by
  simp [seg]

theorem seg_to_end (T : List UInt8) (n : Nat) : seg T n T.length = T.drop n := by
  unfold seg
  rw [List.take_of_length_le]
  simp

theorem wire_singleton_length (r : record) (h : r.data.length = r.len) :
    (wire [r]).length = 12 + r.len := by
  simp only [wire, List.length_append, be32bytes_length, List.length_nil, h]
  omega

/-- C4, as amended. For a base `T` and a delta that encodes exactly one record
`(start, end, len, data)` with `start ≤ end ≤ |T|` and `|data| = len`, when the
base, the delta and the patched text are each shorter than `2^31` bytes:
`apply_patches(T, [d])` is `T[0..start] ++ data ++ T[end..]`. -/
theorem C4_single_record (T : List UInt8) (r : record)
    (hse : r.start ≤ r.end_) (he : r.end_ ≤ T.length) (hdata : r.data.length = r.len)
    (hT : T.length < 2147483648) (hd : 12 + r.len < 2147483648)
    (hout : T.length - (r.end_ - r.start) + r.len < 2147483648) :
    amp_mpatch_apply_patches T [wire [r]]
      = .ok (some (T.take r.start ++ r.data ++ T.drop r.end_)) := by
  have hwf : ∀ x ∈ [r], x.WF := by
    intro x hx
    rw [List.mem_singleton] at hx
    subst hx
    exact ⟨hse, by omega, by omega, by omega, hdata⟩
  have hlen := wire_singleton_length r hdata
  have hi : i32 ((wire [r]).length : Int) = ((wire [r]).length : Nat) :=
    i32_eq (by omega) (by omega)
  have hdec : decode (wire [r]) (i32 (wire [r]).length) = .ok (fragsAt (wire [r]) 0 [r]) := by
    rw [hi]; exact decode_wire [r] hwf
  have hrec := decode_wire_records [r] hwf
  have hfs : fragsAt (wire [r]) 0 [r] = [⟨r.start, r.end_, r.len, ⟨wire [r], ((0 + 12 : Nat) : Int)⟩⟩] := rfl
  rw [hfs] at hdec hrec
  simp only [List.map, frag.toRecord, List.cons.injEq, and_true] at hrec
  have hread := congrArg record.data hrec
  simp only at hread
  have hv : ValidFrom 0 T.length [⟨r.start, r.end_, r.len, ⟨wire [r], ((0 + 12 : Nat) : Int)⟩⟩] :=
    ⟨Nat.zero_le _, hse, he, he⟩
  have hg : growth [⟨r.start, r.end_, r.len, ⟨wire [r], ((0 + 12 : Nat) : Int)⟩⟩]
      = (r.len : Int) - ((r.end_ : Int) - r.start) := by
    simp [growth]
  have h := (single_delta T (wire [r]) _ hT hdec hv (by rw [hg]; omega)).2.2
  rw [h]
  simp only [den, hread, seg_zero_take, seg_to_end, List.append_assoc]

/-- C4, witness: the record `(2, 4, 3, "XYZ")` on "ABCDEF" gives "ABXYZEF". -/
theorem C4_single_record_witness :
    amp_mpatch_apply_patches (bytes "ABCDEF") [wire [⟨2, 4, 3, bytes "XYZ"⟩]]
      = .ok (some (bytes "ABXYZEF")) :=
  C4_single_record (bytes "ABCDEF") ⟨2, 4, 3, bytes "XYZ"⟩ (by decide) (by decide) (by decide)
    (by decide) (by decide) (by decide)

theorem apply_patches_wraps_negative (T : List UInt8) (hT : T.length = 2147483647) :
    amp_mpatch_apply_patches T [wire [⟨0, 0, 1, [88]⟩]] = .ok none := by
  have hi : i32 (T.length : Int) = 2147483647 := by rw [hT]; decide
  rw [(apply_patches_singleton T _).1, hi]
  exact patch_text_negative (n := -2147483648)
    (p := [⟨0, 0, 1, ⟨wire [⟨0, 0, 1, [88]⟩], 12⟩⟩])
    (by rw [(apply_patches_singleton T _).2]; decide) (by decide) (by decide)

theorem apply_patches_length_wraps (T : List UInt8) (hT : T.length = 4294967296) :
    amp_mpatch_apply_patches T [wire [⟨0, 0, 0, []⟩]] = .ok (some []) := by
  have hi : i32 (T.length : Int) = 0 := by rw [hT]; decide
  rw [(apply_patches_singleton T _).1, hi]
  exact patch_text_ok (n := 0) (p := [⟨0, 0, 0, ⟨wire [⟨0, 0, 0, []⟩], 12⟩⟩])
    (by rw [(apply_patches_singleton T _).2]; decide) (by decide) (by decide)
    (by simp [apply, applyLoop, copyFrom, u32, i32, usize, ptr.read])

theorem apply_patches_blob_wraps (r : record) (hr : r.data.length = r.len)
    (hl : r.len = 2147483636) :
    amp_mpatch_apply_patches [] [wire [r]] = .raise "patch cannot be decoded" := by
  have hlen : ((wire [r]).length : Int) = 2147483648 := by
    rw [wire_singleton_length r hr, hl]; rfl
  rw [(apply_patches_singleton [] _).1]
  refine patch_text_fold_raise ?_
  rw [(apply_patches_singleton [] _).2, hlen]
  exact decode_negative _ _ (by decide)

/-- C4, counterexample. (1) On a base of `2^31 - 1` bytes the one-record delta
`(0, 0, 1, "X")` gives `nil`, not a text: the size wraps to a negative `int`.
(2) On a base of `2^32` bytes the one-record delta `(0, 0, 0, "")` gives the
empty text: the base length wraps to 0. (3) On the empty base a one-record
delta with `2^31 - 12` data bytes is not decoded: the blob length wraps. In
each case `start ≤ end ≤ |T|` and `|data| = len`. -/
theorem C4_counterexample :
    amp_mpatch_apply_patches (List.replicate 2147483647 0) [wire [⟨0, 0, 1, [88]⟩]] = .ok none ∧
    amp_mpatch_apply_patches (List.replicate 4294967296 0) [wire [⟨0, 0, 0, []⟩]]
      = .ok (some []) ∧
    amp_mpatch_apply_patches [] [wire [⟨0, 0, 2147483636, List.replicate 2147483636 0⟩]]
      = .raise "patch cannot be decoded" :=
  ⟨apply_patches_wraps_negative _ (List.length_replicate _ _),
    apply_patches_length_wraps _ (List.length_replicate _ _),
    apply_patches_blob_wraps _ (List.length_replicate _ _) rfl⟩

end Mpatch
namespace Mpatch

/-- C12, as amended. For a base length `L < 2^31`: if `a` is valid for `L`
(ascending, each start at or after the previous end, `start ≤ end`, `end ≤ L`),
the patched length `L + growth a` is below `2^31`, so that `calcsize(L, a)`
returns it unwrapped, and `b` is valid in the same sense for the length
`calcsize(L, a)`, then `combine(a, b)` is valid for `L` and
`calcsize(L, combine(a, b))` returns a size. -/
theorem C12_combine_preserves_validity (L L2 : Nat) (a b : List frag)
    (hL : L < 2147483648) (hva : ValidFrom 0 L a)
    (hsz : (L : Int) + growth a < 2147483648)
    (hc : calcsize L a = .ok (L2 : Int)) (hvb : ValidFrom 0 L2 b) :
    ValidFrom 0 L (combine a b) ∧ ∃ n, calcsize L (combine a b) = .ok n := by
  have h0 := growth_nonneg hva
  rw [calcsize_ok L hL a hva.not_violation] at hc
  injection hc with hc
  rw [i32_eq (by omega) (by omega)] at hc
  have hv := combine_valid L L2 a b hL (by omega) hva hc.symm hvb
  exact ⟨hv, _, calcsize_ok L hL _ hv.not_violation⟩

/-- C12, witness: on a base of 11 bytes, `a = [(6, 11, 5)]` and `b = [(0, 5, 2)]`. -/
theorem C12_combine_preserves_validity_witness :
    ValidFrom 0 11 (combine [⟨6, 11, 5, ⟨bytes "THERE", 0⟩⟩] [⟨0, 5, 2, ⟨bytes "HI", 0⟩⟩]) ∧
    ∃ n, calcsize (11 : Nat)
      (combine [⟨6, 11, 5, ⟨bytes "THERE", 0⟩⟩] [⟨0, 5, 2, ⟨bytes "HI", 0⟩⟩]) = .ok n :=
  C12_combine_preserves_validity 11 11 [⟨6, 11, 5, ⟨bytes "THERE", 0⟩⟩]
    [⟨0, 5, 2, ⟨bytes "HI", 0⟩⟩] (by decide) (by decide) (by decide) (by decide) (by decide)

/-- C12, counterexample. Base length 10, `a = [(0, 0, len 2^31), (5, 5, len 2^31)]`,
`b = [(7, 8, len 0)]`: `a` is valid for 10, `calcsize(10, a)` is 10 (the sum
`10 + 2^32` wraps), `b` is valid for 10, and `calcsize(10, combine(a, b))`
fails with "invalid patch". -/
theorem C12_counterexample :
    ValidFrom 0 10 [⟨0, 0, 2147483648, ⟨[], 0⟩⟩, ⟨5, 5, 2147483648, ⟨[], 0⟩⟩] ∧
    calcsize 10 [⟨0, 0, 2147483648, ⟨[], 0⟩⟩, ⟨5, 5, 2147483648, ⟨[], 0⟩⟩] = .ok 10 ∧
    ValidFrom 0 10 [⟨7, 8, 0, ⟨[], 0⟩⟩] ∧
    calcsize 10 (combine [⟨0, 0, 2147483648, ⟨[], 0⟩⟩, ⟨5, 5, 2147483648, ⟨[], 0⟩⟩]
      [⟨7, 8, 0, ⟨[], 0⟩⟩]) = .raise "invalid patch" := by
  decide

/-- C13, as amended. When `a` is valid for a base length `L < 2^31` and `b` is
valid for the patched length `L + growth a < 2^31` (both ascending,
non-overlapping, `start ≤ end`, in bounds), every fragment of `combine(a, b)`
has `start ≤ end`. -/
theorem C13_combine_start_le_end (L L2 : Nat) (a b : List frag)
    (hL : L < 2147483648) (hL2 : L2 < 2147483648) (hva : ValidFrom 0 L a)
    (hg : (L2 : Int) = L + growth a) (hvb : ValidFrom 0 L2 b) :
    ∀ f ∈ combine a b, f.start ≤ f.end_ :=
  (combine_valid L L2 a b hL hL2 hva hg hvb).start_le_end

/-- C13, witness: on a base of 11 bytes, `a = [(6, 11, 5)]` and `b = [(0, 5, 2)]`;
the fragment `(0, 5, 2, "HI")` of `combine(a, b)`. -/
theorem C13_combine_start_le_end_witness :
    (⟨0, 5, 2, ⟨bytes "HI", 0⟩⟩ : frag)
      ∈ combine [⟨6, 11, 5, ⟨bytes "THERE", 0⟩⟩] [⟨0, 5, 2, ⟨bytes "HI", 0⟩⟩] ∧
    (⟨0, 5, 2, ⟨bytes "HI", 0⟩⟩ : frag).start ≤ (⟨0, 5, 2, ⟨bytes "HI", 0⟩⟩ : frag).end_ :=
  ⟨by decide,
    C13_combine_start_le_end 11 11 [⟨6, 11, 5, ⟨bytes "THERE", 0⟩⟩]
      [⟨0, 5, 2, ⟨bytes "HI", 0⟩⟩] (by decide) (by decide) (by decide) (by decide) (by decide)
      ⟨0, 5, 2, ⟨bytes "HI", 0⟩⟩ (by decide)⟩

/-- C13, counterexample. `older = [(0, 0, len 10)]` and the unordered
`newer = [(50, 50, len 0), (8, 12, len 0)]`: every fragment has `start ≤ end`,
and `combine(older, newer)` ends with the fragment `(4294967294, 2, len 0)`. -/
theorem C13_counterexample :
    (∀ f ∈ [(⟨0, 0, 10, ⟨bytes "0123456789", 0⟩⟩ : frag)], f.start ≤ f.end_) ∧
    (∀ f ∈ [(⟨50, 50, 0, ⟨[], 0⟩⟩ : frag), ⟨8, 12, 0, ⟨[], 0⟩⟩], f.start ≤ f.end_) ∧
    combine [⟨0, 0, 10, ⟨bytes "0123456789", 0⟩⟩] [⟨50, 50, 0, ⟨[], 0⟩⟩, ⟨8, 12, 0, ⟨[], 0⟩⟩]
      = [⟨0, 0, 10, ⟨bytes "0123456789", 0⟩⟩, ⟨40, 40, 0, ⟨[], 0⟩⟩, ⟨4294967294, 2, 0, ⟨[], 0⟩⟩] := by
  decide

/-- C11, the code at the failing input. Base of 40 bytes, deltas
`[(0, 0, 10, "0123456789")]` and `[(50, 50, 0, ""), (8, 12, 0, "")]`: both
decode, the folded sequence ends with the fragment `(4294967294, 2, len 0)`,
`calcsize` accepts it and returns 46, and `apply_patches` does not raise
"invalid patch": `apply` passes its check at the third fragment, where the copy out of the base starts at
offset 40 and is `4294967294 - 40` bytes long. -/
theorem C11_out_of_bounds_accepted :
    fold [wire [⟨0, 0, 10, bytes "0123456789"⟩], wire [⟨50, 50, 0, []⟩, ⟨8, 12, 0, []⟩]] 2 0 2
      = .ok [⟨0, 0, 10, ⟨wire [⟨0, 0, 10, bytes "0123456789"⟩], 12⟩⟩,
             ⟨40, 40, 0, ⟨wire [⟨50, 50, 0, []⟩, ⟨8, 12, 0, []⟩], 12⟩⟩,
             ⟨4294967294, 2, 0, ⟨wire [⟨50, 50, 0, []⟩, ⟨8, 12, 0, []⟩], 24⟩⟩] ∧
    calcsize 40 [⟨0, 0, 10, ⟨wire [⟨0, 0, 10, bytes "0123456789"⟩], 12⟩⟩,
             ⟨40, 40, 0, ⟨wire [⟨50, 50, 0, []⟩, ⟨8, 12, 0, []⟩], 12⟩⟩,
             ⟨4294967294, 2, 0, ⟨wire [⟨50, 50, 0, []⟩, ⟨8, 12, 0, []⟩], 24⟩⟩] = .ok 46 ∧
    amp_mpatch_apply_patches (bytes "ABCDEFGHIJKLMNOPQRSTUVWXYZabcdefghijklmn")
      [wire [⟨0, 0, 10, bytes "0123456789"⟩], wire [⟨50, 50, 0, []⟩, ⟨8, 12, 0, []⟩]]
        ≠ .raise "invalid patch" ∧
    (40 : Nat) < 4294967294 := by
  decide

end Mpatch
namespace Mpatch

theorem apply_patches_consistent (T T2 : List UInt8) (ds : List (List UInt8))
    (hne : ds ≠ []) (hlen : ds.length < 2147483648)
    (hc : Consistent 2147483648 T ds T2) : amp_mpatch_apply_patches T ds = .ok (some T2) := by
  have hpos : 0 < ds.length := List.length_pos.2 hne
  have hi : i32 (ds.length : Int) = ds.length := i32_eq (by omega) (by omega)
  have hT := hc.length_lt.1
  have hT2 := hc.length_lt.2
  have hiT : i32 (T.length : Int) = T.length := i32_eq (by omega) (by omega)
  have hsl : (ds.drop 0).take (ds.length - 0) = ds := by simp
  obtain ⟨l, hf, hv, hd, hden⟩ := fold_sem ds ds.length 0 ds.length T T2 hpos (le_refl _) hlen
    (by omega) (by rw [hsl]; exact hc)
  have hg := den_length_growth T hv hd
  rw [hden] at hg
  rw [apply_patches_eq (by rw [hi]; omega), hi, hiT]
  refine patch_text_ok (n := T2.length) (p := l) ?_ ?_ (by omega) ?_
  · rw [Int.toNat_ofNat]
    exact hf
  · rw [calcsize_ok T.length hT l hv.not_violation, ← hg]
    exact congrArg Outcome.ok (i32_eq (by omega) (by omega))
  · rw [apply_eq T hT l hv, hden]

theorem applySeq_cons_ok (T d : List UInt8) (ds : List (List UInt8)) (T1 : List UInt8)
    (h : amp_mpatch_apply_patches T [d] = .ok (some T1)) :
    applySeq T (d :: ds) = applySeq T1 ds := by
  rw [applySeq, h]
  rfl

theorem applySeq_cons_nil (T d : List UInt8) (ds : List (List UInt8))
    (h : amp_mpatch_apply_patches T [d] = .ok none) :
    applySeq T (d :: ds) = .diverge := by
  rw [applySeq, h]
  rfl

theorem applySeq_consistent {T T2 : List UInt8} {ds : List (List UInt8)}
    (hc : Consistent 2147483648 T ds T2) : applySeq T ds = .ok (some T2) := by
  induction hc with
  | nil T _ => rfl
  | cons T d fs ds T2 hl hd hv hr ih =>
    obtain ⟨m, -, -, hall⟩ := decode_sound (i32_le_self d.length) hd
    have hg := den_length_growth T hv (fun f hf => (hall f hf).2.1)
    have h1 := hr.length_lt.1
    have h := (single_delta T d fs hl hd hv (by omega)).2.2
    rw [applySeq_cons_ok T d ds _ h]
    exact ih

/-- C2, as amended. For a base `T` and a non-empty list of fewer than `2^31`
decodable, mutually consistent deltas (the first valid for `T`, each next one
valid for the text its predecessors give), when `T` and every text on the way
is shorter than `2^31` bytes: `apply_patches(T, [d1, ..., dn])` equals the
sequential application, and both return the text after the last delta. -/
theorem C2_fold_equals_sequential (T T2 : List UInt8) (ds : List (List UInt8))
    (hne : ds ≠ []) (hlen : ds.length < 2147483648)
    (hc : Consistent 2147483648 T ds T2) :
    amp_mpatch_apply_patches T ds = applySeq T ds ∧ applySeq T ds = .ok (some T2) := by
  rw [apply_patches_consistent T T2 ds hne hlen hc, applySeq_consistent hc]
  exact ⟨rfl, rfl⟩

/-- C2, witness: "HELLO WORLD" with the deltas `(6, 11, "THERE")` and then
`(0, 5, "HI")` gives "HI THERE" both ways. -/
theorem C2_fold_equals_sequential_witness :
    amp_mpatch_apply_patches (bytes "HELLO WORLD")
        [wire [⟨6, 11, 5, bytes "THERE"⟩], wire [⟨0, 5, 2, bytes "HI"⟩]]
      = applySeq (bytes "HELLO WORLD")
        [wire [⟨6, 11, 5, bytes "THERE"⟩], wire [⟨0, 5, 2, bytes "HI"⟩]] ∧
    applySeq (bytes "HELLO WORLD")
        [wire [⟨6, 11, 5, bytes "THERE"⟩], wire [⟨0, 5, 2, bytes "HI"⟩]]
      = .ok (some (bytes "HI THERE")) :=
  C2_fold_equals_sequential (bytes "HELLO WORLD") (bytes "HI THERE")
    [wire [⟨6, 11, 5, bytes "THERE"⟩], wire [⟨0, 5, 2, bytes "HI"⟩]] (by decide) (by decide)
    (Consistent.cons _ _ (fragsAt (wire [⟨6, 11, 5, bytes "THERE"⟩]) 0 [⟨6, 11, 5, bytes "THERE"⟩])
      _ _ (by decide) (by decide) (by decide)
      (Consistent.cons _ _ (fragsAt (wire [⟨0, 5, 2, bytes "HI"⟩]) 0 [⟨0, 5, 2, bytes "HI"⟩])
        _ _ (by decide) (by decide) (by decide) (Consistent.nil _ (by decide))))

theorem consistent_replicate_nil (B : Nat) (X : List UInt8) (hX : X.length < B) :
    ∀ n, Consistent B X (List.replicate n []) X := by
  intro n
  induction n with
  | zero => exact Consistent.nil X hX
  | succ n ih =>
    rw [List.replicate_succ]
    have e : den X 0 [] X.length = X := by rw [den_nil_full]; rfl
    exact Consistent.cons X [] [] _ X hX (by decide) (Nat.zero_le _) (by rw [e]; exact ih)

theorem apply_patches_length_zero (T : List UInt8) (bins : List (List UInt8))
    (h : i32 bins.length = 0) : amp_mpatch_apply_patches T bins = .ok (some T) := by
  unfold amp_mpatch_apply_patches
  rw [if_pos h]

theorem consistent_many_nil (n : Nat) :
    Consistent 2147483648 (bytes "A") (wire [⟨0, 1, 1, bytes "B"⟩] :: List.replicate n [])
      (bytes "B") := by
  have e : den (bytes "A") 0 (fragsAt (wire [⟨0, 1, 1, bytes "B"⟩]) 0 [⟨0, 1, 1, bytes "B"⟩])
      (bytes "A").length = bytes "B" := by decide
  exact Consistent.cons _ _ (fragsAt (wire [⟨0, 1, 1, bytes "B"⟩]) 0 [⟨0, 1, 1, bytes "B"⟩]) _ _
    (by decide) (by decide) (by decide)
    (by rw [e]; exact consistent_replicate_nil _ _ (by decide) n)

theorem insert_delete_chain (T : List UInt8) (hT : T.length = 2147483647) :
    (∃ T2, Consistent 2147483649 T [wire [⟨0, 0, 1, [88]⟩], wire [⟨0, 1, 0, []⟩]] T2) ∧
    amp_mpatch_apply_patches T [wire [⟨0, 0, 1, [88]⟩], wire [⟨0, 1, 0, []⟩]] = .ok (some T) ∧
    applySeq T [wire [⟨0, 0, 1, [88]⟩], wire [⟨0, 1, 0, []⟩]] = .diverge := by
  refine ⟨?_, ?_, applySeq_cons_nil T _ _ (apply_patches_wraps_negative T hT)⟩
  · have hv1 : ValidFrom 0 T.length [⟨0, 0, 1, ⟨wire [⟨0, 0, 1, [88]⟩], 12⟩⟩] :=
      ⟨Nat.le_refl 0, Nat.le_refl 0, Nat.zero_le _, Nat.zero_le _⟩
    have hg1 := den_length_growth T hv1 (by decide)
    have e1 : growth [⟨0, 0, 1, ⟨wire [⟨0, 0, 1, [88]⟩], 12⟩⟩] = 1 := by decide
    rw [e1] at hg1
    have hv2 : ValidFrom 0 (den T 0 [⟨0, 0, 1, ⟨wire [⟨0, 0, 1, [88]⟩], 12⟩⟩] T.length).length
        [⟨0, 1, 0, ⟨wire [⟨0, 1, 0, []⟩], 12⟩⟩] :=
      ⟨Nat.le_refl 0, Nat.zero_le _, (by show (1 : Nat) ≤ _; omega), (by show (1 : Nat) ≤ _; omega)⟩
    have hg2 := den_length_growth _ hv2 (by decide)
    have e2 : growth [⟨0, 1, 0, ⟨wire [⟨0, 1, 0, []⟩], 12⟩⟩] = -1 := by decide
    rw [e2] at hg2
    exact ⟨_, Consistent.cons _ _ _ _ _ (by omega) (by decide) hv1
      (Consistent.cons _ _ _ _ _ (by omega) (by decide) hv2 (Consistent.nil _ (by omega)))⟩
  · have hl : i32 (([wire [⟨0, 0, 1, [88]⟩], wire [⟨0, 1, 0, []⟩]] : List (List UInt8)).length : Int)
        = 2 := by decide
    have hiT : i32 (T.length : Int) = T.length := i32_eq (by omega) (by omega)
    have hv : ValidFrom 0 T.length [⟨0, 0, 0, ⟨wire [⟨0, 1, 0, []⟩], 12⟩⟩] :=
      ⟨Nat.le_refl 0, Nat.le_refl 0, Nat.zero_le _, Nat.zero_le _⟩
    have hg : growth [⟨0, 0, 0, ⟨wire [⟨0, 1, 0, []⟩], 12⟩⟩] = 0 := by decide
    rw [apply_patches_eq (by rw [hl]; decide), hl, hiT]
    refine patch_text_ok (n := T.length) (p := [⟨0, 0, 0, ⟨wire [⟨0, 1, 0, []⟩], 12⟩⟩])
      (by decide) ?_ (by omega) ?_
    · rw [calcsize_ok T.length (by omega) _ hv.not_violation, hg]
      exact congrArg Outcome.ok (i32_eq (by omega) (by omega))
    · rw [apply_eq T (by omega) _ hv]
      simp only [den, seg_self, seg_to_end, ptr.read, List.take_zero, List.nil_append,
        List.drop_zero]

/-- C2, counterexample. (1) Base "A" and the list of `2^32` deltas made of the
delta `(0, 1, "B")` followed by `2^32 - 1` empty deltas: the list is consistent,
every text on the way has one byte, the sequential application gives "B", and
`apply_patches` returns "A" unchanged (the number of deltas wraps to 0 in
`int`). (2) A base of `2^31 - 1` bytes and the two deltas `(0, 0, "X")`,
`(0, 1, "")`: the list is consistent, `apply_patches` returns the base, and the
sequential application has no result (its first step returns `nil`). -/
theorem C2_counterexample :
    (Consistent 2147483648 (bytes "A")
        (wire [⟨0, 1, 1, bytes "B"⟩] :: List.replicate 4294967295 []) (bytes "B") ∧
      amp_mpatch_apply_patches (bytes "A")
        (wire [⟨0, 1, 1, bytes "B"⟩] :: List.replicate 4294967295 []) = .ok (some (bytes "A")) ∧
      applySeq (bytes "A")
        (wire [⟨0, 1, 1, bytes "B"⟩] :: List.replicate 4294967295 []) = .ok (some (bytes "B"))) ∧
    ((∃ T2, Consistent 2147483649 (List.replicate 2147483647 0)
        [wire [⟨0, 0, 1, [88]⟩], wire [⟨0, 1, 0, []⟩]] T2) ∧
      amp_mpatch_apply_patches (List.replicate 2147483647 0)
        [wire [⟨0, 0, 1, [88]⟩], wire [⟨0, 1, 0, []⟩]] = .ok (some (List.replicate 2147483647 0)) ∧
      applySeq (List.replicate 2147483647 0)
        [wire [⟨0, 0, 1, [88]⟩], wire [⟨0, 1, 0, []⟩]] = .diverge) :=
  ⟨⟨consistent_many_nil _,
      apply_patches_length_zero _ _
        (by rw [List.length_cons, List.length_replicate]; decide),
      applySeq_consistent (consistent_many_nil _)⟩,
    insert_delete_chain _ (List.length_replicate _ _)⟩

end Mpatch
namespace Mpatch

/-! ## Termination and shape of `fold` -/

theorem fold_total (bins : List (List UInt8)) : ∀ (fuel s e : Nat),
    s < e → e ≤ bins.length → e < 2147483648 → e - s ≤ fuel →
    fold bins fuel s e ≠ .diverge := by
  intro fuel
  induction fuel with
  | zero => intro s e h1 _ _ h4; omega
  | succ fuel ih =>
    intro s e hse heb he hf
    by_cases h1 : e = s + 1
    · subst h1
      obtain ⟨d, hd, -⟩ := slice_one bins s (by omega)
      rw [fold_base bins fuel s d he hd]
      exact decode_total _ _
    · exact fold_step_total bins fuel s e (by omega) he
        (ih s (s + (e - s) / 2) (by omega) (by omega) (by omega) (by omega))
        (ih (s + (e - s) / 2) e (by omega) heb he (by omega))

theorem fold_empty (bins : List (List UInt8)) (s : Int) (h1 : -2147483648 ≤ s)
    (h2 : s < 2147483648) : ∀ fuel, fold bins fuel s s = .diverge := by
  intro fuel
  induction fuel with
  | zero => rfl
  | succ fuel ih =>
    have e1 : i32 (s + 1) ≠ s := by unfold i32; omega
    have e2 : i32 (s - s) = 0 := by rw [sub_self]; rfl
    have e3 : Int.tdiv 0 2 = 0 := rfl
    have e4 : i32 (s + 0) = s := by rw [add_zero]; exact i32_eq h1 h2
    simp only [fold, e1, if_false, e2, e3, e4, ih]

theorem fold_decoded_base (fuel : Nat) (s : Nat) (hs : s + 1 < 2147483648) :
    fold_decoded (fuel + 1) s ((s + 1 : Nat) : Int) = some [(s : Int)] := by
  have e1 : i32 ((s : Int) + 1) = ((s + 1 : Nat) : Int) := by
    rw [i32_eq (by omega) (by omega)]; omega
  simp only [fold_decoded, e1, if_true]

theorem fold_decoded_step (fuel s e : Nat) (l r : List Int)
    (hse : s + 2 ≤ e) (he : e < 2147483648)
    (hl : fold_decoded fuel s ((s + (e - s) / 2 : Nat) : Int) = some l)
    (hr : fold_decoded fuel ((s + (e - s) / 2 : Nat) : Int) e = some r) :
    fold_decoded (fuel + 1) s e = some (l ++ r) := by
  obtain ⟨h1, h2⟩ := fold_mid s e hse he
  simp only [fold_decoded, h1, if_false, h2, hl, hr]

theorem range_split (s a b : Nat) :
    List.range' s a ++ List.range' (s + a) b = List.range' s (a + b) := by
  rw [List.range'_append_1, Nat.add_comm]

theorem fold_decoded_range : ∀ (fuel s e : Nat),
    s < e → e < 2147483648 → e - s ≤ fuel →
    fold_decoded fuel s e = some ((List.range' s (e - s)).map Int.ofNat) := by
  intro fuel
  induction fuel with
  | zero => intro s e h1 _ h4; omega
  | succ fuel ih =>
    intro s e hse he hf
    by_cases h1 : e = s + 1
    · subst h1
      rw [fold_decoded_base fuel s he]
      have e1 : s + 1 - s = 1 := by omega
      rw [e1]
      rfl
    · have hl := ih s (s + (e - s) / 2) (by omega) (by omega) (by omega)
      have hr := ih (s + (e - s) / 2) e (by omega) he (by omega)
      rw [fold_decoded_step fuel s e _ _ (by omega) he hl hr, ← List.map_append]
      have e1 : s + (e - s) / 2 - s = (e - s) / 2 := by omega
      have e2 : e - s = (e - s) / 2 + (e - (s + (e - s) / 2)) := by omega
      rw [e1, range_split, ← e2]

/-- C16. On an index range `start < end` inside the array (indices an `int`
holds) `fold` returns or raises, it does not recurse for ever: fuel
`end - start` is enough. In the recursive case the split point
`start + (end - start) / 2` lies strictly between `start` and `end`, so both
halves are non-empty and shorter, and the result is `combine` of the left
half's list, as the older one, with the right half's; in the base case it is
`decode` of the one blob. The indices decoded are `start, ..., end - 1`, each
once, in this order. On an empty range `start = end` the recursion never
reaches the base case. -/
theorem C16_fold_terminates (bins : List (List UInt8)) :
    (∀ fuel s e : Nat, s < e → e ≤ bins.length → e < 2147483648 → e - s ≤ fuel →
      fold bins fuel s e ≠ .diverge) ∧
    (∀ s e : Nat, s + 2 ≤ e → e < 2147483648 →
      i32 ((s : Int) + Int.tdiv (i32 ((e : Int) - s)) 2) = ((s + (e - s) / 2 : Nat) : Int) ∧
      s < s + (e - s) / 2 ∧ s + (e - s) / 2 < e) ∧
    (∀ (fuel s e : Nat) (a b : List frag), s + 2 ≤ e → e < 2147483648 →
      fold bins fuel s ((s + (e - s) / 2 : Nat) : Int) = .ok a →
      fold bins fuel ((s + (e - s) / 2 : Nat) : Int) e = .ok b →
      fold bins (fuel + 1) s e = .ok (combine a b)) ∧
    (∀ (fuel s : Nat) (d : List UInt8), s + 1 < 2147483648 → bins.get? s = some d →
      fold bins (fuel + 1) s ((s + 1 : Nat) : Int) = decode d (i32 d.length)) ∧
    (∀ fuel s e : Nat, s < e → e < 2147483648 → e - s ≤ fuel →
      fold_decoded fuel s e = some ((List.range' s (e - s)).map Int.ofNat)) ∧
    (∀ (fuel : Nat) (s : Int), -2147483648 ≤ s → s < 2147483648 →
      fold bins fuel s s = .diverge) := by
  refine ⟨fold_total bins, fun s e hse he => ⟨(fold_mid s e hse he).2, by omega, by omega⟩,
    fun fuel s e a b hse he ha hb => fold_step_ok bins fuel s e a b hse he ha hb,
    fun fuel s d hs hd => fold_base bins fuel s d hs hd,
    fold_decoded_range, fun fuel s h1 h2 => fold_empty bins s h1 h2 fuel⟩

/-- C16, witness: three empty deltas; the range `0..3` is folded, decoding the
indices 0, 1, 2, and the empty range `1..1` is not. -/
theorem C16_fold_terminates_witness :
    fold [[], [], []] 3 (0 : Nat) (3 : Nat) ≠ .diverge ∧
    fold_decoded 3 (0 : Nat) (3 : Nat) = some ((List.range' 0 (3 - 0)).map Int.ofNat) ∧
    fold [[], [], []] 7 1 1 = .diverge :=
  ⟨(C16_fold_terminates [[], [], []]).1 3 0 3 (by decide) (by decide) (by decide) (by decide),
    (C16_fold_terminates [[], [], []]).2.2.2.2.1 3 0 3 (by decide) (by decide) (by decide),
    (C16_fold_terminates [[], [], []]).2.2.2.2.2 7 1 (by decide) (by decide)⟩

end Mpatch
namespace Mpatch

theorem hugeAppend_start : hugeAppend.start = 1 := rfl

theorem hugeAppend_end : hugeAppend.end_ = 1 := rfl

theorem hugeAppend_len : hugeAppend.len = 2147483647 := rfl

theorem hugeAppend_dataOK : DataOK hugeAppend := by
  have e1 : hugeAppend.data.off = 0 := rfl
  have e2 : hugeAppend.data.buf = List.replicate 2147483647 0 := rfl
  unfold DataOK
  rw [e1, e2, hugeAppend_len, List.length_replicate]
  omega

/-- C17, as amended. For a base `T` and mutually consistent fragment lists
`a`, `b`, `c` (`a` valid for `T`, `b` for `T1 = apply(T, a)`, `c` for
`T2 = apply(T1, b)`), with `T`, `T1` and `T2` each shorter than `2^31` bytes and
`len` bytes at the `data` of every fragment of `a` and `b`: both ways of
combining give the same document, the one `apply(T2, c)` gives. -/
theorem C17_combine_assoc (T T1 T2 : List UInt8) (a b c : List frag)
    (hT : T.length < 2147483648) (hT1 : T1.length < 2147483648) (hT2 : T2.length < 2147483648)
    (hva : ValidFrom 0 T.length a) (hda : ∀ f ∈ a, DataOK f)
    (ha : apply T T.length a = .ok T1)
    (hvb : ValidFrom 0 T1.length b) (hdb : ∀ f ∈ b, DataOK f)
    (hb : apply T1 T1.length b = .ok T2)
    (hvc : ValidFrom 0 T2.length c) :
    apply T T.length (combine (combine a b) c) = apply T T.length (combine a (combine b c)) ∧
    apply T T.length (combine a (combine b c)) = apply T2 T2.length c := by
  rw [apply_eq T hT a hva] at ha
  rw [apply_eq T1 hT1 b hvb] at hb
  have hdena : den T 0 a T.length = T1 := by injection ha
  have hdenb : den T1 0 b T1.length = T2 := by injection hb
  obtain ⟨v1, d1, k1⟩ := combine_sem T T1 a b hT hT1 hva hda hdena hvb
  obtain ⟨v2, d2, -⟩ := combine_sem T T2 (combine a b) c hT hT2 v1 (k1 hdb)
    (by rw [d1, hdenb]) hvc
  obtain ⟨v3, d3, -⟩ := combine_sem T1 T2 b c hT1 hT2 hvb hdb hdenb hvc
  obtain ⟨v4, d4, -⟩ := combine_sem T T1 a (combine b c) hT hT1 hva hda hdena v3
  rw [apply_eq T hT _ v2, apply_eq T hT _ v4, apply_eq T2 hT2 c hvc, d2, d4, d3]
  exact ⟨rfl, rfl⟩

/-- C17, witness: "HELLO WORLD", then `(6, 11, "THERE")`, `(0, 5, "HI")`, `(2, 3, "!")`. -/
theorem C17_combine_assoc_witness :
    apply (bytes "HELLO WORLD") 11
        (combine (combine [⟨6, 11, 5, ⟨bytes "THERE", 0⟩⟩] [⟨0, 5, 2, ⟨bytes "HI", 0⟩⟩])
          [⟨2, 3, 1, ⟨bytes "!", 0⟩⟩])
      = apply (bytes "HELLO WORLD") 11
        (combine [⟨6, 11, 5, ⟨bytes "THERE", 0⟩⟩]
          (combine [⟨0, 5, 2, ⟨bytes "HI", 0⟩⟩] [⟨2, 3, 1, ⟨bytes "!", 0⟩⟩])) ∧
    apply (bytes "HELLO WORLD") 11
        (combine [⟨6, 11, 5, ⟨bytes "THERE", 0⟩⟩]
          (combine [⟨0, 5, 2, ⟨bytes "HI", 0⟩⟩] [⟨2, 3, 1, ⟨bytes "!", 0⟩⟩]))
      = apply (bytes "HI THERE") 8 [⟨2, 3, 1, ⟨bytes "!", 0⟩⟩] :=
  C17_combine_assoc (bytes "HELLO WORLD") (bytes "HELLO THERE") (bytes "HI THERE")
    [⟨6, 11, 5, ⟨bytes "THERE", 0⟩⟩] [⟨0, 5, 2, ⟨bytes "HI", 0⟩⟩] [⟨2, 3, 1, ⟨bytes "!", 0⟩⟩]
    (by decide) (by decide) (by decide) (by decide) (by decide) (by decide) (by decide)
    (by decide) (by decide) (by decide)

/-- C17, counterexample. Empty base, `a = [(0, 0, "A")]`, `b` appending
`2^31 - 1` bytes at offset 1, `c = [(0, 2^31, "")]` deleting everything: `a` is
valid for the base, `b` for `apply(T, a)` (1 byte), `c` for `apply(apply(T, a), b)`
(`2^31` bytes); `apply` of `combine(combine(a, b), c)` fails with "invalid patch"
and `apply` of `combine(a, combine(b, c))` returns the empty text. -/
theorem C17_counterexample :
    ValidFrom 0 0 [⟨0, 0, 1, ⟨[65], 0⟩⟩] ∧
    apply [] 0 [⟨0, 0, 1, ⟨[65], 0⟩⟩] = .ok [65] ∧
    ValidFrom 0 1 [hugeAppend] ∧
    (∃ T2, apply [65] 1 [hugeAppend] = .ok T2 ∧ T2.length = 2147483648 ∧
      ValidFrom 0 T2.length [⟨0, 2147483648, 0, ⟨[], 0⟩⟩]) ∧
    apply [] 0 (combine (combine [⟨0, 0, 1, ⟨[65], 0⟩⟩] [hugeAppend])
      [⟨0, 2147483648, 0, ⟨[], 0⟩⟩]) = .raise "invalid patch" ∧
    apply [] 0 (combine [⟨0, 0, 1, ⟨[65], 0⟩⟩]
      (combine [hugeAppend] [⟨0, 2147483648, 0, ⟨[], 0⟩⟩])) = .ok [] := by
  have hvb : ValidFrom 0 ([65] : List UInt8).length [hugeAppend] := by
    simp only [ValidFrom, hugeAppend_start, hugeAppend_end, List.length_singleton]
    omega
  have hdb : ∀ f ∈ [hugeAppend], DataOK f := by
    intro f hf
    rw [List.mem_singleton] at hf
    rw [hf]
    exact hugeAppend_dataOK
  have hg : growth [hugeAppend] = 2147483647 := by
    simp only [growth, List.map, List.sum_cons, List.sum_nil, hugeAppend_start, hugeAppend_end,
      hugeAppend_len]
    omega
  have hlen := den_length_growth [65] hvb hdb
  rw [hg] at hlen
  have e : ((([65] : List UInt8).length : Nat) : Int) = 1 := rfl
  rw [e] at hlen
  have hl2 : (den [65] 0 [hugeAppend] ([65] : List UInt8).length).length = 2147483648 := by
    omega
  refine ⟨by decide, by decide, hvb, ⟨_, apply_eq [65] (by decide) _ hvb, hl2, ?_⟩, ?_, ?_⟩
  · rw [hl2]; decide
  · exact (apply_inside [] 0 (by decide) (by decide) (by decide) _ (by decide)).1.2 (by decide)
  · decide

end Mpatch
namespace Mpatch

/-! ## `gather` without wrap-around -/

theorem split_nowrap {start end_ len : Nat} {cut offset : Int}
    (hs0 : 0 ≤ start + offset) (hlt : start + offset < cut)
    (hw : cut < offset + start + len) (hco : FitsInt (cut - offset))
    (hlen : len < 4294967296) (hc : FitsInt cut) (ho : FitsInt offset) :
    ∃ c l : Nat,
      (if end_ < u32 (i32 (cut - offset)) then i32 end_ else i32 (cut - offset)) = (c : Int) ∧
      (if len < u32 (i32 (cut - offset - start)) then i32 len
        else i32 (cut - offset - start)) = (l : Int) ∧
      u32 (c : Int) = c ∧ u32 (l : Int) = l ∧ u32 ((len : Int) - l) = len - l ∧
      i32 (offset + ((start : Int) + l - c)) = offset + ((l : Int) - ((c : Int) - start)) ∧
      l ≤ len := by
  unfold FitsInt at hco hc ho
  have e5 : (u32 (i32 (cut - offset)) : Int) = cut - offset := by unfold u32 i32; omega
  have e6 : i32 (cut - offset - start) = cut - offset - start := i32_eq (by omega) (by omega)
  have e7 : (u32 (cut - offset - start) : Int) = cut - offset - start :=
    u32_eq (by omega) (by omega)
  have hl : (if len < u32 (i32 (cut - offset - start)) then i32 len
      else i32 (cut - offset - start)) = cut - offset - start := by
    rw [e6, if_neg (by omega)]
  by_cases h : end_ < u32 (i32 (cut - offset))
  · have e8 : i32 (end_ : Int) = end_ := i32_eq (by omega) (by omega)
    refine ⟨end_, (cut - offset - start).toNat, ?_, ?_, ?_, ?_, ?_, ?_, ?_⟩
    · rw [if_pos h, e8]
    · rw [hl]; omega
    · unfold u32; omega
    · unfold u32; omega
    · unfold u32; omega
    · unfold i32; omega
    · omega
  · have e9 : i32 (cut - offset) = cut - offset := i32_eq (by omega) (by omega)
    refine ⟨(cut - offset).toNat, (cut - offset - start).toNat, ?_, ?_, ?_, ?_, ?_, ?_, ?_⟩
    · rw [if_neg h, e9]; omega
    · rw [hl]; omega
    · unfold u32; omega
    · unfold u32; omega
    · unfold u32; omega
    · unfold i32; omega
    · omega

theorem growth_singleton (f : frag) : growth [f] = (f.len : Int) - ((f.end_ : Int) - f.start) := by
  simp [growth]

theorem gather_nowrap (cut : Int) (hc : FitsInt cut) : ∀ (src : List frag) (offset : Int),
    FitsInt offset → gatherNoWrap src cut offset →
    (gather [] src cut offset).2.2 = offset + growth (gather [] src cut offset).1 ∧
    FrontOf src (gather [] src cut offset).1 (gather [] src cut offset).2.1 ∧
    takenBelow cut offset (gather [] src cut offset).1 := by
  intro src
  induction src with
  | nil =>
    intro offset _ _
    exact ⟨by simp [gather, growth], Or.inl rfl, trivial⟩
  | cons s rest ih =>
    intro offset ho hnw
    obtain ⟨hcut, hs0, hs1, hrest⟩ := hnw
    have hcc := hc
    have hoo := ho
    unfold FitsInt at hcc hoo
    have eu1 : (u32 ((s.start : Int) + offset) : Int) = s.start + offset := u32_eq hs0 hs1
    have eu2 : (u32 cut : Int) = cut := u32_eq hcut (by omega)
    by_cases h1 : u32 (s.start + offset) ≥ u32 cut
    · rw [gather_cons_stop h1]
      exact ⟨by simp [growth], Or.inl rfl, trivial⟩
    · have hlt : (s.start : Int) + offset < cut := by omega
      obtain ⟨hpe, hwhole, hsplit⟩ := hrest hlt
      have epe : i32 (offset + s.start + s.len) = offset + s.start + s.len :=
        i32_eq hpe.1 hpe.2
      by_cases h2 : i32 (offset + s.start + s.len) ≤ cut
      · obtain ⟨hno, hr⟩ := hwhole (by omega)
        have eno : i32 (offset + (s.start + s.len - s.end_)) = offset + (s.start + s.len - s.end_) :=
          i32_eq hno.1 hno.2
        obtain ⟨i1, i2, i3⟩ := ih (offset + (s.start + s.len - s.end_)) hno hr
        rw [gather_cons_whole h1 h2, gather_dest, eno]
        refine ⟨?_, ?_, ?_⟩
        · show (gather [] rest cut _).2.2 = _
          rw [i1, List.nil_append, List.singleton_append, growth_cons]
          omega
        · show FrontOf (s :: rest) ([] ++ [s] ++ (gather [] rest cut _).1) (gather [] rest cut _).2.1
          rcases i2 with i2 | ⟨pre, s0, d, s2, tl, q1, q2, q3, q4⟩
          · left
            rw [List.nil_append, List.singleton_append, List.cons_append, ← i2]
          · right
            exact ⟨s :: pre, s0, d, s2, tl, by rw [q1]; rfl,
              by rw [q2]; rfl, q3, q4⟩
        · show takenBelow cut offset ([] ++ [s] ++ (gather [] rest cut _).1)
          rw [List.nil_append, List.singleton_append]
          refine ⟨hlt, ?_⟩
          have e : offset + ((s.len : Int) - ((s.end_ : Int) - s.start))
              = offset + (s.start + s.len - s.end_) := by omega
          rw [e]
          exact i3
      · have hw : cut < offset + s.start + s.len := by omega
        obtain ⟨c, l, q1, q2, q3, q4, q5, q6, q7⟩ :=
          split_nowrap hs0 hlt hw (hsplit hw).1 (hsplit hw).2 hc ho
        rw [gather_cons_split h1 h2, q1, q2, q3, q4, q5, q6]
        refine ⟨?_, Or.inr ⟨[], s, _, _, rest, rfl, rfl, rfl, ?_⟩, ?_⟩
        · show _ = offset + growth ([] ++ [_])
          rw [List.nil_append, growth_singleton]
        · refine ⟨rfl, rfl, rfl, rfl, ?_, ?_⟩
          · show l + (s.len - l) = s.len
            omega
          · rfl
        · exact ⟨hlt, trivial⟩

end Mpatch
namespace Mpatch

/-! ## `amp_string_unhexlify` -/

theorem unhexLoop_succ (fresh : UInt8) (inp : List UInt8) (fuel len pos : Nat) (out : List UInt8) :
    unhexLoop fresh inp (fuel + 1) len pos out =
      if len = 0 then some out
      else unhexLoop fresh inp fuel (u32 ((len : Int) - 2)) (pos + 2)
        (out ++ [unhexLow (inp.getD (pos + 1) 0) (unhexHigh (inp.getD pos 0) fresh)]) := rfl


theorem hexValue_cases {c : UInt8} (h : isHexDigit c) :
    (48 ≤ c.toNat ∧ c.toNat ≤ 57 ∧ hexValue c = c.toNat - 48) ∨
    (65 ≤ c.toNat ∧ c.toNat ≤ 70 ∧ hexValue c = c.toNat - 65 + 10) ∨
    (97 ≤ c.toNat ∧ c.toNat ≤ 102 ∧ hexValue c = c.toNat - 97 + 10) := by
  unfold hexValue
  rcases h with h | h | h
  · exact Or.inl ⟨h.1, h.2, by rw [if_pos h.2]⟩
  · exact Or.inr (Or.inl ⟨h.1, h.2, by rw [if_neg (by omega), if_pos h.2]⟩)
  · exact Or.inr (Or.inr ⟨h.1, h.2, by rw [if_neg (by omega), if_neg (by omega)]⟩)

theorem hexValue_lt {c : UInt8} (h : isHexDigit c) : hexValue c < 16 := by
  rcases hexValue_cases h with ⟨h1, h2, h3⟩ | ⟨h1, h2, h3⟩ | ⟨h1, h2, h3⟩ <;> omega

theorem unhexHigh_digit {c : UInt8} (h : isHexDigit c) (old : UInt8) :
    unhexHigh c old = UInt8.ofNat (16 * hexValue c) := by
  unfold unhexHigh
  rcases hexValue_cases h with ⟨h1, h2, h3⟩ | ⟨h1, h2, h3⟩ | ⟨h1, h2, h3⟩
  · rw [if_pos ⟨h1, h2⟩, h3]
  · rw [if_neg (by omega), if_pos ⟨h1, h2⟩, h3]
  · rw [if_neg (by omega), if_neg (by omega), if_pos ⟨h1, h2⟩, h3]

theorem unhexLow_digit {c : UInt8} (h : isHexDigit c) (cur : UInt8) :
    unhexLow c cur = UInt8.ofNat (cur.toNat + hexValue c) := by
  unfold unhexLow
  rcases hexValue_cases h with ⟨h1, h2, h3⟩ | ⟨h1, h2, h3⟩ | ⟨h1, h2, h3⟩
  · rw [if_pos ⟨h1, h2⟩, h3]
  · rw [if_neg (by omega), if_pos ⟨h1, h2⟩, h3]
  · rw [if_neg (by omega), if_neg (by omega), if_pos ⟨h1, h2⟩, h3]

theorem unhex_pair {a b : UInt8} (ha : isHexDigit a) (hb : isHexDigit b) (fresh : UInt8) :
    (unhexLow b (unhexHigh a fresh)).toNat = 16 * hexValue a + hexValue b := by
  have h1 := hexValue_lt ha
  have h2 := hexValue_lt hb
  rw [unhexHigh_digit ha, unhexLow_digit hb, u8_toNat_ofNat, u8_toNat_ofNat]
  omega

theorem unhex_pair_eq {a b : UInt8} (ha : isHexDigit a) (hb : isHexDigit b) (fresh : UInt8) :
    unhexLow b (unhexHigh a fresh) = UInt8.ofNat (16 * hexValue a + hexValue b) := by
  have h := unhex_pair ha hb fresh
  rw [← u8_ofNat_toNat (unhexLow b (unhexHigh a fresh)), h]

theorem hexPairs_length : ∀ s : List UInt8, (hexPairs s).length = s.length / 2
  | [] => rfl
  | [_] => by simp [hexPairs]
  | _ :: _ :: r => by
    simp only [hexPairs, List.length_cons, hexPairs_length r]
    omega

theorem hexPairs_getD : ∀ (s : List UInt8) (i : Nat), i < s.length / 2 →
    (hexPairs s).getD i 0 = UInt8.ofNat (16 * hexValue (s.getD (2 * i) 0)
      + hexValue (s.getD (2 * i + 1) 0))
  | [], i, h => by simp at h
  | [_], i, h => by
    simp only [List.length_singleton] at h
    omega
  | a :: b :: r, 0, _ => rfl
  | a :: b :: r, i + 1, h => by
    have h2 : i < r.length / 2 := by
      simp only [List.length_cons] at h
      omega
    have e1 : 2 * (i + 1) = 2 * i + 1 + 1 := by omega
    have e2 : 2 * (i + 1) + 1 = 2 * i + 1 + 1 + 1 := by omega
    rw [e2, e1]
    simp only [hexPairs, List.getD_cons_succ]
    exact hexPairs_getD r i h2

theorem hexPairs_values : ∀ (s t : List UInt8), t.map hexValue = s.map hexValue →
    hexPairs t = hexPairs s
  | [], [], _ => rfl
  | [], _ :: _, h => by simp at h
  | _ :: _, [], h => by simp at h
  | [_], [_], _ => rfl
  | [_], _ :: _ :: _, h => by simp at h
  | _ :: _ :: _, [_], h => by simp at h
  | a :: b :: r, c :: d :: u, h => by
    simp only [List.map_cons, List.cons.injEq] at h
    simp only [hexPairs, h.1, h.2.1, hexPairs_values r u h.2.2]

theorem getD_append_zero (pre : List UInt8) (a : UInt8) (r : List UInt8) :
    (pre ++ a :: r).getD pre.length 0 = a := by
  rw [List.getD_eq_getElem?_getD, List.getElem?_append_right (le_refl _)]
  simp

theorem getD_append_one (pre : List UInt8) (a b : UInt8) (r : List UInt8) :
    (pre ++ a :: b :: r).getD (pre.length + 1) 0 = b := by
  have e : pre ++ a :: b :: r = (pre ++ [a]) ++ b :: r := by simp
  have e2 : pre.length + 1 = (pre ++ [a]).length := by simp
  rw [e, e2]
  exact getD_append_zero _ _ _

/-- The loop on an even number of hexadecimal digits stores one byte per pair. -/
theorem unhexLoop_digits (fresh : UInt8) : ∀ (s pre out : List UInt8) (fuel : Nat),
    s.length % 2 = 0 → s.length < 4294967296 → (∀ c ∈ s, isHexDigit c) →
    s.length / 2 + 1 ≤ fuel →
    unhexLoop fresh (pre ++ s) fuel s.length pre.length out = some (out ++ hexPairs s)
  | [], pre, out, fuel, _, _, _, hf => by
    obtain ⟨f, rfl⟩ : ∃ f, fuel = f + 1 := ⟨fuel - 1, by omega⟩
    rw [unhexLoop_succ, if_pos List.length_nil]
    simp [hexPairs]
  | [_], _, _, _, h, _, _, _ => by simp at h
  | a :: b :: r, pre, out, fuel, he, hl, hd, hf => by
    obtain ⟨f, rfl⟩ : ∃ f, fuel = f + 1 := ⟨fuel - 1, by omega⟩
    simp only [List.length_cons] at he hl hf
    have ha := hd a (by simp)
    have hb := hd b (by simp)
    have e1 : (a :: b :: r).length ≠ 0 := by simp
    have e2 : u32 (((a :: b :: r).length : Nat) - 2) = r.length := by
      simp only [List.length_cons]
      unfold u32
      omega
    have e3 : pre ++ a :: b :: r = (pre ++ [a, b]) ++ r := by simp
    have e4 : pre.length + 2 = (pre ++ [a, b]).length := by simp
    rw [unhexLoop_succ, if_neg e1, e2, getD_append_zero, getD_append_one, unhex_pair_eq ha hb,
      e3, e4, unhexLoop_digits fresh r (pre ++ [a, b]) _ f (by omega) (by omega)
        (fun c hc => hd c (by simp [hc])) (by omega)]
    simp [hexPairs]

theorem unhexlify_len_zero (fresh : UInt8) (s : List UInt8) :
    unhexlify_len fresh s 0 = .ok [] := rfl

theorem unhexlify_digits (fresh : UInt8) (s : List UInt8) (he : s.length % 2 = 0)
    (hl : s.length < 4294967296) (hd : ∀ c ∈ s, isHexDigit c) :
    amp_string_unhexlify fresh s = .ok (hexPairs s) := by
  have e : u32 (s.length : Int) = s.length := by unfold u32; omega
  have h := unhexLoop_digits fresh s [] [] (s.length / 2 + 1) he hl hd (le_refl _)
  simp only [List.nil_append, List.length_nil] at h
  unfold amp_string_unhexlify
  rw [e]
  simp only [unhexlify_len, h]

/-- C18, as amended. For every string `s` of even length below `2^32` made only
of hexadecimal digits, `unhexlify(s)` returns a string of `|s| / 2` bytes whose
`i`-th byte is `16 * value(s[2i]) + value(s[2i+1])`; a string with the same
digit values, in whatever case, gives the same result, and the upper-case and
lower-case letters have the same values. -/
theorem C18_unhexlify (fresh : UInt8) (s : List UInt8) (he : s.length % 2 = 0)
    (hl : s.length < 4294967296) (hd : ∀ c ∈ s, isHexDigit c) :
    ∃ out, amp_string_unhexlify fresh s = .ok out ∧ out.length = s.length / 2 ∧
      (∀ i, i < s.length / 2 →
        (out.getD i 0).toNat = 16 * hexValue (s.getD (2 * i) 0) + hexValue (s.getD (2 * i + 1) 0)) ∧
      (∀ t : List UInt8, (∀ c ∈ t, isHexDigit c) → t.map hexValue = s.map hexValue →
        amp_string_unhexlify fresh t = .ok out) ∧
      (∀ k, k < 6 → hexValue (UInt8.ofNat (65 + k)) = hexValue (UInt8.ofNat (97 + k))) := by
  refine ⟨hexPairs s, unhexlify_digits fresh s he hl hd, hexPairs_length s, fun i hi => ?_,
    fun t ht hts => ?_, by decide⟩
  · have h1 : isHexDigit (s.getD (2 * i) 0) := by
      rw [List.getD_eq_getElem?_getD, List.getElem?_eq_getElem (by omega)]
      exact hd _ (List.getElem_mem _)
    have h2 : isHexDigit (s.getD (2 * i + 1) 0) := by
      rw [List.getD_eq_getElem?_getD, List.getElem?_eq_getElem (by omega)]
      exact hd _ (List.getElem_mem _)
    have b1 := hexValue_lt h1
    have b2 := hexValue_lt h2
    rw [hexPairs_getD s i hi, u8_toNat_ofNat]
    omega
  · have hlen : t.length = s.length := by
      have := congrArg List.length hts
      simpa using this
    rw [unhexlify_digits fresh t (by omega) (by omega) ht, hexPairs_values s t hts]

/-- C18, witness: "414243" gives "ABC", and so do "4a4B" and "4A4b" give "JK". -/
theorem C18_unhexlify_witness :
    ∃ out, amp_string_unhexlify 0 (bytes "414243") = .ok out ∧
      out.length = (bytes "414243").length / 2 ∧
      (∀ i, i < (bytes "414243").length / 2 →
        (out.getD i 0).toNat = 16 * hexValue ((bytes "414243").getD (2 * i) 0)
          + hexValue ((bytes "414243").getD (2 * i + 1) 0)) ∧
      (∀ t : List UInt8, (∀ c ∈ t, isHexDigit c) →
        t.map hexValue = (bytes "414243").map hexValue → amp_string_unhexlify 0 t = .ok out) ∧
      (∀ k, k < 6 → hexValue (UInt8.ofNat (65 + k)) = hexValue (UInt8.ofNat (97 + k))) :=
  C18_unhexlify 0 (bytes "414243") (by decide) (by decide) (by decide)

theorem unhexlify_length_wraps (fresh : UInt8) (s : List UInt8) (h : s.length = 4294967296) :
    amp_string_unhexlify fresh s = .ok [] := by
  unfold amp_string_unhexlify
  rw [h]
  exact unhexlify_len_zero fresh s

/-- C18, counterexample. The string of `2^32` characters "0" has even length
and only hexadecimal digits, and `unhexlify` returns the empty string, not one
of `2^31` bytes: the length wraps to 0 in `unsigned int`. -/
theorem C18_counterexample :
    (List.replicate 4294967296 (48 : UInt8)).length % 2 = 0 ∧
    (∀ c ∈ List.replicate 4294967296 (48 : UInt8), isHexDigit c) ∧
    amp_string_unhexlify 0 (List.replicate 4294967296 48) = .ok [] ∧
    (List.replicate 4294967296 (48 : UInt8)).length / 2 = 2147483648 := by
  refine ⟨by rw [List.length_replicate], fun c hc => ?_,
    unhexlify_length_wraps 0 _ (List.length_replicate _ _), by rw [List.length_replicate]⟩
  rw [List.eq_of_mem_replicate hc]
  decide

end Mpatch
namespace Mpatch

/-! ## `byte_swap_64` -/

theorem and_mask (x k : Nat) : x &&& (2 ^ k * 255) = 2 ^ k * (x / 2 ^ k % 256) := by
  apply Nat.eq_of_testBit_eq
  intro i
  have e255 : (255 : Nat) = 2 ^ 8 - 1 := rfl
  have e256 : (256 : Nat) = 2 ^ 8 := rfl
  rw [Nat.testBit_and, Nat.testBit_mul_pow_two, Nat.testBit_mul_pow_two, e255,
    Nat.testBit_two_pow_sub_one, e256, Nat.testBit_mod_two_pow, ← Nat.shiftRight_eq_div_pow,
    Nat.testBit_shiftRight]
  by_cases h1 : i ≥ k
  · have e : k + (i - k) = i := by omega
    rw [e]
    by_cases h2 : i - k < 8 <;> simp [h1, h2]
  · simp [h1]

theorem or_add (k acc b : Nat) (h : acc < 2 ^ k) : acc ||| (2 ^ k * b) = 2 ^ k * b + acc := by
  rw [Nat.or_comm, Nat.mul_add_lt_is_or h]

theorem or_chain (b7 b6 b5 b4 b3 b2 b1 b0 : Nat) (h7 : b7 < 256) (h6 : b6 < 256)
    (h5 : b5 < 256) (h4 : b4 < 256) (h3 : b3 < 256) (h2 : b2 < 256) (h1 : b1 < 256) :
    b7 ||| 256 * b6 ||| 65536 * b5 ||| 16777216 * b4 ||| 4294967296 * b3 |||
      1099511627776 * b2 ||| 281474976710656 * b1 ||| 72057594037927936 * b0 =
    b7 + 256 * b6 + 65536 * b5 + 16777216 * b4 + 4294967296 * b3 + 1099511627776 * b2
      + 281474976710656 * b1 + 72057594037927936 * b0 := by
  have s6 : b7 ||| 256 * b6 = 256 * b6 + b7 := or_add 8 b7 b6 (by norm_num; omega)
  rw [s6]
  have s5 : (256 * b6 + b7) ||| 65536 * b5 = 65536 * b5 + (256 * b6 + b7) :=
    or_add 16 _ b5 (by norm_num; omega)
  rw [s5]
  have s4 : (65536 * b5 + (256 * b6 + b7)) ||| 16777216 * b4
      = 16777216 * b4 + (65536 * b5 + (256 * b6 + b7)) := or_add 24 _ b4 (by norm_num; omega)
  rw [s4]
  have s3 : (16777216 * b4 + (65536 * b5 + (256 * b6 + b7))) ||| 4294967296 * b3
      = 4294967296 * b3 + (16777216 * b4 + (65536 * b5 + (256 * b6 + b7))) :=
    or_add 32 _ b3 (by norm_num; omega)
  rw [s3]
  have s2 : (4294967296 * b3 + (16777216 * b4 + (65536 * b5 + (256 * b6 + b7))))
        ||| 1099511627776 * b2
      = 1099511627776 * b2 + (4294967296 * b3 + (16777216 * b4 + (65536 * b5 + (256 * b6 + b7)))) :=
    or_add 40 _ b2 (by norm_num; omega)
  rw [s2]
  have s1 : (1099511627776 * b2 + (4294967296 * b3 + (16777216 * b4 + (65536 * b5
        + (256 * b6 + b7))))) ||| 281474976710656 * b1
      = 281474976710656 * b1 + (1099511627776 * b2 + (4294967296 * b3 + (16777216 * b4
        + (65536 * b5 + (256 * b6 + b7))))) := or_add 48 _ b1 (by norm_num; omega)
  rw [s1]
  have s0 : (281474976710656 * b1 + (1099511627776 * b2 + (4294967296 * b3 + (16777216 * b4
        + (65536 * b5 + (256 * b6 + b7)))))) ||| 72057594037927936 * b0
      = 72057594037927936 * b0 + (281474976710656 * b1 + (1099511627776 * b2 + (4294967296 * b3
        + (16777216 * b4 + (65536 * b5 + (256 * b6 + b7)))))) :=
    or_add 56 _ b0 (by norm_num; omega)
  rw [s0]
  omega

theorem swap_arith (val : Nat) (h : val < 18446744073709551616) :
    fixnum_swap val =
      val / 72057594037927936 % 256 + 256 * (val / 281474976710656 % 256)
      + 65536 * (val / 1099511627776 % 256) + 16777216 * (val / 4294967296 % 256)
      + 4294967296 * (val / 16777216 % 256) + 1099511627776 * (val / 65536 % 256)
      + 281474976710656 * (val / 256 % 256) + 72057594037927936 * (val % 256) := by
  have m6 := and_mask val 48
  have m5 := and_mask val 40
  have m4 := and_mask val 32
  have m3 := and_mask val 24
  have m2 := and_mask val 16
  have m1 := and_mask val 8
  have m0 := and_mask val 0
  norm_num at m6 m5 m4 m3 m2 m1 m0
  unfold fixnum_swap
  rw [m6, m5, m4, m3, m2, m1, m0]
  have t7 : val >>> 56 = val / 72057594037927936 % 256 := by
    rw [Nat.shiftRight_eq_div_pow]; norm_num; omega
  have t6 : (281474976710656 * (val / 281474976710656 % 256)) >>> 40
      = 256 * (val / 281474976710656 % 256) := by
    rw [Nat.shiftRight_eq_div_pow]; norm_num; omega
  have t5 : (1099511627776 * (val / 1099511627776 % 256)) >>> 24
      = 65536 * (val / 1099511627776 % 256) := by
    rw [Nat.shiftRight_eq_div_pow]; norm_num; omega
  have t4 : (4294967296 * (val / 4294967296 % 256)) >>> 8
      = 16777216 * (val / 4294967296 % 256) := by
    rw [Nat.shiftRight_eq_div_pow]; norm_num; omega
  have t3 : (16777216 * (val / 16777216 % 256)) <<< 8 % 18446744073709551616
      = 4294967296 * (val / 16777216 % 256) := by
    rw [Nat.shiftLeft_eq]; norm_num; omega
  have t2 : (65536 * (val / 65536 % 256)) <<< 24 % 18446744073709551616
      = 1099511627776 * (val / 65536 % 256) := by
    rw [Nat.shiftLeft_eq]; norm_num; omega
  have t1 : (256 * (val / 256 % 256)) <<< 40 % 18446744073709551616
      = 281474976710656 * (val / 256 % 256) := by
    rw [Nat.shiftLeft_eq]; norm_num; omega
  have t0 : (val % 256) <<< 56 % 18446744073709551616 = 72057594037927936 * (val % 256) := by
    rw [Nat.shiftLeft_eq]; norm_num; omega
  rw [t7, t6, t5, t4, t3, t2, t1, t0]
  exact or_chain _ _ _ _ _ _ _ _ (Nat.mod_lt _ (by decide)) (Nat.mod_lt _ (by decide))
    (Nat.mod_lt _ (by decide)) (Nat.mod_lt _ (by decide)) (Nat.mod_lt _ (by decide))
    (Nat.mod_lt _ (by decide)) (Nat.mod_lt _ (by decide))

theorem bignum_swap_eq (val : Nat) : bignum_swap val = fixnum_swap val := rfl

theorem reverseBytes64_arith (x : Nat) :
    reverseBytes64 x =
      x / 72057594037927936 % 256 + 256 * (x / 281474976710656 % 256)
      + 65536 * (x / 1099511627776 % 256) + 16777216 * (x / 4294967296 % 256)
      + 4294967296 * (x / 16777216 % 256) + 1099511627776 * (x / 65536 % 256)
      + 281474976710656 * (x / 256 % 256) + 72057594037927936 * (x % 256) := by
  have e : List.range 8 = [0, 1, 2, 3, 4, 5, 6, 7] := rfl
  simp only [reverseBytes64, bytes64, e, List.map, List.reverse_cons, List.reverse_nil,
    List.nil_append, List.cons_append, ofBytes]
  norm_num
  omega

theorem swap_lt (val : Nat) (h : val < 18446744073709551616) :
    fixnum_swap val < 18446744073709551616 := by
  rw [swap_arith val h]
  omega

theorem bytes_of_sum (b7 b6 b5 b4 b3 b2 b1 b0 y : Nat) (h7 : b7 < 256) (h6 : b6 < 256)
    (h5 : b5 < 256) (h4 : b4 < 256) (h3 : b3 < 256) (h2 : b2 < 256) (h1 : b1 < 256)
    (h0 : b0 < 256)
    (hy : y = b7 + 256 * b6 + 65536 * b5 + 16777216 * b4 + 4294967296 * b3 + 1099511627776 * b2
      + 281474976710656 * b1 + 72057594037927936 * b0) :
    y % 256 = b7 ∧ y / 256 % 256 = b6 ∧ y / 65536 % 256 = b5 ∧ y / 16777216 % 256 = b4 ∧
    y / 4294967296 % 256 = b3 ∧ y / 1099511627776 % 256 = b2 ∧
    y / 281474976710656 % 256 = b1 ∧ y / 72057594037927936 % 256 = b0 := by
  refine ⟨?_, ?_, ?_, ?_, ?_, ?_, ?_, ?_⟩ <;> omega

theorem swap_swap (val : Nat) (h : val < 18446744073709551616) :
    fixnum_swap (fixnum_swap val) = val := by
  have hlt := swap_lt val h
  have hv : val = val % 256 + 256 * (val / 256 % 256) + 65536 * (val / 65536 % 256)
      + 16777216 * (val / 16777216 % 256) + 4294967296 * (val / 4294967296 % 256)
      + 1099511627776 * (val / 1099511627776 % 256)
      + 281474976710656 * (val / 281474976710656 % 256)
      + 72057594037927936 * (val / 72057594037927936 % 256) := by omega
  obtain ⟨q7, q6, q5, q4, q3, q2, q1, q0⟩ := bytes_of_sum _ _ _ _ _ _ _ _ (fixnum_swap val)
    (Nat.mod_lt _ (by decide)) (Nat.mod_lt _ (by decide)) (Nat.mod_lt _ (by decide))
    (Nat.mod_lt _ (by decide)) (Nat.mod_lt _ (by decide)) (Nat.mod_lt _ (by decide))
    (Nat.mod_lt _ (by decide)) (Nat.mod_lt _ (by decide)) (swap_arith val h)
  rw [swap_arith _ hlt, q7, q6, q5, q4, q3, q2, q1, q0]
  omega

theorem u64_eq (x : Nat) (h : x < 18446744073709551616) : u64 (x : Int) = x := by
  unfold u64; omega

/-- C19. On a little-endian host (`little_endian` not 0), `byte_swap_64` of an
integer `0 ≤ x < 2^64` is the integer whose 8-byte representation is that of
`x` in reverse order, for the Fixnum and the Bignum variant alike; the result
is again below `2^64`, and applying either variant to it gives `x` back. On a
big-endian host (`little_endian = 0`) both return `x`. -/
theorem C19_byte_swap_64 (x : Nat) (hx : x < 18446744073709551616) :
    (∀ le : Int, le ≠ 0 →
      amp_fixnum_byte_swap_64 le x = (reverseBytes64 x : Nat) ∧
      amp_bignum_byte_swap_64 le x = amp_fixnum_byte_swap_64 le x ∧
      reverseBytes64 x < 18446744073709551616 ∧
      amp_fixnum_byte_swap_64 le (amp_fixnum_byte_swap_64 le x) = x ∧
      amp_bignum_byte_swap_64 le (amp_bignum_byte_swap_64 le x) = x) ∧
    amp_fixnum_byte_swap_64 0 x = x ∧ amp_bignum_byte_swap_64 0 x = x := by
  have hs := swap_arith x hx
  have hr := reverseBytes64_arith x
  have hlt := swap_lt x hx
  have hss := swap_swap x hx
  refine ⟨fun le hle => ?_, ?_, ?_⟩
  · have e1 : amp_fixnum_byte_swap_64 le x = (fixnum_swap x : Nat) := by
      unfold amp_fixnum_byte_swap_64
      rw [if_pos hle, u64_eq x hx]
    have e2 : amp_bignum_byte_swap_64 le x = (fixnum_swap x : Nat) := by
      unfold amp_bignum_byte_swap_64
      rw [if_pos hle, u64_eq x hx, bignum_swap_eq]
    have e3 : amp_fixnum_byte_swap_64 le (fixnum_swap x : Nat) = x := by
      unfold amp_fixnum_byte_swap_64
      rw [if_pos hle, u64_eq _ hlt, hss]
    have e4 : amp_bignum_byte_swap_64 le (fixnum_swap x : Nat) = x := by
      unfold amp_bignum_byte_swap_64
      rw [if_pos hle, u64_eq _ hlt, bignum_swap_eq, hss]
    refine ⟨?_, ?_, ?_, ?_, ?_⟩
    · rw [e1, hs, hr]
    · rw [e1, e2]
    · rw [hr, ← hs]; exact hlt
    · rw [e1, e3]
    · rw [e2, e4]
  · unfold amp_fixnum_byte_swap_64
    rw [if_neg (by decide)]
  · unfold amp_bignum_byte_swap_64
    rw [if_neg (by decide)]

/-- C19, witness: `0x0102030405060708` becomes `0x0807060504030201`. -/
theorem C19_byte_swap_64_witness :
    amp_fixnum_byte_swap_64 1 (0x0102030405060708 : Nat) = (0x0807060504030201 : Nat) ∧
    amp_bignum_byte_swap_64 1 (0x0807060504030201 : Nat) = (0x0102030405060708 : Nat) ∧
    amp_fixnum_byte_swap_64 0 (0x0102030405060708 : Nat) = (0x0102030405060708 : Nat) :=
  ⟨((C19_byte_swap_64 0x0102030405060708 (by decide)).1 1 (by decide)).1.trans (by decide),
    (((C19_byte_swap_64 0x0807060504030201 (by decide)).1 1 (by decide)).2.1).trans
      ((((C19_byte_swap_64 0x0807060504030201 (by decide)).1 1 (by decide)).1).trans (by decide)),
    (C19_byte_swap_64 0x0102030405060708 (by decide)).2.1⟩

end Mpatch
namespace Mpatch

/-- C22. `discard` is `gather` without the output list: whatever `dest` is,
`discard(src, cut, offset)` returns the offset `gather(dest, src, cut, offset)`
returns and leaves `src` as `gather` leaves it: the same remaining fragments,
with the same `start`, `end`, `len` and `data`. -/
theorem C22_discard_is_gather (dest src : List frag) (cut offset : Int) :
    (discard src cut offset).2 = (gather dest src cut offset).2.2 ∧
    (discard src cut offset).1 = (gather dest src cut offset).2.1 := by
  rw [discard_eq_gather dest]
  exact ⟨rfl, rfl⟩

theorem decode_raise_msg {d : List UInt8} {len : Int} {m : String}
    (h : decode d len = .raise m) : m = "patch cannot be decoded" := by
  obtain ⟨⟨b, lt⟩, hr⟩ := decodeLoop_fuel d len (len.toNat / 12 + 1) 0 12 [] (by omega)
  rw [decode_of_loop hr] at h
  by_cases hb : (b : Int) ≠ len
  · rw [if_pos hb] at h
    injection h with h
    exact h.symm
  · rw [if_neg hb] at h
    cases h

theorem decode_cases (d : List UInt8) (len : Int) :
    (∃ fs, decode d len = .ok fs) ∨ decode d len = .raise "patch cannot be decoded" := by
  obtain ⟨⟨b, lt⟩, hr⟩ := decodeLoop_fuel d len (len.toNat / 12 + 1) 0 12 [] (by omega)
  rw [decode_of_loop hr]
  by_cases hb : (b : Int) ≠ len
  · rw [if_pos hb]; exact Or.inr rfl
  · rw [if_neg hb]; exact Or.inl ⟨_, rfl⟩

/-- C26. Whatever the records of the blob are (ordered or not, overlapping or
not, inside the base or not): when `decode` accepts the blob, `patched_size(L, d)`
returns `(L + sum of (len - (end - start)))` mod `2^32`, the sum taken over the
decoded records; it never raises "invalid patch"; and it raises "patch cannot
be decoded" exactly when `decode` does. -/
theorem C26_patched_size_value (L : Int) (d : List UInt8) :
    (∀ fs, decode d (i32 d.length) = .ok fs →
      amp_mpatch_patched_size L d = .ok ((L + growth fs) % 4294967296).toNat) ∧
    amp_mpatch_patched_size L d ≠ .raise "invalid patch" ∧
    (amp_mpatch_patched_size L d = .raise "patch cannot be decoded" ↔
      decode d (i32 d.length) = .raise "patch cannot be decoded") := by
  refine ⟨fun fs h => amp_mpatch_patched_size_ok h, ?_, ?_⟩
  · rcases decode_cases d (i32 d.length) with ⟨fs, h⟩ | h
    · rw [amp_mpatch_patched_size_ok h]
      intro hc
      cases hc
    · rw [amp_mpatch_patched_size_raise h]
      intro hc
      injection hc with hc
      revert hc
      decide
  · rcases decode_cases d (i32 d.length) with ⟨fs, h⟩ | h
    · rw [amp_mpatch_patched_size_ok h, h]
      exact ⟨fun hc => (by cases hc), fun hc => (by cases hc)⟩
    · rw [amp_mpatch_patched_size_raise h, h]
      exact ⟨fun _ => rfl, fun _ => rfl⟩

/-- C26, witness: base length 5 and the unordered records `(50, 50, "")`,
`(8, 12, "")`: the size is `5 + 0 - 4 = 1`. -/
theorem C26_patched_size_value_witness :
    amp_mpatch_patched_size 5 (wire [⟨50, 50, 0, []⟩, ⟨8, 12, 0, []⟩]) = .ok 1 :=
  ((C26_patched_size_value 5 (wire [⟨50, 50, 0, []⟩, ⟨8, 12, 0, []⟩])).1
      (fragsAt (wire [⟨50, 50, 0, []⟩, ⟨8, 12, 0, []⟩]) 0 [⟨50, 50, 0, []⟩, ⟨8, 12, 0, []⟩])
      (by decide)).trans (by decide)

end Mpatch
namespace Mpatch

theorem decodeSlots_bound (buf : List UInt8) (e : Int) :
    ∀ (f bin data : Nat) (lt : List frag), 12 * (lt.length + 1) ≤ data →
      ∀ i ∈ decodeSlots buf e f bin data lt, 12 * ((i : Int) + 1) ≤ e := by
  intro f
  induction f with
  | zero => intro bin data lt _ i hi; simp [decodeSlots] at hi
  | succ f ih =>
    intro bin data lt h i hi
    unfold decodeSlots at hi
    by_cases hd : (data : Int) ≤ e
    · rw [if_pos hd] at hi
      rcases List.mem_cons.1 hi with hi | hi
      · subst hi; omega
      · by_cases hs : be32 buf bin > be32 buf (bin + 4)
        · simp only [hs, if_true] at hi
          cases hi
        · have hw : ¬ (data + be32 buf (bin + 8) < data) := by omega
          simp only [hs, hw, if_false] at hi
          exact ih _ _ _ (by rw [List.length_append, List.length_singleton]; omega) i hi
    · rw [if_neg hd] at hi
      cases hi

theorem decodeLoop_length (buf : List UInt8) (e : Int) :
    ∀ (f bin data : Nat) (lt : List frag) (r : Nat × List frag),
      12 * (lt.length + 1) ≤ data → 12 * (lt.length : Int) ≤ max e 0 →
      decodeLoop buf e f bin data lt = some r → 12 * (r.2.length : Int) ≤ max e 0 := by
  intro f
  induction f with
  | zero => intro bin data lt r _ _ h; simp [decodeLoop] at h
  | succ f ih =>
    intro bin data lt r h1 h2 h
    rw [decodeLoop_succ] at h
    by_cases hd : (data : Int) ≤ e
    · rw [if_pos hd] at h
      by_cases hs : be32 buf (bin + 4) < be32 buf bin
      · rw [if_pos hs] at h
        injection h with h
        subst h
        exact h2
      · rw [if_neg hs] at h
        refine ih _ _ _ r ?_ ?_ h
        · rw [List.length_append, List.length_singleton]; omega
        · rw [List.length_append, List.length_singleton]
          have := le_max_left e 0
          push_cast
          omega
    · rw [if_neg hd] at h
      injection h with h
      subst h
      exact h2

theorem lalloc_pos (size : Int) : 1 ≤ lalloc size := by
  unfold lalloc
  split <;> omega

theorem lalloc_ge (size : Int) : size ≤ lalloc size := by
  unfold lalloc
  split <;> omega

theorem decode_length {buf : List UInt8} {len : Int} {fs : List frag}
    (h : decode buf len = .ok fs) : 12 * (fs.length : Int) ≤ max len 0 := by
  obtain ⟨⟨b, lt⟩, hr⟩ := decodeLoop_fuel buf len (len.toNat / 12 + 1) 0 12 [] (by omega)
  rw [decode_of_loop hr] at h
  by_cases hb : (b : Int) ≠ len
  · rw [if_pos hb] at h
    cases h
  · rw [if_neg hb] at h
    injection h with h
    subst h
    exact decodeLoop_length buf len _ 0 12 [] _ (by simp) (by simp) hr

theorem slots_in_capacity {len : Int} {n i : Nat} (hl : len ≤ n) (h : 12 * ((i : Int) + 1) ≤ len) :
    i < lalloc (Int.tdiv len 12) ∧ i < max 1 (n / 12) := by
  have h0 : 0 ≤ len := by omega
  have ht : Int.tdiv len 12 = len / 12 := Int.tdiv_eq_ediv h0 (by omega)
  have h1 : (i : Int) + 1 ≤ len / 12 := by omega
  have h2 := lalloc_ge (Int.tdiv len 12)
  rw [ht] at h2 ⊢
  refine ⟨by omega, ?_⟩
  have h3 : i + 1 ≤ n / 12 := by omega
  have := le_max_right 1 (n / 12)
  omega

/-- The slots written for a blob of two records of which the second is rejected
(its start is after its end): slots 0 and 1 of the two that are allocated. -/
theorem decodeSlots_rejected :
    decodeSlots [0,0,0,0, 0,0,0,0, 0,0,0,0, 0,0,0,1, 0,0,0,0, 0,0,0,0] 24 3 0 12 [] = [0, 1] ∧
    lalloc (Int.tdiv 24 12) = 2 := by
  decide

/-- C28. For every blob `d` of length `n`: every slot that the loop of `decode`
writes, the slot of a record that is then rejected included, has an index below
the capacity `lalloc(len / 12)` of the list that was allocated, and below
`max(1, n / 12)`; and a successful `decode` returns at most `n / 12` fragments. -/
theorem C28_decode_within_capacity (d : List UInt8) :
    (∀ fuel, ∀ i ∈ decodeSlots d (i32 d.length) fuel 0 12 [],
      i < lalloc (Int.tdiv (i32 d.length) 12) ∧ i < max 1 (d.length / 12)) ∧
    (∀ fs, decode d (i32 d.length) = .ok fs → fs.length ≤ d.length / 12) := by
  have hl := i32_le_self d.length
  refine ⟨fun fuel i hi => ?_, fun fs h => ?_⟩
  · exact slots_in_capacity hl (decodeSlots_bound d _ fuel 0 12 [] (by simp) i hi)
  · have h1 := decode_length h
    have h2 : max (i32 (d.length : Int)) 0 ≤ (d.length : Int) := max_le hl (by omega)
    omega

/-- C28, witness: the blob of the records `(2, 4, "XYZ")` and `(5, 5, "")` has 27
bytes; two slots are allocated, the slots 0 and 1 are written and two fragments
are returned. -/
theorem C28_decode_within_capacity_witness :
    decodeSlots (wire [⟨2, 4, 3, bytes "XYZ"⟩, ⟨5, 5, 0, []⟩]) 27 3 0 12 [] = [0, 1] ∧
    decode (wire [⟨2, 4, 3, bytes "XYZ"⟩, ⟨5, 5, 0, []⟩])
        (i32 (wire [⟨2, 4, 3, bytes "XYZ"⟩, ⟨5, 5, 0, []⟩]).length) =
      .ok (fragsAt (wire [⟨2, 4, 3, bytes "XYZ"⟩, ⟨5, 5, 0, []⟩]) 0
        [⟨2, 4, 3, bytes "XYZ"⟩, ⟨5, 5, 0, []⟩]) ∧
    (fragsAt (wire [⟨2, 4, 3, bytes "XYZ"⟩, ⟨5, 5, 0, []⟩]) 0
        [⟨2, 4, 3, bytes "XYZ"⟩, ⟨5, 5, 0, []⟩]).length ≤
      (wire [⟨2, 4, 3, bytes "XYZ"⟩, ⟨5, 5, 0, []⟩]).length / 12 :=
  ⟨by decide, by decide,
    (C28_decode_within_capacity (wire [⟨2, 4, 3, bytes "XYZ"⟩, ⟨5, 5, 0, []⟩])).2 _ (by decide)⟩

end Mpatch
namespace Mpatch

theorem gather_length (src : List frag) : ∀ (dest : List frag) (cut offset : Int),
    (gather dest src cut offset).1.length + (gather dest src cut offset).2.1.length
        ≤ dest.length + src.length + 1 ∧
      (gather dest src cut offset).2.1.length ≤ src.length := by
  induction src with
  | nil => intro dest cut offset; simp [gather]
  | cons s rest ih =>
    intro dest cut offset
    by_cases h : u32 (s.start + offset) ≥ u32 cut
    · rw [gather_cons_stop h]
      simp
    · by_cases h2 : i32 (offset + s.start + s.len) ≤ cut
      · rw [gather_cons_whole h h2]
        have := ih (dest ++ [s]) cut (i32 (offset + (s.start + s.len - s.end_)))
        rw [List.length_append, List.length_singleton] at this
        rw [List.length_cons]
        omega
      · rw [gather_cons_split h h2]
        simp only [List.length_append, List.length_singleton, List.length_cons, List.length_nil]
        omega

theorem combineLoop_length (b : List frag) : ∀ (c a : List frag) (offset : Int),
    (combineLoop c a b offset).1.length + (combineLoop c a b offset).2.length
      ≤ c.length + a.length + 2 * b.length := by
  induction b with
  | nil => intro c a offset; simp [combineLoop]
  | cons bh bt ih =>
    intro c a offset
    simp only [combineLoop]
    refine le_trans (ih _ _ _) ?_
    rw [discard_fst, List.length_append, List.length_singleton, List.length_cons]
    have h1 := gather_length a c (i32 bh.start) offset
    have h2 := gather_length (gather c a (i32 bh.start) offset).2.1 [] (i32 bh.end_)
      (gather c a (i32 bh.start) offset).2.2
    omega

theorem combine_length (a b : List frag) : (combine a b).length ≤ a.length + 2 * b.length := by
  have := combineLoop_length b [] a 0
  unfold combine
  simp only [List.length_append, List.length_nil] at this ⊢
  omega

theorem combineCap_ge {a b : List frag} (h : a.length + b.length < 1073741824) :
    2 * (a.length + b.length) ≤ combineCap a b := by
  unfold combineCap lsize
  have e1 : i32 (a.length : Int) = a.length := i32_eq (by omega) (by omega)
  have e2 : i32 (b.length : Int) = b.length := i32_eq (by omega) (by omega)
  have e3 : i32 ((a.length : Int) + b.length) = a.length + b.length := i32_eq (by omega) (by omega)
  have e4 : i32 (((a.length : Int) + b.length) * 2) = (a.length + b.length) * 2 :=
    i32_eq (by omega) (by omega)
  rw [e1, e2, e3, e4]
  have := lalloc_ge (((a.length : Int) + b.length) * 2)
  omega

/-- C25, as the code has it. Whatever the fragments of `a` and `b` are (sorted
or not), `combine(a, b)` produces at most `|a| + 2 * |b|` fragments; and when
`|a| + |b| < 2^30`, so that the `int` product `(lsize(a) + lsize(b)) * 2` is what
it is in the integers, that is at most the `2 * (|a| + |b|)` slots (at least 1)
of the list it allocates. The slots are written one after the other from the
first, by `gather`, by the insertion of the new hunk and by the final copy of the
tail, so no write falls outside the list. -/
theorem C25_combine_within_capacity (a b : List frag) (h : a.length + b.length < 1073741824) :
    (combine a b).length ≤ a.length + 2 * b.length ∧
    a.length + 2 * b.length ≤ combineCap a b ∧
    2 * (a.length + b.length) ≤ combineCap a b ∧ 1 ≤ combineCap a b :=
  ⟨combine_length a b, by have := combineCap_ge h; omega, combineCap_ge h, lalloc_pos _⟩

/-- C25, witness: a one-fragment `a` that `b` cuts in two gives three fragments
in the four slots allocated. -/
theorem C25_combine_within_capacity_witness :
    (combine [⟨0, 4, 4, ⟨[1, 2, 3, 4], 0⟩⟩] [⟨2, 2, 0, ⟨[], 0⟩⟩]).length = 3 ∧
    combineCap [⟨0, 4, 4, ⟨[1, 2, 3, 4], 0⟩⟩] [⟨2, 2, 0, ⟨[], 0⟩⟩] = 4 ∧
    (combine [⟨0, 4, 4, ⟨[1, 2, 3, 4], 0⟩⟩] [⟨2, 2, 0, ⟨[], 0⟩⟩]).length ≤ 1 + 2 * 1 :=
  ⟨by decide, by decide,
    (C25_combine_within_capacity [⟨0, 4, 4, ⟨[1, 2, 3, 4], 0⟩⟩] [⟨2, 2, 0, ⟨[], 0⟩⟩]
      (by decide)).1⟩

theorem manyFrags_length : manyFrags.length = 1073741824 := by
  unfold manyFrags
  rw [List.length_replicate]

theorem combine_nil_right (a : List frag) : combine a [] = a := rfl

/-- C25 fails for long lists: with `a` a list of `2^30` fragments and `b` empty,
`(lsize(a) + lsize(b)) * 2` wraps around to `-2^31`, so one slot is allocated,
and the final copy of the tail writes `2^30` fragments. -/
theorem C25_capacity_wraps :
    combineCap manyFrags [] = 1 ∧ (combine manyFrags []).length = 1073741824 ∧
    ¬ ((combine manyFrags []).length ≤ combineCap manyFrags []) := by
  have hc : combineCap manyFrags [] = 1 := by
    unfold combineCap lsize
    rw [manyFrags_length]
    have e0 : i32 (([] : List frag).length : Int) = 0 := by decide
    have e1 : i32 ((1073741824 : Nat) : Int) = 1073741824 := by unfold i32; norm_num
    rw [e0, e1]
    have e2 : i32 ((1073741824 : Int) + 0) = 1073741824 := by unfold i32; norm_num
    rw [e2]
    have e3 : i32 ((1073741824 : Int) * 2) = -2147483648 := by unfold i32; norm_num
    rw [e3]
    unfold lalloc
    norm_num
  have hl : (combine manyFrags []).length = 1073741824 := by
    rw [combine_nil_right, manyFrags_length]
  refine ⟨hc, hl, ?_⟩
  rw [hc, hl]
  omega

end Mpatch
namespace Mpatch

/-! ## The state `gather` and `discard` leave -/

theorem split_exact {start end_ len : Nat} {cut offset : Int}
    (hs0 : 0 ≤ start + offset) (hlt : start + offset < cut)
    (hw : cut < offset + start + len) (hco : FitsInt (cut - offset))
    (hlen : len < 4294967296) (hc : FitsInt cut) (ho : FitsInt offset) :
    ∃ c l : Nat,
      (if end_ < u32 (i32 (cut - offset)) then i32 end_ else i32 (cut - offset)) = (c : Int) ∧
      (if len < u32 (i32 (cut - offset - start)) then i32 len
        else i32 (cut - offset - start)) = (l : Int) ∧
      u32 (c : Int) = c ∧ u32 (l : Int) = l ∧ u32 ((len : Int) - l) = len - l ∧
      i32 (offset + ((start : Int) + l - c)) = cut - c ∧
      (l : Int) = cut - offset - start ∧ 0 < l ∧ l < len ∧
      (c : Int) = min (end_ : Int) (cut - offset) := by
  unfold FitsInt at hco hc ho
  have e5 : (u32 (i32 (cut - offset)) : Int) = cut - offset := by unfold u32 i32; omega
  have e6 : i32 (cut - offset - start) = cut - offset - start := i32_eq (by omega) (by omega)
  have e7 : (u32 (cut - offset - start) : Int) = cut - offset - start :=
    u32_eq (by omega) (by omega)
  have hl : (if len < u32 (i32 (cut - offset - start)) then i32 len
      else i32 (cut - offset - start)) = cut - offset - start := by
    rw [e6, if_neg (by omega)]
  by_cases h : end_ < u32 (i32 (cut - offset))
  · have e8 : i32 (end_ : Int) = end_ := i32_eq (by omega) (by omega)
    refine ⟨end_, (cut - offset - start).toNat, ?_, ?_, ?_, ?_, ?_, ?_, ?_, ?_, ?_, ?_⟩
    · rw [if_pos h, e8]
    · rw [hl]; omega
    · unfold u32; omega
    · unfold u32; omega
    · unfold u32; omega
    · unfold i32; omega
    · omega
    · omega
    · omega
    · rw [min_def]; split <;> omega
  · have e9 : i32 (cut - offset) = cut - offset := i32_eq (by omega) (by omega)
    refine ⟨(cut - offset).toNat, (cut - offset - start).toNat, ?_, ?_, ?_, ?_, ?_, ?_, ?_, ?_, ?_, ?_⟩
    · rw [if_neg h, e9]; omega
    · rw [hl]; omega
    · unfold u32; omega
    · unfold u32; omega
    · unfold u32; omega
    · unfold i32; omega
    · omega
    · omega
    · omega
    · rw [min_def]; split <;> omega

theorem gather_post (cut : Int) (hc : FitsInt cut) : ∀ (src : List frag) (offset : Int),
    FitsInt offset → gatherNoWrap src cut offset →
    (∀ h ∈ (gather [] src cut offset).2.1.head?, cut ≤ (h.start : Int) + (gather [] src cut offset).2.2) ∧
    (gatherEnding src cut offset = .brokeUp →
      ∃ h, (gather [] src cut offset).2.1.head? = some h ∧
        (h.start : Int) + (gather [] src cut offset).2.2 = cut) ∧
    (gatherEnding src cut offset = .exhausted ↔ (gather [] src cut offset).2.1 = []) := by
  intro src
  induction src with
  | nil =>
    intro offset _ _
    refine ⟨?_, ?_, ?_⟩
    · intro h hh
      simp [gather] at hh
    · intro hh
      simp [gatherEnding] at hh
    · simp [gather, gatherEnding]
  | cons s rest ih =>
    intro offset ho hnw
    obtain ⟨hcut, hs0, hs1, hrest⟩ := hnw
    have hcc := hc
    have hoo := ho
    unfold FitsInt at hcc hoo
    have eu1 : (u32 ((s.start : Int) + offset) : Int) = s.start + offset := u32_eq hs0 hs1
    have eu2 : (u32 cut : Int) = cut := u32_eq hcut (by omega)
    by_cases h1 : u32 (s.start + offset) ≥ u32 cut
    · rw [gather_cons_stop h1]
      have he : gatherEnding (s :: rest) cut offset = .farEnough := by
        simp only [gatherEnding, h1, if_true]
      rw [he]
      refine ⟨?_, fun hh => (by cases hh), ⟨fun hh => (by cases hh), fun hh => (by cases hh)⟩⟩
      intro h hh
      simp only [List.head?_cons, Option.mem_def, Option.some.injEq] at hh
      subst hh
      have : (u32 cut : Int) ≤ u32 ((s.start : Int) + offset) := by exact_mod_cast h1
      show cut ≤ (s.start : Int) + offset
      omega
    · have hlt : (s.start : Int) + offset < cut := by omega
      obtain ⟨hpe, hwhole, hsplit⟩ := hrest hlt
      have epe : i32 (offset + s.start + s.len) = offset + s.start + s.len :=
        i32_eq hpe.1 hpe.2
      by_cases h2 : i32 (offset + s.start + s.len) ≤ cut
      · obtain ⟨hno, hr⟩ := hwhole (by omega)
        have eno : i32 (offset + (s.start + s.len - s.end_)) = offset + (s.start + s.len - s.end_) :=
          i32_eq hno.1 hno.2
        have he : gatherEnding (s :: rest) cut offset =
            gatherEnding rest cut (i32 (offset + (s.start + s.len - s.end_))) := by
          simp only [gatherEnding, h1, h2, if_true, if_false]
        rw [he, gather_cons_whole h1 h2, gather_dest, eno]
        exact ih (offset + (s.start + s.len - s.end_)) hno hr
      · have hw : cut < offset + s.start + s.len := by omega
        obtain ⟨c, l, q1, q2, q3, q4, q5, q6, q7, q8, q9, q10⟩ :=
          @split_exact s.start s.end_ s.len cut offset hs0 hlt hw (hsplit hw).1 (hsplit hw).2 hc ho
        have he : gatherEnding (s :: rest) cut offset = .brokeUp := by
          simp only [gatherEnding, h1, h2, if_false]
        rw [he, gather_cons_split h1 h2, q1, q2, q3, q4, q5, q6]
        refine ⟨?_, fun _ => ⟨_, rfl, ?_⟩, ⟨fun hh => (by cases hh), fun hh => (by cases hh)⟩⟩
        · intro h hh
          simp only [List.head?_cons, Option.mem_def, Option.some.injEq] at hh
          subst hh
          show cut ≤ (c : Int) + (cut - c)
          omega
        · show (c : Int) + (cut - c) = cut
          omega

/-- C27. When no sum or conversion wraps around: after
`gather(dest, src, cut, offset)` has returned `offset'`, `src` is empty or its
head fragment has `start + offset' >= cut`; when the call ended by breaking up
a fragment, `src` has a head and `start + offset' = cut`; `src` is empty
exactly when the loop ran through all of it; and `discard(src, cut, offset)`
returns the same offset and leaves the same `src`, so the same holds of it. -/
theorem C27_gather_postcondition (dest src : List frag) (cut offset : Int)
    (hc : FitsInt cut) (ho : FitsInt offset) (hnw : gatherNoWrap src cut offset) :
    (∀ h ∈ (gather dest src cut offset).2.1.head?,
      cut ≤ (h.start : Int) + (gather dest src cut offset).2.2) ∧
    (gatherEnding src cut offset = .brokeUp →
      ∃ h, (gather dest src cut offset).2.1.head? = some h ∧
        (h.start : Int) + (gather dest src cut offset).2.2 = cut) ∧
    (gatherEnding src cut offset = .exhausted ↔ (gather dest src cut offset).2.1 = []) ∧
    (∀ h ∈ (discard src cut offset).1.head?, cut ≤ (h.start : Int) + (discard src cut offset).2) ∧
    (gatherEnding src cut offset = .brokeUp →
      ∃ h, (discard src cut offset).1.head? = some h ∧
        (h.start : Int) + (discard src cut offset).2 = cut) := by
  rw [discard_eq_gather [], gather_dest]
  obtain ⟨h1, h2, h3⟩ := gather_post cut hc src offset ho hnw
  exact ⟨h1, h2, h3, h1, h2⟩

/-- C27, witness: `src = [(0, 5, len 2), (6, 11, len 5), (20, 25, len 1)]` with
`cut = 5` and `offset = 0`: the second fragment is broken up at 8 and the
offset returned is -3. -/
theorem C27_gather_postcondition_witness :
    gatherEnding
      [⟨0, 5, 2, ⟨bytes "HI", 0⟩⟩, ⟨6, 11, 5, ⟨bytes "THERE", 0⟩⟩, ⟨20, 25, 1, ⟨bytes "!", 0⟩⟩]
      5 0 = .brokeUp ∧
    ∃ h, (discard
        [⟨0, 5, 2, ⟨bytes "HI", 0⟩⟩, ⟨6, 11, 5, ⟨bytes "THERE", 0⟩⟩, ⟨20, 25, 1, ⟨bytes "!", 0⟩⟩]
        5 0).1.head? = some h ∧
      (h.start : Int) + (discard
        [⟨0, 5, 2, ⟨bytes "HI", 0⟩⟩, ⟨6, 11, 5, ⟨bytes "THERE", 0⟩⟩, ⟨20, 25, 1, ⟨bytes "!", 0⟩⟩]
        5 0).2 = 5 :=
  ⟨by decide,
    (C27_gather_postcondition []
      [⟨0, 5, 2, ⟨bytes "HI", 0⟩⟩, ⟨6, 11, 5, ⟨bytes "THERE", 0⟩⟩, ⟨20, 25, 1, ⟨bytes "!", 0⟩⟩]
      5 0 (by decide) (by decide) (by decide)).2.2.2.2 (by decide)⟩

end Mpatch
namespace Mpatch

/-! ## What `gather` moves -/

theorem gather_moves (cut : Int) (hc : FitsInt cut) : ∀ (src : List frag) (offset : Int),
    FitsInt offset → gatherNoWrap src cut offset →
    ((src = (gather [] src cut offset).1 ++ (gather [] src cut offset).2.1 ∧
        takenWhole cut offset (gather [] src cut offset).1) ∨
     ∃ (pre : List frag) (s : frag) (tl : List frag) (c l : Nat),
      src = pre ++ s :: tl ∧
      (gather [] src cut offset).1 = pre ++ [⟨s.start, c, l, s.data⟩] ∧
      (gather [] src cut offset).2.1 = ⟨c, s.end_, s.len - l, s.data.add l⟩ :: tl ∧
      takenWhole cut offset pre ∧
      (l : Int) = cut - (offset + growth pre) - s.start ∧ 0 < l ∧ l < s.len ∧
      (c : Int) = min (s.end_ : Int) (cut - (offset + growth pre))) := by
  intro src
  induction src with
  | nil =>
    intro offset _ _
    exact Or.inl ⟨by simp [gather], trivial⟩
  | cons s rest ih =>
    intro offset ho hnw
    obtain ⟨hcut, hs0, hs1, hrest⟩ := hnw
    have hcc := hc
    have hoo := ho
    unfold FitsInt at hcc hoo
    have eu1 : (u32 ((s.start : Int) + offset) : Int) = s.start + offset := u32_eq hs0 hs1
    have eu2 : (u32 cut : Int) = cut := u32_eq hcut (by omega)
    by_cases h1 : u32 (s.start + offset) ≥ u32 cut
    · rw [gather_cons_stop h1]
      exact Or.inl ⟨rfl, trivial⟩
    · have hlt : (s.start : Int) + offset < cut := by omega
      obtain ⟨hpe, hwhole, hsplit⟩ := hrest hlt
      have epe : i32 (offset + s.start + s.len) = offset + s.start + s.len :=
        i32_eq hpe.1 hpe.2
      by_cases h2 : i32 (offset + s.start + s.len) ≤ cut
      · obtain ⟨hno, hr⟩ := hwhole (by omega)
        have eno : i32 (offset + (s.start + s.len - s.end_)) = offset + (s.start + s.len - s.end_) :=
          i32_eq hno.1 hno.2
        have e : offset + ((s.len : Int) - ((s.end_ : Int) - s.start))
            = offset + (s.start + s.len - s.end_) := by omega
        have i2 := ih (offset + (s.start + s.len - s.end_)) hno hr
        rw [gather_cons_whole h1 h2, gather_dest, eno]
        rcases i2 with ⟨i2, i3⟩ | ⟨pre, s0, tl, c, l, q1, q2, q3, q4, q5, q6, q7, q8⟩
        · left
          refine ⟨?_, ?_⟩
          · show s :: rest = ([] ++ [s] ++ (gather [] rest cut _).1) ++ (gather [] rest cut _).2.1
            rw [List.nil_append, List.singleton_append, List.cons_append, ← i2]
          · show takenWhole cut offset ([] ++ [s] ++ (gather [] rest cut _).1)
            rw [List.nil_append, List.singleton_append]
            refine ⟨by omega, ?_⟩
            rw [e]
            exact i3
        · right
          have hg : offset + growth (s :: pre) = offset + (s.start + s.len - s.end_) + growth pre := by
            rw [growth_cons]
            omega
          refine ⟨s :: pre, s0, tl, c, l, by rw [q1]; rfl, ?_, q3, ?_, ?_, q6, q7, ?_⟩
          · show [] ++ [s] ++ (gather [] rest cut _).1 = _
            rw [q2]
            rfl
          · refine ⟨by omega, ?_⟩
            rw [e]
            exact q4
          · rw [hg]
            exact q5
          · rw [hg]
            exact q8
      · have hw : cut < offset + s.start + s.len := by omega
        obtain ⟨c, l, q1, q2, q3, q4, q5, q6, q7, q8, q9, q10⟩ :=
          @split_exact s.start s.end_ s.len cut offset hs0 hlt hw (hsplit hw).1 (hsplit hw).2 hc ho
        rw [gather_cons_split h1 h2, q1, q2, q3, q4, q5]
        have hg : offset + growth [] = offset := by rw [growth_nil]; omega
        refine Or.inr ⟨[], s, rest, c, l, rfl, rfl, rfl, trivial, ?_, q8, q9, ?_⟩
        · rw [hg]
          exact q7
        · rw [hg]
          exact q10

/-- C20. When no sum or conversion wraps around, `gather(dest, src, cut, offset)`
leaves the fragments of `dest` as they are and appends to them a list `app`
that is the front of `src` in order (whole fragments, the last one possibly
the first part of a fragment broken up, whose rest stays at the head of
`src`); it returns `offset` plus the sum over `app` of `len - (end - start)`;
each fragment was taken with its `start` plus the offset running before it
below `cut`; and it goes on as long as that holds: what is left of `src` is
empty or its head has `start + offset' >= cut` for the offset `offset'`
returned. The fragments moved whole are those that end at or before `cut`
(`postend <= cut`); a fragment `(start, end, len, data)` that starts below `cut`
and ends beyond it is broken up into `(start, c, l, data)` and
`(c, end, len - l, data + l)` with `l = cut - o - start`, `0 < l < len` and
`c = min(end, cut - o)`, where `o` is the offset running before it. -/
theorem C20_gather_appends (dest src : List frag) (cut offset : Int)
    (hc : FitsInt cut) (ho : FitsInt offset) (hnw : gatherNoWrap src cut offset) :
    (∀ h ∈ (gather dest src cut offset).2.1.head?,
      cut ≤ (h.start : Int) + (gather dest src cut offset).2.2) ∧
    ∃ app, (gather dest src cut offset).1 = dest ++ app ∧
      FrontOf src app (gather dest src cut offset).2.1 ∧
      (gather dest src cut offset).2.2 = offset + growth app ∧
      takenBelow cut offset app ∧
      ((src = app ++ (gather dest src cut offset).2.1 ∧ takenWhole cut offset app) ∨
       ∃ (pre : List frag) (s : frag) (tl : List frag) (c l : Nat),
        src = pre ++ s :: tl ∧ app = pre ++ [⟨s.start, c, l, s.data⟩] ∧
        (gather dest src cut offset).2.1 = ⟨c, s.end_, s.len - l, s.data.add l⟩ :: tl ∧
        takenWhole cut offset pre ∧
        (l : Int) = cut - (offset + growth pre) - s.start ∧ 0 < l ∧ l < s.len ∧
        (c : Int) = min (s.end_ : Int) (cut - (offset + growth pre))) := by
  obtain ⟨h1, h2, h3⟩ := gather_nowrap cut hc src offset ho hnw
  obtain ⟨p1, -, -⟩ := gather_post cut hc src offset ho hnw
  have hm := gather_moves cut hc src offset ho hnw
  rw [gather_dest]
  exact ⟨p1, _, rfl, h2, h1, h3, hm⟩

/-- C20, witness: `src = [(0, 5, len 2), (6, 11, len 5), (20, 25, len 1)]` with
`cut = 5` and `offset = 0`: the first fragment is moved whole, the second is
broken up into `(6, 8, len 2)` and `(8, 11, len 3)`, the third stays, the offset
returned is -3 and `8 - 3 = 5` is the cut. -/
theorem C20_gather_appends_witness :
    gather [⟨0, 0, 0, ⟨[], 0⟩⟩]
        [⟨0, 5, 2, ⟨bytes "HI", 0⟩⟩, ⟨6, 11, 5, ⟨bytes "THERE", 0⟩⟩, ⟨20, 25, 1, ⟨bytes "!", 0⟩⟩]
        5 0 =
      ([⟨0, 0, 0, ⟨[], 0⟩⟩, ⟨0, 5, 2, ⟨bytes "HI", 0⟩⟩, ⟨6, 8, 2, ⟨bytes "THERE", 0⟩⟩],
       [⟨8, 11, 3, ⟨bytes "THERE", 2⟩⟩, ⟨20, 25, 1, ⟨bytes "!", 0⟩⟩], -3) ∧
    (∀ h ∈ (gather [⟨0, 0, 0, ⟨[], 0⟩⟩]
        [⟨0, 5, 2, ⟨bytes "HI", 0⟩⟩, ⟨6, 11, 5, ⟨bytes "THERE", 0⟩⟩, ⟨20, 25, 1, ⟨bytes "!", 0⟩⟩]
        5 0).2.1.head?,
      (5 : Int) ≤ (h.start : Int) + (gather [⟨0, 0, 0, ⟨[], 0⟩⟩]
        [⟨0, 5, 2, ⟨bytes "HI", 0⟩⟩, ⟨6, 11, 5, ⟨bytes "THERE", 0⟩⟩, ⟨20, 25, 1, ⟨bytes "!", 0⟩⟩]
        5 0).2.2) :=
  ⟨by decide,
    (C20_gather_appends [⟨0, 0, 0, ⟨[], 0⟩⟩]
      [⟨0, 5, 2, ⟨bytes "HI", 0⟩⟩, ⟨6, 11, 5, ⟨bytes "THERE", 0⟩⟩, ⟨20, 25, 1, ⟨bytes "!", 0⟩⟩]
      5 0 (by decide) (by decide) (by decide)).1⟩

end Mpatch
namespace Mpatch

/-! ## `gather` re-partitions its source -/

theorem dataOf_append (xs ys : List frag) : dataOf (xs ++ ys) = dataOf xs ++ dataOf ys := by
  induction xs with
  | nil => rfl
  | cons f r ih =>
    show f.data.read f.len ++ dataOf (r ++ ys) = (f.data.read f.len ++ dataOf r) ++ dataOf ys
    rw [ih, List.append_assoc]

theorem dataOf_cons (f : frag) (r : List frag) : dataOf (f :: r) = f.data.read f.len ++ dataOf r :=
  rfl

theorem dataOf_singleton (f : frag) : dataOf [f] = f.data.read f.len := by
  rw [dataOf_cons]
  exact List.append_nil _

theorem read_split (p : ptr) {l n : Nat} (h : l ≤ n) (h0 : 0 ≤ p.off) :
    p.read l ++ (p.add l).read (n - l) = p.read n := by
  rw [← read_take p h, ← read_drop p h0, List.take_append_drop]

theorem den_prefix (T : List UInt8) (stop : Nat) {xs ys : List frag}
    (h : ∀ last, den T last xs stop = den T last ys stop) :
    ∀ (pre : List frag) (last : Nat), den T last (pre ++ xs) stop = den T last (pre ++ ys) stop := by
  intro pre
  induction pre with
  | nil => intro last; exact h last
  | cons f r ih =>
    intro last
    show seg T last f.start ++ (f.data.read f.len ++ den T f.end_ (r ++ xs) stop) =
      seg T last f.start ++ (f.data.read f.len ++ den T f.end_ (r ++ ys) stop)
    rw [ih]

theorem den_split (T : List UInt8) (last stop : Nat) (s : frag) (tl : List frag) {c l : Nat}
    (hl : l ≤ s.len) (h0 : 0 ≤ s.data.off) :
    den T last (⟨s.start, c, l, s.data⟩ :: ⟨c, s.end_, s.len - l, s.data.add l⟩ :: tl) stop =
      den T last (s :: tl) stop := by
  simp only [den, seg_self, List.nil_append]
  rw [← List.append_assoc (s.data.read l), read_split s.data hl h0]

theorem gather_parts (cut : Int) (hc : FitsInt cut) : ∀ (src : List frag) (offset : Int),
    FitsInt offset → gatherNoWrap src cut offset → (∀ f ∈ src, f.start ≤ f.end_) →
    (src = (gather [] src cut offset).1 ++ (gather [] src cut offset).2.1 ∨
     ∃ (pre : List frag) (s : frag) (tl : List frag) (c l : Nat),
      src = pre ++ s :: tl ∧
      (gather [] src cut offset).1 = pre ++ [⟨s.start, c, l, s.data⟩] ∧
      (gather [] src cut offset).2.1 = ⟨c, s.end_, s.len - l, s.data.add l⟩ :: tl ∧
      0 < l ∧ l < s.len ∧ s.start ≤ c ∧ c ≤ s.end_) := by
  intro src
  induction src with
  | nil =>
    intro offset _ _ _
    exact Or.inl (by simp [gather])
  | cons s rest ih =>
    intro offset ho hnw hse
    obtain ⟨hcut, hs0, hs1, hrest⟩ := hnw
    have hcc := hc
    have hoo := ho
    unfold FitsInt at hcc hoo
    have eu1 : (u32 ((s.start : Int) + offset) : Int) = s.start + offset := u32_eq hs0 hs1
    have eu2 : (u32 cut : Int) = cut := u32_eq hcut (by omega)
    by_cases h1 : u32 (s.start + offset) ≥ u32 cut
    · rw [gather_cons_stop h1]
      exact Or.inl rfl
    · have hlt : (s.start : Int) + offset < cut := by omega
      obtain ⟨hpe, hwhole, hsplit⟩ := hrest hlt
      have epe : i32 (offset + s.start + s.len) = offset + s.start + s.len :=
        i32_eq hpe.1 hpe.2
      by_cases h2 : i32 (offset + s.start + s.len) ≤ cut
      · obtain ⟨hno, hr⟩ := hwhole (by omega)
        have eno : i32 (offset + (s.start + s.len - s.end_)) = offset + (s.start + s.len - s.end_) :=
          i32_eq hno.1 hno.2
        have i2 := ih (offset + (s.start + s.len - s.end_)) hno hr
          (fun f hf => hse f (List.mem_cons_of_mem _ hf))
        rw [gather_cons_whole h1 h2, gather_dest, eno]
        rcases i2 with i2 | ⟨pre, s0, tl, c, l, q1, q2, q3, q4⟩
        · left
          show s :: rest = ([] ++ [s] ++ (gather [] rest cut _).1) ++ (gather [] rest cut _).2.1
          rw [List.nil_append, List.singleton_append, List.cons_append, ← i2]
        · right
          refine ⟨s :: pre, s0, tl, c, l, by rw [q1]; rfl, ?_, q3, q4⟩
          show [] ++ [s] ++ (gather [] rest cut _).1 = _
          rw [q2]
          rfl
      · have hw : cut < offset + s.start + s.len := by omega
        have hle := hse s (List.mem_cons_self _ _)
        obtain ⟨c, l, q1, q2, q3, q4, q5, q6, q7, q8, q9, q10⟩ :=
          @split_exact s.start s.end_ s.len cut offset hs0 hlt hw (hsplit hw).1 (hsplit hw).2 hc ho
        rw [gather_cons_split h1 h2, q1, q2, q3, q4, q5]
        refine Or.inr ⟨[], s, rest, c, l, rfl, rfl, rfl, q8, q9, ?_, ?_⟩
        · have := min_def (s.end_ : Int) (cut - offset)
          split at this <;> omega
        · have := min_le_left (s.end_ : Int) (cut - offset)
          omega

/-- C21, as the code has it. When no sum or conversion of
`gather(dest, src, cut, offset)` wraps around, every fragment of `src` has
`start <= end` and every `data` points into its buffer: what `gather` appends
to `dest`, followed by what it leaves in `src`, is `src` itself, or is `src`
with one fragment `(start, end, len, data)` replaced by the two parts
`(start, c, l, data)` and `(c, end, len - l, data + l)`, the first the last one
appended and the second the head of what is left, with `0 < l < len` and
`start <= c <= end`; the two lists together have the concatenated replacement
data of `src`, and they denote the patch `src` denotes. -/
theorem C21_gather_repartitions (dest src : List frag) (cut offset : Int)
    (hc : FitsInt cut) (ho : FitsInt offset) (hnw : gatherNoWrap src cut offset)
    (hse : ∀ f ∈ src, f.start ≤ f.end_) (hd : ∀ f ∈ src, 0 ≤ f.data.off) :
    ∃ app, (gather dest src cut offset).1 = dest ++ app ∧
      (src = app ++ (gather dest src cut offset).2.1 ∨
       ∃ (pre : List frag) (s : frag) (tl : List frag) (c l : Nat),
        src = pre ++ s :: tl ∧ app = pre ++ [⟨s.start, c, l, s.data⟩] ∧
        (gather dest src cut offset).2.1 = ⟨c, s.end_, s.len - l, s.data.add l⟩ :: tl ∧
        0 < l ∧ l < s.len ∧ s.start ≤ c ∧ c ≤ s.end_) ∧
      dataOf (app ++ (gather dest src cut offset).2.1) = dataOf src ∧
      ∀ (T : List UInt8) (last stop : Nat),
        den T last (app ++ (gather dest src cut offset).2.1) stop = den T last src stop := by
  have hp := gather_parts cut hc src offset ho hnw hse
  rw [gather_dest]
  refine ⟨_, rfl, hp, ?_, ?_⟩
  · rcases hp with hp | ⟨pre, s, tl, c, l, q1, q2, q3, q4, q5, q6, q7⟩
    · exact congrArg dataOf hp.symm
    · have h0 := hd s (by rw [q1]; exact List.mem_append_right _ (List.mem_cons_self _ _))
      show dataOf ((gather [] src cut offset).1 ++ (gather [] src cut offset).2.1) = _
      rw [q2, q3, q1, List.append_assoc, dataOf_append, dataOf_append, dataOf_append,
        dataOf_singleton, dataOf_cons, dataOf_cons]
      show dataOf pre ++ (s.data.read l ++ ((s.data.add l).read (s.len - l) ++ dataOf tl)) =
        dataOf pre ++ (s.data.read s.len ++ dataOf tl)
      rw [← List.append_assoc (s.data.read l), read_split s.data (by omega) h0]
  · intro T last stop
    rcases hp with hp | ⟨pre, s, tl, c, l, q1, q2, q3, q4, q5, q6, q7⟩
    · exact congrArg (fun x => den T last x stop) hp.symm
    · have h0 := hd s (by rw [q1]; exact List.mem_append_right _ (List.mem_cons_self _ _))
      show den T last ((gather [] src cut offset).1 ++ (gather [] src cut offset).2.1) stop = _
      rw [q2, q3, q1, List.append_assoc]
      exact den_prefix T stop (fun la => den_split T la stop s tl (by omega) h0) pre last

/-- C21, witness: `src = [(0, 5, "HI"), (6, 11, "THERE"), (20, 25, "!")]` with
`cut = 5` and `offset = 0`: the second fragment is broken up into
`(6, 8, "TH")` and `(8, 11, "ERE")`. -/
theorem C21_gather_repartitions_witness :
    gather []
      [⟨0, 5, 2, ⟨bytes "HI", 0⟩⟩, ⟨6, 11, 5, ⟨bytes "THERE", 0⟩⟩, ⟨20, 25, 1, ⟨bytes "!", 0⟩⟩]
      5 0 =
      ([⟨0, 5, 2, ⟨bytes "HI", 0⟩⟩, ⟨6, 8, 2, ⟨bytes "THERE", 0⟩⟩],
       [⟨8, 11, 3, ⟨bytes "THERE", 2⟩⟩, ⟨20, 25, 1, ⟨bytes "!", 0⟩⟩], -3) ∧
    ∃ app, (gather []
        [⟨0, 5, 2, ⟨bytes "HI", 0⟩⟩, ⟨6, 11, 5, ⟨bytes "THERE", 0⟩⟩, ⟨20, 25, 1, ⟨bytes "!", 0⟩⟩]
        5 0).1 = [] ++ app ∧
      dataOf (app ++ (gather []
        [⟨0, 5, 2, ⟨bytes "HI", 0⟩⟩, ⟨6, 11, 5, ⟨bytes "THERE", 0⟩⟩, ⟨20, 25, 1, ⟨bytes "!", 0⟩⟩]
        5 0).2.1) =
      dataOf
        [⟨0, 5, 2, ⟨bytes "HI", 0⟩⟩, ⟨6, 11, 5, ⟨bytes "THERE", 0⟩⟩, ⟨20, 25, 1, ⟨bytes "!", 0⟩⟩] :=
  ⟨by decide,
    (C21_gather_repartitions []
      [⟨0, 5, 2, ⟨bytes "HI", 0⟩⟩, ⟨6, 11, 5, ⟨bytes "THERE", 0⟩⟩, ⟨20, 25, 1, ⟨bytes "!", 0⟩⟩]
      5 0 (by decide) (by decide) (by decide) (by decide) (by decide)).imp
      (fun _ h => ⟨h.1, h.2.2.1⟩)⟩

/-- C21 fails when a sum wraps around: for the one fragment
`(4294967295, 4294967295, len 20)`, whose `start <= end`, with `cut = 15` and
`offset = 10`, the unsigned sum `start + offset` wraps around to 9, the
fragment is broken up, and the part appended is `(4294967295, 5, len 6)`: its
`c = 5` is below its `start`. -/
theorem C21_split_below_start :
    (∀ f ∈ [(⟨4294967295, 4294967295, 20, ⟨List.replicate 20 7, 0⟩⟩ : frag)], f.start ≤ f.end_) ∧
    gather [] [⟨4294967295, 4294967295, 20, ⟨List.replicate 20 7, 0⟩⟩] 15 10 =
      ([⟨4294967295, 5, 6, ⟨List.replicate 20 7, 0⟩⟩],
       [⟨5, 4294967295, 14, ⟨List.replicate 20 7, 6⟩⟩], 10) ∧
    ¬ ∃ (c l : Nat),
      (gather [] [⟨4294967295, 4294967295, 20, ⟨List.replicate 20 7, 0⟩⟩] 15 10).1 =
        [⟨4294967295, c, l, ⟨List.replicate 20 7, 0⟩⟩] ∧ 4294967295 ≤ c := by
  have h : gather [] [⟨4294967295, 4294967295, 20, ⟨List.replicate 20 7, 0⟩⟩] 15 10 =
      ([⟨4294967295, 5, 6, ⟨List.replicate 20 7, 0⟩⟩],
       [⟨5, 4294967295, 14, ⟨List.replicate 20 7, 6⟩⟩], 10) := by decide
  refine ⟨by decide, h, ?_⟩
  rw [h]
  rintro ⟨c, l, hc, hle⟩
  injection hc with hc _
  injection hc with _ hc
  omega

end Mpatch
namespace Mpatch

/-! ## `combine` rearranges, it does not copy -/

theorem IsSlice.refl (s : frag) : IsSlice s s := ⟨rfl, le_refl _, le_refl _⟩

theorem IsSlice.trans {s m p : frag} (h1 : IsSlice s m) (h2 : IsSlice m p) : IsSlice s p := by
  obtain ⟨a1, a2, a3⟩ := h1
  obtain ⟨b1, b2, b3⟩ := h2
  exact ⟨b1.trans a1, by omega, by omega⟩

theorem Woven.widen {s m : frag} (hs : IsSlice s m) {x b out : List frag} (h : Woven x b out) :
    ∀ a, x = m :: a → Woven (s :: a) b out := by
  induction h with
  | done => intro a e; cases e
  | next s0 a0 b0 out0 h0 _ =>
    intro a e
    injection e with e1 e2
    subst e2
    exact Woven.next _ _ _ _ h0
  | piece s0 p a0 b0 out0 hp _ ih =>
    intro a e
    injection e with e1 e2
    subst e1
    subst e2
    exact Woven.piece _ _ _ _ _ (hs.trans hp) (ih _ rfl)
  | hunk h0 bh a0 b0 out0 e1 e2 _ ih =>
    intro a e
    exact Woven.hunk _ _ _ _ _ e1 e2 (ih a e)

theorem Woven.left (a : List frag) : Woven a [] a := by
  induction a with
  | nil => exact Woven.done
  | cons s r ih => exact Woven.piece _ _ _ _ _ (IsSlice.refl s) (Woven.next _ _ _ _ ih)

theorem i32_range (x : Int) : -2147483648 ≤ i32 x ∧ i32 x < 2147483648 := by
  unfold i32; omega

theorem split_len {len : Nat} (l0 : Int) (h0 : -2147483648 ≤ l0) (h1 : l0 < 2147483648)
    (hlen : len < 2147483648) :
    ∃ l : Nat, (if len < u32 l0 then i32 len else l0) = (l : Int) ∧ l ≤ len ∧
      u32 (l : Int) = l ∧ u32 ((len : Int) - l) = len - l := by
  by_cases h : len < u32 l0
  · refine ⟨len, ?_, le_refl _, ?_, ?_⟩
    · rw [if_pos h]; exact i32_eq (by omega) (by omega)
    · unfold u32; omega
    · unfold u32; omega
  · have hu : ¬ ((len : Int) < u32 l0) := by exact_mod_cast h
    have h2 : 0 ≤ l0 := by
      unfold u32 at hu
      omega
    have h3 : l0 ≤ len := by
      unfold u32 at hu
      omega
    refine ⟨l0.toNat, ?_, ?_, ?_, ?_⟩
    · rw [if_neg h]; omega
    · omega
    · unfold u32; omega
    · unfold u32; omega

theorem gather_woven : ∀ (src : List frag) (cut offset : Int),
    (∀ s ∈ src, s.len < 2147483648) →
    (∀ s ∈ (gather [] src cut offset).2.1, s.len < 2147483648) ∧
    ∀ b out, Woven (gather [] src cut offset).2.1 b out →
      Woven src b ((gather [] src cut offset).1 ++ out) ∧ Woven src b out := by
  intro src
  induction src with
  | nil =>
    intro cut offset hl
    refine ⟨fun s hs => (by simp [gather] at hs), fun b out h => ?_⟩
    exact ⟨h, h⟩
  | cons s rest ih =>
    intro cut offset hl
    by_cases h1 : u32 (s.start + offset) ≥ u32 cut
    · rw [gather_cons_stop h1]
      exact ⟨hl, fun b out h => ⟨h, h⟩⟩
    · by_cases h2 : i32 (offset + s.start + s.len) ≤ cut
      · rw [gather_cons_whole h1 h2, gather_dest]
        obtain ⟨i1, i2⟩ := ih cut (i32 (offset + (s.start + s.len - s.end_)))
          (fun f hf => hl f (List.mem_cons_of_mem _ hf))
        refine ⟨i1, fun b out h => ?_⟩
        obtain ⟨j1, j2⟩ := i2 b out h
        refine ⟨?_, Woven.next _ _ _ _ j2⟩
        show Woven (s :: rest) b (([] ++ [s] ++ (gather [] rest cut _).1) ++ out)
        rw [List.nil_append, List.singleton_append, List.cons_append]
        exact Woven.piece _ _ _ _ _ (IsSlice.refl s) (Woven.next _ _ _ _ j1)
      · have hs := hl s (List.mem_cons_self _ _)
        obtain ⟨r1, r2⟩ := i32_range (cut - offset - s.start)
        obtain ⟨l, q1, q2, q3, q4⟩ := split_len (i32 (cut - offset - s.start)) r1 r2 hs
        rw [gather_cons_split h1 h2, q1, q3, q4]
        have hs2 : IsSlice s ⟨u32 (if s.end_ < u32 (i32 (cut - offset)) then i32 s.end_
            else i32 (cut - offset)), s.end_, s.len - l, s.data.add l⟩ := by
          refine ⟨rfl, ?_, ?_⟩
          · show s.data.off ≤ s.data.off + l
            omega
          · show s.data.off + l + ((s.len - l : Nat) : Int) ≤ s.data.off + s.len
            omega
        have hd : IsSlice s ⟨s.start, u32 (if s.end_ < u32 (i32 (cut - offset)) then i32 s.end_
            else i32 (cut - offset)), l, s.data⟩ := by
          refine ⟨rfl, le_refl _, ?_⟩
          show s.data.off + (l : Int) ≤ s.data.off + s.len
          omega
        refine ⟨?_, fun b out h => ?_⟩
        · intro f hf
          rcases List.mem_cons.1 hf with hf | hf
          · subst hf
            show s.len - l < 2147483648
            omega
          · exact hl f (List.mem_cons_of_mem _ hf)
        · have hw := Woven.widen hs2 h rest rfl
          exact ⟨Woven.piece _ _ _ _ _ hd hw, hw⟩

theorem combineLoop_woven (b : List frag) : ∀ (a : List frag) (offset : Int),
    (∀ s ∈ a, s.len < 2147483648) →
    Woven a b ((combineLoop [] a b offset).1 ++ (combineLoop [] a b offset).2) := by
  induction b with
  | nil =>
    intro a offset _
    exact Woven.left a
  | cons bh bt ih =>
    intro a offset hl
    rw [combineLoop_cons]
    obtain ⟨g1, g2⟩ := gather_woven a (i32 bh.start) offset hl
    obtain ⟨d1, d2⟩ := gather_woven (gather [] a (i32 bh.start) offset).2.1 (i32 bh.end_)
      (gather [] a (i32 bh.start) offset).2.2 g1
    have hrec := ih _ (gather [] (gather [] a (i32 bh.start) offset).2.1 (i32 bh.end_)
      (gather [] a (i32 bh.start) offset).2.2).2.2 d1
    have hh := Woven.hunk ⟨u32 (bh.start - (gather [] a (i32 bh.start) offset).2.2),
      u32 (bh.end_ - (gather [] (gather [] a (i32 bh.start) offset).2.1 (i32 bh.end_)
        (gather [] a (i32 bh.start) offset).2.2).2.2), bh.len, bh.data⟩ bh _ _ _ rfl rfl hrec
    have h3 := (g2 _ _ (d2 _ _ hh).2).1
    simp only [List.append_assoc, List.cons_append] at h3 ⊢
    exact h3

/-- C23, as the code has it. For every `a` whose fragments have `len` below
`2^31` and every `b`, the output of `combine(a, b)` is woven from `a` and `b`:
it holds exactly one fragment for each fragment of `b`, in the order of `b`,
with the `len` and the `data` pointer of that fragment; every other fragment
of it has as data a contiguous slice of the data of one fragment of `a` (the
same buffer, inside its `len` bytes), and these slices come in the order of
`a`. No byte is copied or changed: only pointers and lengths are. -/
theorem C23_combine_weaves (a b : List frag) (h : ∀ s ∈ a, s.len < 2147483648) :
    Woven a b (combine a b) :=
  combineLoop_woven b a 0 h

/-- C23, witness: `a = [(0, 4, "abcd"), (6, 6, "xy")]` and `b = [(2, 3, "Q")]`:
the first fragment of `a` is broken up around the hunk of `b`. -/
theorem C23_combine_weaves_witness :
    (combine [⟨0, 4, 4, ⟨bytes "abcd", 0⟩⟩, ⟨6, 6, 2, ⟨bytes "xy", 0⟩⟩] [⟨2, 3, 1, ⟨bytes "Q", 0⟩⟩]).map
        (fun f => (f.start, f.end_, f.len, f.data.off)) =
      [(0, 2, 2, 0), (2, 3, 1, 0), (3, 4, 1, 3), (6, 6, 2, 0)] ∧
    Woven [⟨0, 4, 4, ⟨bytes "abcd", 0⟩⟩, ⟨6, 6, 2, ⟨bytes "xy", 0⟩⟩] [⟨2, 3, 1, ⟨bytes "Q", 0⟩⟩]
      (combine [⟨0, 4, 4, ⟨bytes "abcd", 0⟩⟩, ⟨6, 6, 2, ⟨bytes "xy", 0⟩⟩]
        [⟨2, 3, 1, ⟨bytes "Q", 0⟩⟩]) :=
  ⟨by decide,
    C23_combine_weaves [⟨0, 4, 4, ⟨bytes "abcd", 0⟩⟩, ⟨6, 6, 2, ⟨bytes "xy", 0⟩⟩]
      [⟨2, 3, 1, ⟨bytes "Q", 0⟩⟩] (by decide)⟩

theorem Woven.mem {a b out : List frag} (h : Woven a b out) :
    ∀ p ∈ out, (∃ s ∈ a, IsSlice s p) ∨ (∃ bh ∈ b, p.len = bh.len ∧ p.data = bh.data) := by
  induction h with
  | done => intro p hp; cases hp
  | next s a b out _ ih =>
    intro p hp
    rcases ih p hp with ⟨s0, h1, h2⟩ | h3
    · exact Or.inl ⟨s0, List.mem_cons_of_mem _ h1, h2⟩
    · exact Or.inr h3
  | piece s q a b out hq _ ih =>
    intro p hp
    rcases List.mem_cons.1 hp with hp | hp
    · subst hp
      exact Or.inl ⟨s, List.mem_cons_self _ _, hq⟩
    · exact ih p hp
  | hunk h0 bh a b out e1 e2 _ ih =>
    intro p hp
    rcases List.mem_cons.1 hp with hp | hp
    · subst hp
      exact Or.inr ⟨bh, List.mem_cons_self _ _, e1, e2⟩
    · rcases ih p hp with h3 | ⟨b0, h1, h2⟩
      · exact Or.inl h3
      · exact Or.inr ⟨b0, List.mem_cons_of_mem _ h1, h2⟩

theorem hugeOld_off : hugeOld.data.off = 0 := rfl

theorem farHunk_len : farHunk.len = 0 := rfl

/-- C23 fails for a fragment of `a` with `len >= 2^31`: with
`a = [(0, 0, len 3 * 2^30)]` and `b = [(2^31 + 5, 2^31 + 5, len 0)]` the cut
`2^31 + 5` is negative as an `int`, the fragment of `a` is broken up with the
negative `l = 5 - 2^31`, and the rest of it, the third fragment of the output,
has `data + l`: it points `2^31 - 5` bytes before the data of the fragment it
comes from. -/
theorem C23_slice_before_data :
    (combine [hugeOld] [farHunk]).map (fun f => (f.len, f.data.off)) =
      [(2147483653, 0), (0, 0), (1073741819, -2147483643)] ∧
    ¬ Woven [hugeOld] [farHunk] (combine [hugeOld] [farHunk]) := by
  have h : (combine [hugeOld] [farHunk]).map (fun f => (f.len, f.data.off)) =
      [(2147483653, 0), (0, 0), (1073741819, -2147483643)] := by decide
  refine ⟨h, fun hw => ?_⟩
  have hm : ((1073741819 : Nat), (-2147483643 : Int)) ∈
      (combine [hugeOld] [farHunk]).map (fun f => (f.len, f.data.off)) := by
    rw [h]
    exact List.mem_cons_of_mem _ (List.mem_cons_of_mem _ (List.mem_cons_self _ _))
  obtain ⟨p, hp, he⟩ := List.mem_map.1 hm
  injection he with e1 e2
  rcases hw.mem p hp with ⟨s, hs, _, h2, _⟩ | ⟨bh, hb, h2, _⟩
  · rw [List.mem_singleton.1 hs, hugeOld_off, e2] at h2
    omega
  · rw [List.mem_singleton.1 hb, farHunk_len, e1] at h2
    omega

end Mpatch
namespace Mpatch

/-! ## `amp_string_unhexlify` on strings of any characters -/

theorem unhexPasses_length (fresh : UInt8) (inp : List UInt8) :
    ∀ (k pos : Nat), (unhexPasses fresh inp pos k).length = k
  | 0, _ => rfl
  | k + 1, pos => by
    show (unhexPasses fresh inp (pos + 2) k).length + 1 = k + 1
    rw [unhexPasses_length fresh inp k]

theorem unhexPasses_getD (fresh : UInt8) (inp : List UInt8) :
    ∀ (k pos i : Nat), i < k →
      (unhexPasses fresh inp pos k).getD i 0 =
        unhexLow (inp.getD (pos + 2 * i + 1) 0) (unhexHigh (inp.getD (pos + 2 * i) 0) fresh)
  | 0, _, _, h => by omega
  | k + 1, pos, 0, _ => rfl
  | k + 1, pos, i + 1, h => by
    show (unhexPasses fresh inp (pos + 2) k).getD i 0 = _
    rw [unhexPasses_getD fresh inp k (pos + 2) i (by omega)]
    have e : pos + 2 + 2 * i = pos + 2 * (i + 1) := by omega
    rw [e]

theorem unhexLoop_even (fresh : UInt8) (inp : List UInt8) :
    ∀ (k fuel pos : Nat) (out : List UInt8), 2 * k < 4294967296 → k + 1 ≤ fuel →
      unhexLoop fresh inp fuel (2 * k) pos out = some (out ++ unhexPasses fresh inp pos k)
  | 0, fuel, pos, out, _, hf => by
    obtain ⟨f, rfl⟩ : ∃ f, fuel = f + 1 := ⟨fuel - 1, by omega⟩
    rw [unhexLoop_succ, if_pos rfl]
    exact congrArg some (List.append_nil out).symm
  | k + 1, fuel, pos, out, hk, hf => by
    obtain ⟨f, rfl⟩ : ∃ f, fuel = f + 1 := ⟨fuel - 1, by omega⟩
    have e1 : 2 * (k + 1) ≠ 0 := by omega
    have e2 : u32 (((2 * (k + 1) : Nat) : Int) - 2) = 2 * k := by
      unfold u32
      omega
    rw [unhexLoop_succ, if_neg e1, e2, unhexLoop_even fresh inp k f (pos + 2) _ (by omega) (by omega),
      List.append_assoc]
    rfl

theorem unhexLoop_odd (fresh : UInt8) (inp : List UInt8) :
    ∀ (fuel len pos : Nat) (out : List UInt8), len % 2 = 1 →
      unhexLoop fresh inp fuel len pos out = none
  | 0, _, _, _, _ => rfl
  | fuel + 1, len, pos, out, h => by
    have e1 : len ≠ 0 := by omega
    have e2 : u32 ((len : Int) - 2) % 2 = 1 := by
      unfold u32
      omega
    rw [unhexLoop_succ, if_neg e1, unhexLoop_odd fresh inp fuel _ _ _ e2]

theorem unhexlify_len_even (fresh : UInt8) (s : List UInt8) (k : Nat) (hk : 2 * k < 4294967296) :
    unhexlify_len fresh s (2 * k) = .ok (unhexPasses fresh s 0 k) := by
  have h := unhexLoop_even fresh s k (2 * k / 2 + 1) 0 [] hk (by omega)
  unfold unhexlify_len
  rw [h]
  rfl

theorem unhexlify_len_odd (fresh : UInt8) (s : List UInt8) (len : Nat) (h : len % 2 = 1) :
    unhexlify_len fresh s len = .diverge := by
  unfold unhexlify_len
  rw [unhexLoop_odd fresh s _ len 0 [] h]

/-- On a string of even length `n` below `2^32`, whatever its characters, the
call returns a string of `n / 2` bytes; the byte `i` of the result is what one
pass of the loop stores for the characters `2i` and `2i + 1`. -/
theorem unhexlify_even_length (fresh : UInt8) (s : List UInt8) (he : s.length % 2 = 0)
    (hl : s.length < 4294967296) :
    ∃ out, amp_string_unhexlify fresh s = .ok out ∧ out.length = s.length / 2 ∧
      ∀ i, i < s.length / 2 →
        out.getD i 0 = unhexLow (s.getD (2 * i + 1) 0) (unhexHigh (s.getD (2 * i) 0) fresh) := by
  have e : u32 (s.length : Int) = 2 * (s.length / 2) := by unfold u32; omega
  refine ⟨unhexPasses fresh s 0 (s.length / 2), ?_, unhexPasses_length _ _ _ _, fun i hi => ?_⟩
  · unfold amp_string_unhexlify
    rw [e]
    exact unhexlify_len_even fresh s _ (by omega)
  · rw [unhexPasses_getD fresh s _ 0 i hi, Nat.zero_add]

/-- The four characters `"4x42"`, of which `x` is no digit, give two bytes. -/
theorem unhexlify_four_chars : amp_string_unhexlify 0 (bytes "4x42") = .ok [64, 66] := by
  decide

/-- The loop on a string of odd length never ends: `len` is unsigned, goes
from 1 to `2^32 - 1` and stays odd, so the test `while (len)` never fails. -/
theorem unhexlify_odd (fresh : UInt8) (s : List UInt8) (h : s.length % 2 = 1) :
    amp_string_unhexlify fresh s = .diverge ∧
    ∀ fuel, unhexLoop fresh s fuel (u32 s.length) 0 [] = none := by
  have e : u32 (s.length : Int) % 2 = 1 := by unfold u32; omega
  refine ⟨?_, fun fuel => unhexLoop_odd fresh s fuel _ 0 [] e⟩
  unfold amp_string_unhexlify
  exact unhexlify_len_odd fresh s _ e

/-- C24. The code does not do on a string of odd length what is claimed of it.
For the one-character string `"4"`, where a result of `1 / 2 = 0` bytes is
claimed, the call does not return, whatever the new string holds at first: the
loop `while (len) { ...; len -= 2; }` starts with `len = 1`, which the first
pass turns into `2^32 - 1`, and `len` stays odd, so no number of passes ends
the loop (every pass reads two characters and stores one byte, beyond the one
character of the input and the zero bytes of the result). -/
theorem C24_odd_length_never_returns :
    (bytes "4").length = 1 ∧
    (∀ fresh, amp_string_unhexlify fresh (bytes "4") = .diverge) ∧
    (∀ fresh fuel, unhexLoop fresh (bytes "4") fuel (u32 (bytes "4").length) 0 [] = none) ∧
    (∀ fresh out, amp_string_unhexlify fresh (bytes "4") ≠ .ok out) := by
  have h : (bytes "4").length % 2 = 1 := by decide
  refine ⟨by decide, fun fresh => (unhexlify_odd fresh _ h).1,
    fun fresh fuel => (unhexlify_odd fresh _ h).2 fuel, fun fresh out ho => ?_⟩
  rw [(unhexlify_odd fresh _ h).1] at ho
  cases ho

end Mpatch
